import Mathlib

/-!
# Hierarchical virtual memory: translation, frame allocation, eviction

A shallow embedding of `VirtualMemory.cpp`.

Conventions of the embedding.

* `word_t` (a signed machine word, 32 bits wide) is `Int`; a conversion into `word_t`
  from a wider type is `toWord` (two's complement wrap).
* `uint64_t` is `Nat`; a conversion of a signed value into `uint64_t` is `toU64`, and a
  left shift of a `uint64_t` is reduced modulo `2 ^ 64`.
* The geometry constants come from a header that is not part of the source file: they are
  the fields of `Geometry`, and the derived constants follow the specification.
* The physical memory backend (`PMread`, `PMwrite`, `PMevict`, `PMrestore`) is an external
  collaborator: it is modelled from the specification as a pure state transformer.
* Functions of the source that mutate the backend take a `State` and return the new one.
-/

namespace VirtualMemory

/-! ## Geometry -/

/-- Build-time geometry constants. -/
structure Geometry where
  /-- Bits of in-frame offset. -/
  OFFSET_WIDTH : Nat
  /-- Number of table levels above the leaf. -/
  TABLES_DEPTH : Nat
  /-- Physical frame count. -/
  NUM_FRAMES : Nat
deriving DecidableEq, Repr

/-- Modelled from the spec: the constant `PAGE_SIZE` of the missing header; each frame has
`PAGE_SIZE = 2 ^ OFFSET_WIDTH` word slots. -/
def Geometry.PAGE_SIZE (g : Geometry) : Nat := 2 ^ g.OFFSET_WIDTH

/-- Modelled from the spec: the constant `VIRTUAL_MEMORY_SIZE` of the missing header; a
virtual address has width `OFFSET_WIDTH * (TABLES_DEPTH + 1)` bits. -/
def Geometry.VIRTUAL_MEMORY_SIZE (g : Geometry) : Nat :=
  2 ^ (g.OFFSET_WIDTH * (g.TABLES_DEPTH + 1))

/-- Modelled from the spec: the constant `NUM_PAGES` of the missing header; the count of
distinct virtual pages, `VIRTUAL_MEMORY_SIZE / PAGE_SIZE`. -/
def Geometry.NUM_PAGES (g : Geometry) : Nat := g.VIRTUAL_MEMORY_SIZE / g.PAGE_SIZE

/-- The example geometry of the specification: `OFFSET_WIDTH = 4`, `TABLES_DEPTH = 3`,
five physical frames. -/
def exampleGeometry : Geometry := ⟨4, 3, 5⟩

/-! ## Machine integers -/

/-- Conversion into `word_t`: two's complement wrap to 32 bits. -/
def toWord (x : Int) : Int := Int.bmod x (2 ^ 32)

/-- Conversion of a signed value into `uint64_t`. -/
def toU64 (x : Int) : Nat := (x % 2 ^ 64).toNat

/-! ## Physical memory backend -/

/-- A mutating operation of the backend, as recorded in the operation log. -/
inductive BackendOp where
  | write (addr : Nat) (value : Int)
  | evict (frame : Nat) (page : Nat)
  | restore (frame : Nat) (page : Nat)
deriving DecidableEq, Repr

/-- The state of the backend: the physical memory, the swap store, and the log of the
mutating operations performed so far (oldest first). -/
structure State where
  /-- The word stored at each physical address. -/
  mem : Nat → Int
  /-- The words saved for each evicted page. -/
  swap : Nat → Option (List Int)
  /-- The mutating backend operations performed so far. -/
  log : List BackendOp

/-- Modelled from the spec: the backend operation `read(addr, &out)`, which loads the word
at `addr`. -/
def PMread (s : State) (physicalAddress : Nat) : Int := s.mem physicalAddress

/-- Modelled from the spec: the backend operation `write(addr, value)`, which stores
`value` at `addr`. -/
def PMwrite (s : State) (physicalAddress : Nat) (value : Int) : State :=
  { mem := Function.update s.mem physicalAddress value
    swap := s.swap
    log := s.log ++ [BackendOp.write physicalAddress value] }

/-- Modelled from the spec: the backend operation `evict(frame, page_number)`, which writes
the `PAGE_SIZE` words starting at `frame * PAGE_SIZE` into swap under key `page_number`;
the contents of the frame are unchanged. -/
def PMevict (g : Geometry) (s : State) (frameIndex : Nat) (evictedPageIndex : Nat) : State :=
  { mem := s.mem
    swap := Function.update s.swap evictedPageIndex
      (some ((List.range g.PAGE_SIZE).map (fun o => s.mem (frameIndex * g.PAGE_SIZE + o))))
    log := s.log ++ [BackendOp.evict frameIndex evictedPageIndex] }

/-- The word that a restore of a page puts at offset `o` of the frame: the saved word, or
zero when the page was never evicted. -/
def restoredWord (saved : Option (List Int)) (o : Nat) : Int :=
  match saved with
  | some l => l.getD o 0
  | none => 0

/-- Modelled from the spec: the backend operation `restore(frame, page_number)`, which
loads the swap-stored contents for `page_number` into `frame`; if `page_number` was never
evicted the frame becomes all zeros. -/
def PMrestore (g : Geometry) (s : State) (frameIndex : Nat) (restoredPageIndex : Nat) : State :=
  { mem := fun a =>
      if frameIndex * g.PAGE_SIZE ≤ a ∧ a < frameIndex * g.PAGE_SIZE + g.PAGE_SIZE then
        restoredWord (s.swap restoredPageIndex) (a - frameIndex * g.PAGE_SIZE)
      else s.mem a
    swap := s.swap
    log := s.log ++ [BackendOp.restore frameIndex restoredPageIndex] }

/-! ## Address decomposition -/

/-- The loop of `split_virtual_address`: `n` iterations remain, `i` is the loop counter and
`mask` the current mask. -/
def splitLoop (g : Geometry) (virtualAddress : Nat) : Nat → Nat → Nat → List Nat
  | 0, _, _ => []
  | n + 1, i, mask =>
    ((virtualAddress &&& mask) >>> (g.OFFSET_WIDTH * i)) ::
      splitLoop g virtualAddress n (i + 1) ((mask <<< g.OFFSET_WIDTH) % 2 ^ 64)

/-- The function `split_virtual_address`: the array of `size` offsets of a virtual
address. -/
def split_virtual_address (g : Geometry) (virtualAddress : Nat) (size : Nat) : List Nat :=
  splitLoop g virtualAddress size 0 (g.PAGE_SIZE - 1)

/-! ## Tree traversal -/

/-- The variables that `DFS` updates through its pointer parameters. -/
structure DFSVars where
  maxFrame : Int
  maxDistParentFrame : Int
  maxDist : Nat
  maxDistPagePath : Nat
  maxDistFrame : Int
  emptyFrame : Int
  emptyFrameOffset : Nat
  emptyFrameParent : Int
deriving DecidableEq, Repr

/-- The values of the variables of `findFrame` before its call of `DFS`. -/
def DFSVars.init : DFSVars := ⟨0, 0, 0, 0, 0, 0, 0, 0⟩

/-- The physical address `curFrame * PAGE_SIZE + i` that `DFS` computes into the
`word_t tmpAddr` and passes to `PMread`. -/
def slotAddr (g : Geometry) (curFrame : Int) (i : Nat) : Nat :=
  toU64 (toWord (curFrame * (g.PAGE_SIZE : Int) + (i : Int)))

/-- The page path that `DFS` passes down for slot `i` at depth `curDepth`:
`pagePath | (i << ((TABLES_DEPTH - curDepth - 1) * OFFSET_WIDTH))`, the shift being a
`word_t` shift. -/
def childPath (g : Geometry) (pagePath : Nat) (i : Nat) (curDepth : Nat) : Nat :=
  pagePath ||| toU64 (toWord
    (((i <<< ((g.TABLES_DEPTH - curDepth - 1) * g.OFFSET_WIDTH) : Nat) : Int)))

/-- The value `tmpMinDist` that `DFS` computes at the page level from the page to install
and the page path of the leaf. -/
def tmpMinDist (g : Geometry) (pageSwappedIn pagePath : Nat) : Nat :=
  let resDist := if pageSwappedIn > pagePath then pageSwappedIn - pagePath
    else pagePath - pageSwappedIn
  if toU64 ((g.NUM_PAGES : Int) - (resDist : Int)) > resDist then resDist
  else toU64 ((g.NUM_PAGES : Int) - (resDist : Int))

/-- The update of the eviction candidate that `DFS` performs at the page level. -/
def leafUpdate (g : Geometry) (pageSwappedIn : Nat) (curFrame parentFrame : Int)
    (pagePath : Nat) (v : DFSVars) : DFSVars :=
  if tmpMinDist g pageSwappedIn pagePath > v.maxDist then
    { v with
      maxDist := tmpMinDist g pageSwappedIn pagePath
      maxDistFrame := curFrame
      maxDistPagePath := pagePath
      maxDistParentFrame := parentFrame }
  else v

/-- The function `DFS`. The recursion is on `rem = TABLES_DEPTH - curDepth`, the number of
levels below the current frame, so the test `curDepth == TABLES_DEPTH` is `rem = 0` and a
descent passes `curDepth + 1` as `rem - 1`. -/
def DFS (g : Geometry) (s : State) (pageSwappedIn : Nat) (frameEvict : Int) :
    Nat → Int → Int → Nat → DFSVars → DFSVars
  | 0, curFrame, parentFrame, pagePath, v =>
    if v.emptyFrame ≠ 0 then v
    else
      let v := { v with maxFrame := if curFrame ≥ v.maxFrame then curFrame else v.maxFrame }
      leafUpdate g pageSwappedIn curFrame parentFrame pagePath v
  | rem + 1, curFrame, parentFrame, pagePath, v =>
    if v.emptyFrame ≠ 0 then v
    else
      let curDepth := g.TABLES_DEPTH - (rem + 1)
      let v := { v with maxFrame := if curFrame ≥ v.maxFrame then curFrame else v.maxFrame }
      let r := (List.range g.PAGE_SIZE).foldl
        (fun (st : DFSVars × Nat) (i : Nat) =>
          let tmpWord := PMread s (slotAddr g curFrame i)
          if tmpWord ≠ 0 then
            (DFS g s pageSwappedIn frameEvict rem tmpWord curFrame
              (childPath g pagePath i curDepth) st.1, st.2)
          else (st.1, st.2 + 1))
        (v, 0)
      if r.2 = g.PAGE_SIZE ∧ frameEvict ≠ curFrame then
        { r.1 with
          emptyFrame := curFrame
          emptyFrameOffset :=
            (pagePath >>> ((g.TABLES_DEPTH - curDepth) * g.OFFSET_WIDTH)) &&& (g.PAGE_SIZE - 1)
          emptyFrameParent := parentFrame }
      else r.1

/-! ## Frame allocation -/

/-- The function `fillWithZeros`. -/
def fillWithZeros (g : Geometry) (s : State) (frame : Int) : State :=
  (List.range g.PAGE_SIZE).foldl
    (fun st (i : Nat) => PMwrite st (toU64 (frame * (g.PAGE_SIZE : Int) + (i : Int))) 0) s

/-- The function `findFrame`: the frame returned and the state of the backend after the
call. -/
def findFrame (g : Geometry) (s : State) (virtualAddress : Nat) (frameEvict : Int) :
    Int × State :=
  let pageSwappedIn : Int := toWord ((virtualAddress >>> g.OFFSET_WIDTH : Nat) : Int)
  let v := DFS g s (toU64 pageSwappedIn) frameEvict g.TABLES_DEPTH 0 0 0 DFSVars.init
  if v.emptyFrame ≠ 0 then
    (v.emptyFrame,
      PMwrite s (toU64 (v.emptyFrameParent * (g.PAGE_SIZE : Int) + (v.emptyFrameOffset : Int))) 0)
  else if v.maxFrame + 1 < (g.NUM_FRAMES : Int) then
    (v.maxFrame + 1, s)
  else if v.maxDistFrame ≠ 0 then
    let s1 := PMevict g s (toU64 v.maxDistFrame) v.maxDistPagePath
    let offset : Int := toWord ((v.maxDistPagePath &&& (g.PAGE_SIZE - 1) : Nat) : Int)
    (v.maxDistFrame,
      PMwrite s1 (toU64 (v.maxDistParentFrame * (g.PAGE_SIZE : Int) + offset)) 0)
  else (-1, s)

/-! ## Translation -/

/-- The body of the loop of `translate` for the value `i` of the loop counter, `tmpAddress`
being the current frame: the frame after the iteration and the state of the backend. -/
def translateStep (g : Geometry) (virtualAddress : Nat) (offsets_arr : List Nat) (i : Nat)
    (tmpAddress : Int) (s : State) : Int × State :=
  let frameEvict := tmpAddress
  let curWord := toU64 (tmpAddress * (g.PAGE_SIZE : Int) + ((offsets_arr.getD i 0 : Nat) : Int))
  let tmpAddress := PMread s curWord
  if tmpAddress = 0 then
    let r := findFrame g s virtualAddress frameEvict
    let newFrame := r.1
    let s1 := if i > 1 then fillWithZeros g r.2 newFrame else r.2
    let s2 := PMwrite s1 curWord newFrame
    let s3 := if i = 1 then
        PMrestore g s2 (toU64 newFrame) (virtualAddress >>> g.OFFSET_WIDTH)
      else s2
    (newFrame, s3)
  else (tmpAddress, s)

/-- The loop of `translate`, from the value `i` of the loop counter down to `1`. -/
def translateLoop (g : Geometry) (virtualAddress : Nat) (offsets_arr : List Nat) :
    Nat → Int → State → Int × State
  | 0, tmpAddress, s => (tmpAddress, s)
  | i + 1, tmpAddress, s =>
    let r := translateStep g virtualAddress offsets_arr (i + 1) tmpAddress s
    translateLoop g virtualAddress offsets_arr i r.1 r.2

/-- The function `translate`: the leaf frame that holds the page and the state of the
backend after the call. -/
def translate (g : Geometry) (s : State) (virtualAddress : Nat) : Int × State :=
  let size_arr := g.TABLES_DEPTH + 1
  let offsets_arr := split_virtual_address g virtualAddress size_arr
  translateLoop g virtualAddress offsets_arr (size_arr - 1) 0 s

/-! ## Public surface -/

/-- The function `VMinitialize`. -/
def VMinitialize (g : Geometry) (s : State) : State := fillWithZeros g s 0

/-- The result of `VMread`: the value returned, the content of `*value` after the call and
the state of the backend after the call. -/
structure ReadResult where
  ret : Int
  value : Int
  state : State

/-- The function `VMread`; `value` is the content of `*value` before the call. The test
`virtualAddress < 0` of the source is false for every `uint64_t` and is left out. -/
def VMread (g : Geometry) (s : State) (virtualAddress : Nat) (value : Int) : ReadResult :=
  if virtualAddress ≥ g.VIRTUAL_MEMORY_SIZE then ⟨0, value, s⟩
  else
    let mask := g.PAGE_SIZE - 1
    let offset := virtualAddress &&& mask
    let r := translate g s virtualAddress
    let physicalAddress := toU64 (r.1 * (g.PAGE_SIZE : Int) + (offset : Int))
    ⟨1, PMread r.2 physicalAddress, r.2⟩

/-- The function `VMwrite`: the value returned and the state of the backend after the
call. The test `virtualAddress < 0` of the source is false for every `uint64_t` and is left
out. -/
def VMwrite (g : Geometry) (s : State) (virtualAddress : Nat) (value : Int) : Int × State :=
  if virtualAddress ≥ g.VIRTUAL_MEMORY_SIZE then (0, s)
  else
    let mask := g.PAGE_SIZE - 1
    let offset := virtualAddress &&& mask
    let r := translate g s virtualAddress
    let physicalAddress := toU64 (r.1 * (g.PAGE_SIZE : Int) + (offset : Int))
    (1, PMwrite r.2 physicalAddress value)

/-- The mask of `split_virtual_address` after `i` iterations. -/
def splitMask (g : Geometry) (i : Nat) : Nat :=
  ((g.PAGE_SIZE - 1) <<< (g.OFFSET_WIDTH * i)) % 2 ^ 64

/-! ## Specification of the traversal -/

/-- A frame met by the traversal that starts at frame 0: the frame, the frame it was reached
from, the slot of that parent that holds it, the page path accumulated on the way and its
depth in the tree. -/
structure Node where
  frame : Int
  parent : Int
  slot : Nat
  pagePath : Nat
  depth : Nat
deriving DecidableEq, Repr

/-- All `PAGE_SIZE` slots of the frame are zero. -/
def EmptyTable (g : Geometry) (s : State) (f : Int) : Prop :=
  ∀ i, i < g.PAGE_SIZE → PMread s (slotAddr g f i) = 0

instance (g : Geometry) (s : State) (f : Int) : Decidable (EmptyTable g s f) := by
  unfold EmptyTable; infer_instance

/-- The frames of the subtree below a frame, in the order in which the traversal meets
them: the frame itself, then the subtrees of its nonzero slots in ascending slot order.
`rem` is the number of levels below the frame. -/
def nodesFrom (g : Geometry) (s : State) : Nat → Int → Int → Nat → Nat → List Node
  | 0, f, par, sl, pp => [⟨f, par, sl, pp, g.TABLES_DEPTH⟩]
  | rem + 1, f, par, sl, pp =>
    ⟨f, par, sl, pp, g.TABLES_DEPTH - (rem + 1)⟩ ::
      (List.range g.PAGE_SIZE).flatMap (fun i =>
        if PMread s (slotAddr g f i) ≠ 0 then
          nodesFrom g s rem (PMread s (slotAddr g f i)) f i
            (childPath g pp i (g.TABLES_DEPTH - (rem + 1)))
        else [])

/-- The frames reachable from frame 0, in traversal order. -/
def nodes (g : Geometry) (s : State) : List Node := nodesFrom g s g.TABLES_DEPTH 0 0 0 0

/-- The leaves (frames at depth `TABLES_DEPTH`) reachable from frame 0, in traversal
order. -/
def leaves (g : Geometry) (s : State) : List Node :=
  (nodes g s).filter (fun n => n.depth = g.TABLES_DEPTH)

/-- What the traversal does to its variables when it meets one frame. -/
def visit (g : Geometry) (s : State) (pageSwappedIn : Nat) (frameEvict : Int)
    (v : DFSVars) (n : Node) : DFSVars :=
  if v.emptyFrame ≠ 0 then v
  else
    let v1 := { v with maxFrame := if n.frame ≥ v.maxFrame then n.frame else v.maxFrame }
    if n.depth = g.TABLES_DEPTH then leafUpdate g pageSwappedIn n.frame n.parent n.pagePath v1
    else if EmptyTable g s n.frame ∧ frameEvict ≠ n.frame then
      { v1 with
        emptyFrame := n.frame
        emptyFrameOffset :=
          (n.pagePath >>> ((g.TABLES_DEPTH - n.depth) * g.OFFSET_WIDTH)) &&& (g.PAGE_SIZE - 1)
        emptyFrameParent := n.parent }
    else v1

/-- The frame is one that the traversal records as an empty table: a table frame (not at
the page level) whose slots are all zero, other than `frameEvict` and with a nonzero
index. -/
def IsEmptyCandidate (g : Geometry) (s : State) (frameEvict : Int) (n : Node) : Prop :=
  n.depth ≠ g.TABLES_DEPTH ∧ EmptyTable g s n.frame ∧ frameEvict ≠ n.frame ∧ n.frame ≠ 0

instance (g : Geometry) (s : State) (fe : Int) (n : Node) :
    Decidable (IsEmptyCandidate g s fe n) := by
  unfold IsEmptyCandidate; infer_instance

/-- The largest frame index among a start value and the frames of a list. -/
def maxFrameOf (l : List Node) (m : Int) : Int :=
  l.foldl (fun m n => if n.frame ≥ m then n.frame else m) m

/-- The largest frame index reachable from frame 0, the root included. -/
def maxReachable (g : Geometry) (s : State) : Int := maxFrameOf (nodes g s) 0

/-- The eviction candidate after the leaves of a list, in order. -/
def victimOf (g : Geometry) (pageSwappedIn : Nat) (l : List Node) (v : DFSVars) : DFSVars :=
  l.foldl (fun v n => leafUpdate g pageSwappedIn n.frame n.parent n.pagePath v) v

/-- The variables of the traversal that describe the eviction candidate agree. -/
def SameVictim (v w : DFSVars) : Prop :=
  v.maxDist = w.maxDist ∧ v.maxDistFrame = w.maxDistFrame ∧
  v.maxDistPagePath = w.maxDistPagePath ∧ v.maxDistParentFrame = w.maxDistParentFrame

/-- The geometry fits the machine words: physical word addresses and page numbers are
below `2 ^ 31`, so no conversion into `word_t` wraps. -/
def Geometry.Fits (g : Geometry) : Prop :=
  g.NUM_FRAMES * g.PAGE_SIZE ≤ 2 ^ 31 ∧ g.OFFSET_WIDTH * g.TABLES_DEPTH ≤ 31

instance (g : Geometry) : Decidable g.Fits := by
  unfold Geometry.Fits; infer_instance

/-- The cyclic distance of the specification between two page numbers:
`min(|a - b|, NUM_PAGES - |a - b|)`. -/
def cyclicDist (g : Geometry) (a b : Nat) : Nat :=
  min (if a > b then a - b else b - a) (g.NUM_PAGES - (if a > b then a - b else b - a))

/-- The frame `f` is reached from frame 0 by `d` nonzero links, through the slots whose
indices are the base-`PAGE_SIZE` digits of `q`: the page-table tree rooted at frame 0. -/
inductive Tree (g : Geometry) (s : State) : Nat → Nat → Int → Prop
  | root : Tree g s 0 0 0
  | child {d q : Nat} {f : Int} (i : Nat) :
      Tree g s d q f → d < g.TABLES_DEPTH → i < g.PAGE_SIZE →
      PMread s (slotAddr g f i) ≠ 0 →
      Tree g s (d + 1) (q * g.PAGE_SIZE + i) (PMread s (slotAddr g f i))

/-- The record of the traversal for a frame agrees with the tree: its page path is the
digits `q` of its slots shifted to the page-number position, and its parent and slot are
the ones that link it. -/
def NodeOK (g : Geometry) (s : State) (n : Node) : Prop :=
  ∃ q, Tree g s n.depth q n.frame ∧
    n.pagePath = q * g.PAGE_SIZE ^ (g.TABLES_DEPTH - n.depth) ∧
    n.depth ≤ g.TABLES_DEPTH ∧
    ((n.depth = 0 ∧ n.frame = 0 ∧ n.parent = 0 ∧ n.slot = 0 ∧ q = 0) ∨
     (1 ≤ n.depth ∧ n.frame ≠ 0 ∧ n.slot < g.PAGE_SIZE ∧
      PMread s (slotAddr g n.parent n.slot) = n.frame ∧
      ∃ qp, Tree g s (n.depth - 1) qp n.parent ∧ q = qp * g.PAGE_SIZE + n.slot))

/-- The page number that `findFrame` passes to `DFS`: `virtualAddress >> OFFSET_WIDTH`
stored in a `word_t` and converted back. -/
def pageSwappedInOf (g : Geometry) (virtualAddress : Nat) : Nat :=
  toU64 (toWord ((virtualAddress >>> g.OFFSET_WIDTH : Nat) : Int))

/-- The variables of `findFrame` after its call of `DFS`. -/
def dfsResult (g : Geometry) (s : State) (virtualAddress : Nat) (frameEvict : Int) : DFSVars :=
  DFS g s (pageSwappedInOf g virtualAddress) frameEvict g.TABLES_DEPTH 0 0 0 DFSVars.init

/-- Every frame of the tree is a valid frame index. -/
def TreeRange (g : Geometry) (s : State) : Prop :=
  ∀ d q f, Tree g s d q f → 0 ≤ f ∧ f < (g.NUM_FRAMES : Int)

/-- Every frame of the tree is reached in one way only: the links form a tree. -/
def TreeUnique (g : Geometry) (s : State) : Prop :=
  ∀ d q f d2 q2, Tree g s d q f → Tree g s d2 q2 f → d = d2 ∧ q = q2

/-- The frames of the tree are the frames `0 .. M` for some `M`: below a frame of the tree
every frame index is in the tree. -/
def TreeClosed (g : Geometry) (s : State) : Prop :=
  ∀ d q f x, Tree g s d q f → 0 ≤ x → x ≤ f → ∃ d2 q2, Tree g s d2 q2 x

/-- The leaf frame of a resident page holds the words of that page in the virtual memory
`vm`. -/
def ResidentData (g : Geometry) (s : State) (vm : Nat → Int) : Prop :=
  ∀ q f, Tree g s g.TABLES_DEPTH q f → ∀ o, o < g.PAGE_SIZE →
    s.mem (f.toNat * g.PAGE_SIZE + o) = vm (q * g.PAGE_SIZE + o)

/-- A restore of a page that is not resident yields the words of that page in the virtual
memory `vm`. -/
def SwappedData (g : Geometry) (s : State) (vm : Nat → Int) : Prop :=
  ∀ q, q < g.NUM_PAGES → (∀ f, ¬ Tree g s g.TABLES_DEPTH q f) → ∀ o, o < g.PAGE_SIZE →
    restoredWord (s.swap q) o = vm (q * g.PAGE_SIZE + o)

/-- The invariant that holds between two allocations: the links form a tree of valid
frames `0 .. M`, and physical memory and swap together hold the virtual memory `vm`. -/
structure Inv (g : Geometry) (s : State) (vm : Nat → Int) : Prop where
  range : TreeRange g s
  unique : TreeUnique g s
  closed : TreeClosed g s
  resident : ResidentData g s vm
  swapped : SwappedData g s vm

/-- The invariant that holds after `findFrame` has returned the frame `nf` and before the
caller links it: `nf` is a valid frame outside the tree, and the tree together with `nf`
is made of the frames `0 .. M`. -/
structure Detached (g : Geometry) (s : State) (vm : Nat → Int) (nf : Int) : Prop where
  range : TreeRange g s
  unique : TreeUnique g s
  nf_pos : 0 < nf
  nf_lt : nf < (g.NUM_FRAMES : Int)
  fresh : ∀ d q, ¬ Tree g s d q nf
  closed1 : ∀ d q f x, Tree g s d q f → 0 ≤ x → x ≤ f → x = nf ∨ ∃ d2 q2, Tree g s d2 q2 x
  closed2 : ∀ x, 0 ≤ x → x < nf → ∃ d2 q2, Tree g s d2 q2 x
  resident : ResidentData g s vm
  swapped : SwappedData g s vm

/-! ## Sequences of calls -/

/-- A call of the public surface. -/
inductive Call where
  | read (virtualAddress : Nat)
  | write (virtualAddress : Nat) (value : Int)
deriving DecidableEq, Repr

/-- The virtual address of a call. -/
def Call.addr : Call → Nat
  | Call.read V => V
  | Call.write V _ => V

/-- The state of the backend after one call. -/
def stepCall (g : Geometry) (s : State) : Call → State
  | Call.read V => (VMread g s V 0).state
  | Call.write V x => (VMwrite g s V x).2

/-- The state of the backend after a sequence of calls. -/
def run (g : Geometry) (s : State) (cs : List Call) : State := cs.foldl (stepCall g) s

/-- The value of the most recent `VMwrite` to an address in a sequence of calls, if any. -/
def lastWrite (cs : List Call) (V : Nat) : Option Int :=
  cs.foldl (fun r c =>
    match c with
    | Call.read _ => r
    | Call.write W x => if W = V then some x else r) none

/-- The virtual memory after a sequence of calls: each `VMwrite` stores its value. -/
def vmAfter (vm : Nat → Int) (cs : List Call) : Nat → Int :=
  cs.foldl (fun vm c =>
    match c with
    | Call.read _ => vm
    | Call.write W x => Function.update vm W x) vm

/-- The virtual memory that a state with an untouched page-table tree stands for: every
page is what a restore from its swap would yield. -/
def initialVM (g : Geometry) (s : State) : Nat → Int :=
  fun a => restoredWord (s.swap (a / g.PAGE_SIZE)) (a % g.PAGE_SIZE)

/-- The first `k` iterations of the loop of `translate`, from the value `i` of the loop
counter: the states between two allocations of one `translate`. -/
def translatePartial (g : Geometry) (virtualAddress : Nat) (offsets_arr : List Nat) :
    Nat → Nat → Int → State → Int × State
  | 0, _, tmpAddress, s => (tmpAddress, s)
  | _ + 1, 0, tmpAddress, s => (tmpAddress, s)
  | k + 1, i + 1, tmpAddress, s =>
    let r := translateStep g virtualAddress offsets_arr (i + 1) tmpAddress s
    translatePartial g virtualAddress offsets_arr k i r.1 r.2

/-- The states that the backend can be in: after `VMinitialize` on any state, after any
in-range `VMread` or `VMwrite`, and between two iterations of the loop of a `translate`
for an in-range address. -/
inductive ReachableState (g : Geometry) : State → Prop
  | init (s0 : State) : ReachableState g ( VMinitialize g s0)
  | read {s : State} (V : Nat) (v : Int) :
      ReachableState g s → V < g.VIRTUAL_MEMORY_SIZE → ReachableState g (VMread g s V v).state
  | write {s : State} (V : Nat) (x : Int) :
      ReachableState g s → V < g.VIRTUAL_MEMORY_SIZE → ReachableState g (VMwrite g s V x).2
  | translating {s : State} (V : Nat) (k : Nat) :
      ReachableState g s → V < g.VIRTUAL_MEMORY_SIZE →
      ReachableState g
        (translatePartial g V (split_virtual_address g V (g.TABLES_DEPTH + 1)) k
          g.TABLES_DEPTH 0 s).2

/-- The walk of `translate` along the slots `offsets[i], ..., offsets[1]` from a frame, in a
state in which no link is missing: the frame reached, or `none` at a zero link. -/
def walk (g : Geometry) (s : State) (offsets_arr : List Nat) : Nat → Int → Option Int
  | 0, f => some f
  | i + 1, f =>
    if PMread s (toU64 (f * (g.PAGE_SIZE : Int) + ((offsets_arr.getD (i + 1) 0 : Nat) : Int))) = 0
    then none
    else walk g s offsets_arr i
      (PMread s (toU64 (f * (g.PAGE_SIZE : Int) + ((offsets_arr.getD (i + 1) 0 : Nat) : Int))))

/-! ## The traversal with an explicit depth -/

/-- The function `DFS` with the parameter `curDepth` of the source and a bound `fuel` on the
nesting of its recursive calls: `none` when a call would nest deeper than `fuel`. -/
def DFSfuel (g : Geometry) (s : State) (pageSwappedIn : Nat) (frameEvict : Int) :
    Nat → Int → Int → Nat → Nat → DFSVars → Option DFSVars
  | 0, _, _, _, _, _ => none
  | fuel + 1, curFrame, parentFrame, curDepth, pagePath, v =>
    if v.emptyFrame ≠ 0 then some v
    else
      let v := { v with maxFrame := if curFrame ≥ v.maxFrame then curFrame else v.maxFrame }
      if curDepth = g.TABLES_DEPTH then
        some (leafUpdate g pageSwappedIn curFrame parentFrame pagePath v)
      else
        let r := (List.range g.PAGE_SIZE).foldl
          (fun (st : Option (DFSVars × Nat)) (i : Nat) =>
            match st with
            | none => none
            | some st =>
              let tmpWord := PMread s (slotAddr g curFrame i)
              if tmpWord ≠ 0 then
                match DFSfuel g s pageSwappedIn frameEvict fuel tmpWord curFrame (curDepth + 1)
                    (childPath g pagePath i curDepth) st.1 with
                | none => none
                | some v2 => some (v2, st.2)
              else some (st.1, st.2 + 1))
          (some (v, 0))
        match r with
        | none => none
        | some r =>
          if r.2 = g.PAGE_SIZE ∧ frameEvict ≠ curFrame then
            some { r.1 with
              emptyFrame := curFrame
              emptyFrameOffset :=
                (pagePath >>> ((g.TABLES_DEPTH - curDepth) * g.OFFSET_WIDTH))
                  &&& (g.PAGE_SIZE - 1)
              emptyFrameParent := parentFrame }
          else some r.1

/-- A state of the example geometry whose links form a cycle: slot 0 of frame 0 holds 1
and slot 0 of frame 1 holds 1. -/
def cyclicState : State :=
  ⟨fun a => if a = 0 then 1 else if a = 16 then 1 else 0, fun _ => none, []⟩

/-- A state whose physical memory is all zero, with an empty swap. -/
def zeroState : State := ⟨fun _ => 0, fun _ => none, []⟩

/-- A state of the example geometry in which frame 0 links the table frame 1, whose slots
are all zero. -/
def emptyTableState : State := PMwrite zeroState 0 1

/-- A state of the example geometry in which all five frames are in use: frame 0 links
table 1, which links table 2, which holds the leaves 3 (page 0) and 4 (page 1). -/
def fullState : State :=
  ⟨fun a => if a = 0 then 1 else if a = 16 then 2 else if a = 32 then 3
    else if a = 33 then 4 else 0, fun _ => none, []⟩

/-- A state between two allocations of one `translate` in the example geometry: after
`VMinitialize` on the all-zero state and two iterations of the loop of `translate` for the
address `0x1234`. -/
def midTranslateState : State :=
  (translatePartial exampleGeometry 0x1234
    (split_virtual_address exampleGeometry 0x1234 (exampleGeometry.TABLES_DEPTH + 1)) 2
    exampleGeometry.TABLES_DEPTH 0 ( VMinitialize exampleGeometry zeroState)).2

/-- A geometry with fewer frames than `TABLES_DEPTH + 1`: pages of 2 words, two levels of
tables and 2 frames. -/
def smallGeometry : Geometry := ⟨1, 2, 2⟩

/-- A geometry of 8-word pages, 11 levels of tables and 12 frames
(`NUM_FRAMES = TABLES_DEPTH + 1`): its page numbers have 33 bits. -/
def wideGeometry : Geometry := ⟨3, 11, 12⟩

/-- A geometry of 4-word pages, 16 levels of tables and 17 frames
(`NUM_FRAMES = TABLES_DEPTH + 1`): its page numbers have 32 bits. -/
def deepGeometry : Geometry := ⟨2, 16, 17⟩

/-- A geometry of 256-word pages, 4 levels of tables and 9 frames: its page numbers have
32 bits. -/
def byteGeometry : Geometry := ⟨8, 4, 9⟩

/-- A geometry of 256-word pages, 4 levels of tables and 5 frames
(`NUM_FRAMES = TABLES_DEPTH + 1`): its page numbers have 32 bits. -/
def byteGeometrySmall : Geometry := ⟨8, 4, 5⟩

/-- The state of `wideGeometry` after `VMinitialize` on the all-zero state and an in-range
`VMwrite` to the page `2^32 + 5`. -/
def wideState : State :=
  (VMwrite wideGeometry ( VMinitialize wideGeometry zeroState) 34359738409 77).2

/-- A state of `byteGeometry` in which all nine frames are in use: the pages `0x7FFFFFFF`
(leaf frame 4, through the tables 1, 2, 3) and `0xC0000000` (leaf frame 8, through the
tables 5, 6, 7) are resident. -/
def twoLeafState : State :=
  ⟨fun a => if a = 127 then 1 else if a = 511 then 2 else if a = 767 then 3
    else if a = 1023 then 4 else if a = 192 then 5 else if a = 1280 then 6
    else if a = 1536 then 7 else if a = 1792 then 8 else 0, fun _ => none, []⟩

/-- A state of `byteGeometrySmall` in which all five frames are in use: the page
`2147483649` is resident in the leaf frame 4, through the tables 1, 2, 3, and its first
word is 7. -/
def highLeafState : State :=
  ⟨fun a => if a = 128 then 1 else if a = 256 then 2 else if a = 512 then 3
    else if a = 769 then 4 else if a = 1024 then 7 else 0, fun _ => none, []⟩

/-- A state of `wideGeometry` in which slot 2 of frame 0 links the table frame 1, whose
slots are all zero. -/
def highTableState : State := ⟨fun a => if a = 2 then 1 else 0, fun _ => none, []⟩

/-! ## Verification -/

/-! ### Address decomposition -/


theorem splitLoop_length (g : Geometry) (V : Nat) (n i mask : Nat) :
    (splitLoop g V n i mask).length = n := by
  induction n generalizing i mask with
  | zero => rfl
  | succ n ih => simp [splitLoop, ih]

theorem splitMask_succ (g : Geometry) (i : Nat) :
    (splitMask g i <<< g.OFFSET_WIDTH) % 2 ^ 64 = splitMask g (i + 1) := by
  unfold splitMask
  rw [Nat.shiftLeft_eq, Nat.shiftLeft_eq, Nat.shiftLeft_eq, Nat.mul_add, Nat.mul_one, pow_add,
    Nat.mod_mul_mod, Nat.mul_assoc]

theorem splitLoop_getD (g : Geometry) (V : Nat) (n i j : Nat) (hj : j < n) :
    (splitLoop g V n i (splitMask g i)).getD j 0
      = (V &&& splitMask g (i + j)) >>> (g.OFFSET_WIDTH * (i + j)) := by
  induction n generalizing i j with
  | zero => omega
  | succ n ih =>
    cases j with
    | zero => simp [splitLoop]
    | succ j =>
      simp only [splitLoop, List.getD_cons_succ, splitMask_succ]
      rw [ih (i + 1) j (by omega)]
      have : i + 1 + j = i + (j + 1) := by omega
      rw [this]

theorem and_splitMask_shift (g : Geometry) (V k : Nat) (hV : V < 2 ^ 64) :
    (V &&& splitMask g k) >>> (g.OFFSET_WIDTH * k) = (V >>> (g.OFFSET_WIDTH * k)) % g.PAGE_SIZE := by
  apply Nat.eq_of_testBit_eq
  intro j
  unfold splitMask Geometry.PAGE_SIZE
  simp only [Nat.testBit_shiftRight, Nat.testBit_and, Nat.testBit_mod_two_pow,
    Nat.testBit_shiftLeft, Nat.testBit_two_pow_sub_one]
  by_cases h64 : g.OFFSET_WIDTH * k + j < 64
  · by_cases hj : j < g.OFFSET_WIDTH <;> simp [h64, hj]
  · have : V.testBit (g.OFFSET_WIDTH * k + j) = false := by
      apply Nat.testBit_lt_two_pow
      calc V < 2 ^ 64 := hV
        _ ≤ 2 ^ (g.OFFSET_WIDTH * k + j) := Nat.pow_le_pow_right (by norm_num) (by omega)
    simp [this]

theorem split_virtual_address_getD (g : Geometry) (V size i : Nat) (hV : V < 2 ^ 64)
    (hi : i < size) :
    (split_virtual_address g V size).getD i 0 = (V >>> (g.OFFSET_WIDTH * i)) % g.PAGE_SIZE := by
  unfold split_virtual_address
  obtain ⟨n, rfl⟩ : ∃ n, size = n + 1 := ⟨size - 1, by omega⟩
  cases i with
  | zero =>
    simp only [splitLoop, List.getD_cons_zero, Nat.mul_zero, Nat.shiftRight_zero]
    exact Nat.and_pow_two_sub_one_eq_mod V g.OFFSET_WIDTH
  | succ j =>
    have h1 : ((g.PAGE_SIZE - 1) <<< g.OFFSET_WIDTH) % 2 ^ 64 = splitMask g 1 := by
      simp [splitMask]
    simp only [splitLoop, List.getD_cons_succ, h1]
    rw [splitLoop_getD g V n 1 j (by omega), and_splitMask_shift g V _ hV, Nat.add_comm 1 j]

theorem split_virtual_address_length (g : Geometry) (V size : Nat) :
    (split_virtual_address g V size).length = size := splitLoop_length g V size 0 _

/-! ### The traversal as a fold over the frames it visits -/

theorem foldl_visit_of_found (g : Geometry) (s : State) (π : Nat) (fe : Int) (l : List Node)
    (v : DFSVars) (h : v.emptyFrame ≠ 0) : l.foldl (visit g s π fe) v = v := by
  induction l with
  | nil => rfl
  | cons n l ih => simp only [List.foldl_cons, visit, h, ne_eq, not_false_eq_true, if_true, ih]

theorem dfs_loop (g : Geometry) (s : State) (π : Nat) (fe : Int) (rem : Nat) (f : Int) (pp : Nat)
    (d : Nat)
    (ih : ∀ (c par : Int) (sl pq : Nat) (v : DFSVars),
      DFS g s π fe rem c par pq v = (nodesFrom g s rem c par sl pq).foldl (visit g s π fe) v)
    (l : List Nat) (v : DFSVars) (c : Nat) :
    l.foldl (fun (st : DFSVars × Nat) (i : Nat) =>
        if PMread s (slotAddr g f i) ≠ 0 then
          (DFS g s π fe rem (PMread s (slotAddr g f i)) f (childPath g pp i d) st.1, st.2)
        else (st.1, st.2 + 1)) (v, c)
      = ((l.flatMap (fun i =>
          if PMread s (slotAddr g f i) ≠ 0 then
            nodesFrom g s rem (PMread s (slotAddr g f i)) f i (childPath g pp i d)
          else [])).foldl (visit g s π fe) v,
        c + (l.filter (fun i => decide (PMread s (slotAddr g f i) = 0))).length) := by
  induction l generalizing v c with
  | nil => simp
  | cons i l ihl =>
    simp only [List.foldl_cons, List.flatMap_cons, List.foldl_append]
    by_cases hz : PMread s (slotAddr g f i) = 0
    · simp only [hz, ne_eq, not_true_eq_false, if_false, List.foldl_nil]
      rw [ihl]
      simp [List.filter_cons, hz]
      omega
    · simp only [hz, ne_eq, not_false_eq_true, if_true]
      rw [ihl, ih _ f i]
      simp [List.filter_cons, hz]

theorem zero_count_eq_iff (g : Geometry) (s : State) (f : Int) :
    ((List.range g.PAGE_SIZE).filter (fun i => decide (PMread s (slotAddr g f i) = 0))).length
      = g.PAGE_SIZE ↔ EmptyTable g s f := by
  have hlen : (List.range g.PAGE_SIZE).length = g.PAGE_SIZE := List.length_range _
  constructor
  · intro h i hi
    have h2 : (List.range g.PAGE_SIZE).filter
        (fun i => decide (PMread s (slotAddr g f i) = 0)) = List.range g.PAGE_SIZE := by
      apply List.Sublist.eq_of_length (List.filter_sublist _)
      rw [h, hlen]
    have := (List.filter_eq_self.mp h2) i (List.mem_range.mpr hi)
    simpa using this
  · intro h
    have h2 : (List.range g.PAGE_SIZE).filter
        (fun i => decide (PMread s (slotAddr g f i) = 0)) = List.range g.PAGE_SIZE := by
      apply List.filter_eq_self.mpr
      intro i hi
      simpa using h i (List.mem_range.mp hi)
    rw [h2, hlen]

theorem flatMap_eq_nil_of_empty (g : Geometry) (s : State) (f : Int) (F : Nat → List Node)
    (h : EmptyTable g s f) :
    (List.range g.PAGE_SIZE).flatMap (fun i =>
      if PMread s (slotAddr g f i) ≠ 0 then F i else []) = [] := by
  rw [List.flatMap_eq_nil_iff]
  intro i hi
  simp [h i (List.mem_range.mp hi)]

/-- The traversal is a fold of `visit` over the frames of the subtree. -/
theorem DFS_eq_foldl (g : Geometry) (s : State) (π : Nat) (fe : Int) (rem : Nat)
    (hrem : rem ≤ g.TABLES_DEPTH) (f par : Int) (sl pp : Nat) (v : DFSVars) :
    DFS g s π fe rem f par pp v = (nodesFrom g s rem f par sl pp).foldl (visit g s π fe) v := by
  induction rem generalizing f par sl pp v with
  | zero =>
    simp only [DFS, nodesFrom, List.foldl_cons, List.foldl_nil, visit, if_true]
  | succ rem ih =>
    have ih2 := fun c par sl pq v => ih (by omega) c par sl pq v
    by_cases hv : v.emptyFrame ≠ 0
    · rw [foldl_visit_of_found g s π fe _ v hv]
      simp only [DFS, hv, ne_eq, not_false_eq_true, if_true]
    · have hd : g.TABLES_DEPTH - (rem + 1) ≠ g.TABLES_DEPTH := by omega
      simp only [DFS, nodesFrom, List.foldl_cons, visit, hv, if_false, hd]
      rw [dfs_loop g s π fe rem f pp _ ih2]
      simp only [Nat.zero_add, zero_count_eq_iff]
      by_cases he1 : EmptyTable g s f
      · rw [flatMap_eq_nil_of_empty g s f _ he1]
        by_cases hfe : fe = f
        · simp [he1, hfe]
        · simp [he1, hfe]
      · simp only [he1, false_and, if_false]

theorem DFS_root_eq_foldl (g : Geometry) (s : State) (π : Nat) (fe : Int) (v : DFSVars) :
    DFS g s π fe g.TABLES_DEPTH 0 0 0 v = (nodes g s).foldl (visit g s π fe) v :=
  DFS_eq_foldl g s π fe g.TABLES_DEPTH le_rfl 0 0 0 0 v

/-! ### What the fold computes -/

theorem visit_of_not_candidate (g : Geometry) (s : State) (π : Nat) (fe : Int) (v : DFSVars)
    (n : Node) (hv : v.emptyFrame = 0) (hn : ¬ IsEmptyCandidate g s fe n) :
    (visit g s π fe v n).emptyFrame = 0 ∧
    (visit g s π fe v n).maxFrame = (if n.frame ≥ v.maxFrame then n.frame else v.maxFrame) ∧
    (n.depth = g.TABLES_DEPTH →
      (visit g s π fe v n).maxDist = (leafUpdate g π n.frame n.parent n.pagePath v).maxDist ∧
      (visit g s π fe v n).maxDistFrame
        = (leafUpdate g π n.frame n.parent n.pagePath v).maxDistFrame ∧
      (visit g s π fe v n).maxDistPagePath
        = (leafUpdate g π n.frame n.parent n.pagePath v).maxDistPagePath ∧
      (visit g s π fe v n).maxDistParentFrame
        = (leafUpdate g π n.frame n.parent n.pagePath v).maxDistParentFrame) ∧
    (n.depth ≠ g.TABLES_DEPTH →
      (visit g s π fe v n).maxDist = v.maxDist ∧
      (visit g s π fe v n).maxDistFrame = v.maxDistFrame ∧
      (visit g s π fe v n).maxDistPagePath = v.maxDistPagePath ∧
      (visit g s π fe v n).maxDistParentFrame = v.maxDistParentFrame) := by
  unfold visit
  simp only [hv, ne_eq, not_true_eq_false, if_false]
  by_cases hd : n.depth = g.TABLES_DEPTH
  · simp only [hd, if_true, not_true_eq_false, false_implies, and_true, true_implies]
    unfold leafUpdate
    split_ifs <;> simp [hv]
  · simp only [hd, if_false, false_implies, true_and, not_false_eq_true, true_implies]
    by_cases he : EmptyTable g s n.frame ∧ fe ≠ n.frame
    · have h0 : n.frame = 0 := by
        by_contra h0
        exact hn ⟨hd, he.1, he.2, h0⟩
      simp only [if_pos he]
      simp [h0]
    · simp only [if_neg he]
      simp [hv]

theorem leafUpdate_sameVictim (g : Geometry) (π : Nat) (f par : Int) (pp : Nat)
    (v w : DFSVars) (h : SameVictim v w) :
    SameVictim (leafUpdate g π f par pp v) (leafUpdate g π f par pp w) := by
  obtain ⟨h1, h2, h3, h4⟩ := h
  unfold leafUpdate SameVictim
  rw [h1]
  split_ifs <;> simp [h1, h2, h3, h4]

/-- When no frame of the list is an empty-table candidate, the fold records no empty frame,
its `maxFrame` is the largest frame met and its eviction candidate is the one of the
leaves of the list. -/
theorem foldl_visit_no_candidate (g : Geometry) (s : State) (π : Nat) (fe : Int)
    (l : List Node) (v : DFSVars) (hv : v.emptyFrame = 0)
    (hl : ∀ n ∈ l, ¬ IsEmptyCandidate g s fe n) :
    (l.foldl (visit g s π fe) v).emptyFrame = 0 ∧
    (l.foldl (visit g s π fe) v).maxFrame = maxFrameOf l v.maxFrame ∧
    SameVictim (l.foldl (visit g s π fe) v)
      (victimOf g π (l.filter (fun n => n.depth = g.TABLES_DEPTH)) v) := by
  induction l generalizing v with
  | nil => simp [maxFrameOf, victimOf, SameVictim, hv]
  | cons n l ih =>
    have hn := visit_of_not_candidate g s π fe v n hv (hl n (List.mem_cons_self _ _))
    obtain ⟨h1, h2, h3⟩ := ih (visit g s π fe v n) hn.1
      (fun m hm => hl m (List.mem_cons_of_mem _ hm))
    refine ⟨by simpa using h1, ?_, ?_⟩
    · simp only [List.foldl_cons, maxFrameOf] at h2 ⊢
      rw [h2, hn.2.1]
    · simp only [List.foldl_cons]
      have key : SameVictim
          (victimOf g π (l.filter (fun n => n.depth = g.TABLES_DEPTH)) (visit g s π fe v n))
          (victimOf g π ((n :: l).filter (fun n => n.depth = g.TABLES_DEPTH)) v) := by
        have gen : ∀ (l : List Node) (a b : DFSVars), SameVictim a b →
            SameVictim (victimOf g π l a) (victimOf g π l b) := by
          intro l
          induction l with
          | nil => intro a b h; exact h
          | cons m l ihl =>
            intro a b h
            simp only [victimOf, List.foldl_cons]
            exact ihl _ _ (leafUpdate_sameVictim g π _ _ _ a b h)
        by_cases hd : n.depth = g.TABLES_DEPTH
        · simp only [List.filter_cons, hd, decide_True, if_true]
          simp only [victimOf, List.foldl_cons]
          exact gen _ _ _ (hn.2.2.1 hd)
        · simp only [List.filter_cons, hd, decide_False]
          exact gen _ _ _ (hn.2.2.2 hd)
      exact ⟨h3.1.trans key.1, h3.2.1.trans key.2.1, h3.2.2.1.trans key.2.2.1,
        h3.2.2.2.trans key.2.2.2⟩

theorem visit_of_candidate (g : Geometry) (s : State) (π : Nat) (fe : Int) (v : DFSVars)
    (n : Node) (hv : v.emptyFrame = 0) (hn : IsEmptyCandidate g s fe n) :
    (visit g s π fe v n).emptyFrame = n.frame ∧
    (visit g s π fe v n).emptyFrameParent = n.parent ∧
    (visit g s π fe v n).emptyFrameOffset
      = (n.pagePath >>> ((g.TABLES_DEPTH - n.depth) * g.OFFSET_WIDTH)) &&& (g.PAGE_SIZE - 1) ∧
    (visit g s π fe v n).maxFrame = (if n.frame ≥ v.maxFrame then n.frame else v.maxFrame) := by
  unfold visit
  simp [hv, hn.1, hn.2.1, hn.2.2.1]

/-- When the list has an empty-table candidate, the fold records the first one. -/
theorem foldl_visit_candidate (g : Geometry) (s : State) (π : Nat) (fe : Int)
    (l1 l2 : List Node) (n : Node) (v : DFSVars) (hv : v.emptyFrame = 0)
    (hl : ∀ m ∈ l1, ¬ IsEmptyCandidate g s fe m) (hn : IsEmptyCandidate g s fe n) :
    ((l1 ++ n :: l2).foldl (visit g s π fe) v).emptyFrame = n.frame ∧
    ((l1 ++ n :: l2).foldl (visit g s π fe) v).emptyFrameParent = n.parent ∧
    ((l1 ++ n :: l2).foldl (visit g s π fe) v).emptyFrameOffset
      = (n.pagePath >>> ((g.TABLES_DEPTH - n.depth) * g.OFFSET_WIDTH)) &&& (g.PAGE_SIZE - 1) := by
  rw [List.foldl_append, List.foldl_cons]
  have h1 := (foldl_visit_no_candidate g s π fe l1 v hv hl).1
  have hvis := visit_of_candidate g s π fe _ n h1 hn
  rw [foldl_visit_of_found g s π fe l2 _ (by rw [hvis.1]; exact hn.2.2.2)]
  exact ⟨hvis.1, hvis.2.1, hvis.2.2.1⟩

/-- A list either has no element with a decidable property or splits at the first one. -/
theorem split_at_first {α : Type} (p : α → Prop) [DecidablePred p] (l : List α) :
    (∀ a ∈ l, ¬ p a) ∨ ∃ l1 a l2, l = l1 ++ a :: l2 ∧ (∀ b ∈ l1, ¬ p b) ∧ p a := by
  induction l with
  | nil => left; simp
  | cons a l ih =>
    by_cases ha : p a
    · right; exact ⟨[], a, l, rfl, by simp, ha⟩
    · rcases ih with h | ⟨l1, b, l2, rfl, h1, h2⟩
      · left
        intro c hc
        rcases List.mem_cons.mp hc with rfl | hc
        · exact ha
        · exact h c hc
      · right
        refine ⟨a :: l1, b, l2, rfl, ?_, h2⟩
        intro c hc
        rcases List.mem_cons.mp hc with rfl | hc
        · exact ha
        · exact h1 c hc

theorem le_maxFrameOf (l : List Node) (m : Int) : m ≤ maxFrameOf l m := by
  induction l generalizing m with
  | nil => exact le_rfl
  | cons n l ih =>
    simp only [maxFrameOf, List.foldl_cons]
    have := ih (if n.frame ≥ m then n.frame else m)
    simp only [maxFrameOf] at this
    split_ifs at this ⊢ <;> omega

theorem frame_le_maxFrameOf (l : List Node) (m : Int) (n : Node) (hn : n ∈ l) :
    n.frame ≤ maxFrameOf l m := by
  induction l generalizing m with
  | nil => simp at hn
  | cons a l ih =>
    simp only [maxFrameOf, List.foldl_cons]
    rcases List.mem_cons.mp hn with rfl | h
    · have := le_maxFrameOf l (if n.frame ≥ m then n.frame else m)
      simp only [maxFrameOf] at this
      split_ifs at this ⊢ <;> omega
    · exact ih _ h

theorem maxFrameOf_eq (l : List Node) (m : Int) :
    maxFrameOf l m = m ∨ ∃ n ∈ l, n.frame = maxFrameOf l m := by
  induction l generalizing m with
  | nil => left; rfl
  | cons a l ih =>
    simp only [maxFrameOf, List.foldl_cons]
    rcases ih (if a.frame ≥ m then a.frame else m) with h | ⟨n, hn, h⟩
    · simp only [maxFrameOf] at h
      rw [h]
      by_cases ha : a.frame ≥ m
      · right; exact ⟨a, List.mem_cons_self _ _, by simp [ha]⟩
      · left; simp [ha]
    · right; exact ⟨n, List.mem_cons_of_mem _ hn, h⟩

/-- The eviction candidate after the leaves of a list: either no leaf beats the start value,
or the list splits at the winner, which beats every leaf before it strictly and is beaten
by no leaf after it. -/
theorem victimOf_spec (g : Geometry) (π : Nat) (l : List Node) (v : DFSVars) :
    (victimOf g π l v = v ∧ ∀ n ∈ l, tmpMinDist g π n.pagePath ≤ v.maxDist) ∨
    ∃ l1 n l2, l = l1 ++ n :: l2 ∧
      (victimOf g π l v).maxDist = tmpMinDist g π n.pagePath ∧
      (victimOf g π l v).maxDistFrame = n.frame ∧
      (victimOf g π l v).maxDistPagePath = n.pagePath ∧
      (victimOf g π l v).maxDistParentFrame = n.parent ∧
      v.maxDist < tmpMinDist g π n.pagePath ∧
      (∀ m ∈ l1, tmpMinDist g π m.pagePath < tmpMinDist g π n.pagePath) ∧
      (∀ m ∈ l2, tmpMinDist g π m.pagePath ≤ tmpMinDist g π n.pagePath) := by
  induction l generalizing v with
  | nil => left; exact ⟨rfl, by simp⟩
  | cons a l ih =>
    simp only [victimOf, List.foldl_cons]
    by_cases ha : tmpMinDist g π a.pagePath > v.maxDist
    · have hv : leafUpdate g π a.frame a.parent a.pagePath v =
          { v with
            maxDist := tmpMinDist g π a.pagePath
            maxDistFrame := a.frame
            maxDistPagePath := a.pagePath
            maxDistParentFrame := a.parent } := by
        simp [leafUpdate, ha]
      rcases ih (leafUpdate g π a.frame a.parent a.pagePath v) with ⟨h1, h2⟩ | h
      · right
        simp only [victimOf] at h1
        refine ⟨[], a, l, rfl, ?_, ?_, ?_, ?_, ha, by simp, ?_⟩
        · rw [h1, hv]
        · rw [h1, hv]
        · rw [h1, hv]
        · rw [h1, hv]
        · intro m hm
          have := h2 m hm
          rw [hv] at this
          exact this
      · obtain ⟨l1, n, l2, rfl, h1, h2, h3, h4, h5, h6, h7⟩ := h
        right
        simp only [victimOf] at h1 h2 h3 h4
        rw [hv] at h5
        refine ⟨a :: l1, n, l2, rfl, h1, h2, h3, h4, by simp only at h5; omega, ?_, h7⟩
        intro m hm
        rcases List.mem_cons.mp hm with rfl | hm
        · exact h5
        · exact h6 m hm
    · have hv : leafUpdate g π a.frame a.parent a.pagePath v = v := by
        simp [leafUpdate, ha]
      rw [hv]
      rcases ih v with ⟨h1, h2⟩ | h
      · left
        simp only [victimOf] at h1
        refine ⟨h1, ?_⟩
        intro m hm
        rcases List.mem_cons.mp hm with rfl | hm
        · omega
        · exact h2 m hm
      · obtain ⟨l1, n, l2, rfl, h1, h2, h3, h4, h5, h6, h7⟩ := h
        right
        simp only [victimOf] at h1 h2 h3 h4
        refine ⟨a :: l1, n, l2, rfl, h1, h2, h3, h4, h5, ?_, h7⟩
        intro m hm
        rcases List.mem_cons.mp hm with rfl | hm
        · omega
        · exact h6 m hm

/-! ### Machine arithmetic within the word range -/

theorem PAGE_SIZE_pos (g : Geometry) : 0 < g.PAGE_SIZE := by
  unfold Geometry.PAGE_SIZE; positivity

theorem NUM_PAGES_eq (g : Geometry) : g.NUM_PAGES = 2 ^ (g.OFFSET_WIDTH * g.TABLES_DEPTH) := by
  unfold Geometry.NUM_PAGES Geometry.VIRTUAL_MEMORY_SIZE Geometry.PAGE_SIZE
  rw [Nat.mul_add, Nat.mul_one, pow_add]
  exact Nat.mul_div_cancel _ (by positivity)

theorem NUM_PAGES_eq_pow (g : Geometry) : g.NUM_PAGES = g.PAGE_SIZE ^ g.TABLES_DEPTH := by
  rw [NUM_PAGES_eq, Geometry.PAGE_SIZE, pow_mul]

theorem VIRTUAL_MEMORY_SIZE_eq (g : Geometry) :
    g.VIRTUAL_MEMORY_SIZE = g.NUM_PAGES * g.PAGE_SIZE := by
  rw [NUM_PAGES_eq]
  unfold Geometry.VIRTUAL_MEMORY_SIZE Geometry.PAGE_SIZE
  rw [Nat.mul_add, Nat.mul_one, pow_add]

theorem NUM_PAGES_le (g : Geometry) (hg : g.Fits) : g.NUM_PAGES ≤ 2 ^ 31 := by
  rw [NUM_PAGES_eq]
  exact Nat.pow_le_pow_right (by norm_num) hg.2

theorem toWord_eq (x : Int) (h0 : 0 ≤ x) (h1 : x < 2 ^ 31) : toWord x = x := by
  unfold toWord Int.bmod
  have e : ((2 ^ 32 : Nat) : Int) = 4294967296 := by norm_num
  rw [e]
  have h2 : (2 : Int) ^ 31 = 2147483648 := by norm_num
  rw [h2] at h1
  have hm : x % 4294967296 = x := Int.emod_eq_of_lt h0 (by omega)
  rw [hm]
  have : (4294967296 + 1 : Int) / 2 = 2147483648 := by norm_num
  rw [this, if_pos h1]

theorem toU64_eq (x : Int) (h0 : 0 ≤ x) (h1 : x < 2 ^ 64) : toU64 x = x.toNat := by
  unfold toU64
  rw [Int.emod_eq_of_lt h0 h1]

theorem toU64_natCast (n : Nat) (h : n < 2 ^ 64) : toU64 (n : Int) = n := by
  rw [toU64_eq _ (Int.natCast_nonneg n) (by exact_mod_cast h)]
  simp

/-- Within a frame of the physical memory, the word address fits a word. -/
theorem frame_addr_lt (g : Geometry) (hg : g.Fits) (f : Int) (i : Nat)
    (hf0 : 0 ≤ f) (hf : f < g.NUM_FRAMES) (hi : i < g.PAGE_SIZE) :
    0 ≤ f * (g.PAGE_SIZE : Int) + (i : Int) ∧
    f * (g.PAGE_SIZE : Int) + (i : Int) < 2 ^ 31 ∧
    (f * (g.PAGE_SIZE : Int) + (i : Int)).toNat = f.toNat * g.PAGE_SIZE + i := by
  obtain ⟨n, rfl⟩ := Int.eq_ofNat_of_zero_le hf0
  have hn : n < g.NUM_FRAMES := by exact_mod_cast hf
  have h1 : n * g.PAGE_SIZE + i < g.NUM_FRAMES * g.PAGE_SIZE := by
    calc n * g.PAGE_SIZE + i < n * g.PAGE_SIZE + g.PAGE_SIZE := by omega
      _ = (n + 1) * g.PAGE_SIZE := by ring
      _ ≤ g.NUM_FRAMES * g.PAGE_SIZE := Nat.mul_le_mul_right _ (by omega)
  have h2 : n * g.PAGE_SIZE + i < 2 ^ 31 := lt_of_lt_of_le h1 hg.1
  refine ⟨by positivity, by exact_mod_cast h2, ?_⟩
  have : ((n : Int) * (g.PAGE_SIZE : Int) + (i : Int)) = ((n * g.PAGE_SIZE + i : Nat) : Int) := by
    push_cast; ring
  rw [this, Int.toNat_natCast, Int.toNat_natCast]

/-- The address that `translate`, `fillWithZeros` and the public surface compute for a word
of a frame. -/
theorem toU64_frame_addr (g : Geometry) (hg : g.Fits) (f : Int) (i : Nat)
    (hf0 : 0 ≤ f) (hf : f < g.NUM_FRAMES) (hi : i < g.PAGE_SIZE) :
    toU64 (f * (g.PAGE_SIZE : Int) + (i : Int)) = f.toNat * g.PAGE_SIZE + i := by
  obtain ⟨h0, h1, h2⟩ := frame_addr_lt g hg f i hf0 hf hi
  rw [toU64_eq _ h0 (lt_trans h1 (by norm_num)), h2]

theorem slotAddr_eq (g : Geometry) (hg : g.Fits) (f : Int) (i : Nat)
    (hf0 : 0 ≤ f) (hf : f < g.NUM_FRAMES) (hi : i < g.PAGE_SIZE) :
    slotAddr g f i = f.toNat * g.PAGE_SIZE + i := by
  obtain ⟨h0, h1, _⟩ := frame_addr_lt g hg f i hf0 hf hi
  unfold slotAddr
  rw [toWord_eq _ h0 h1]
  exact toU64_frame_addr g hg f i hf0 hf hi

theorem toU64_frame_addr_eq_slotAddr (g : Geometry) (hg : g.Fits) (f : Int) (i : Nat)
    (hf0 : 0 ≤ f) (hf : f < g.NUM_FRAMES) (hi : i < g.PAGE_SIZE) :
    toU64 (f * (g.PAGE_SIZE : Int) + (i : Int)) = slotAddr g f i := by
  rw [slotAddr_eq g hg f i hf0 hf hi, toU64_frame_addr g hg f i hf0 hf hi]

/-- Distinct slots have distinct addresses. -/
theorem slotAddr_inj (g : Geometry) (hg : g.Fits) (f f2 : Int) (i i2 : Nat)
    (hf0 : 0 ≤ f) (hf : f < g.NUM_FRAMES) (hi : i < g.PAGE_SIZE)
    (hf20 : 0 ≤ f2) (hf2 : f2 < g.NUM_FRAMES) (hi2 : i2 < g.PAGE_SIZE)
    (h : slotAddr g f i = slotAddr g f2 i2) : f = f2 ∧ i = i2 := by
  rw [slotAddr_eq g hg f i hf0 hf hi, slotAddr_eq g hg f2 i2 hf20 hf2 hi2] at h
  have hP := PAGE_SIZE_pos g
  have h1 : (f.toNat * g.PAGE_SIZE + i) / g.PAGE_SIZE = f.toNat := by
    rw [Nat.add_comm, Nat.add_mul_div_right _ _ hP, Nat.div_eq_of_lt hi, Nat.zero_add]
  have h2 : (f2.toNat * g.PAGE_SIZE + i2) / g.PAGE_SIZE = f2.toNat := by
    rw [Nat.add_comm, Nat.add_mul_div_right _ _ hP, Nat.div_eq_of_lt hi2, Nat.zero_add]
  have h3 : f.toNat = f2.toNat := by rw [← h1, ← h2, h]
  refine ⟨by omega, ?_⟩
  rw [h3] at h
  omega

/-- The distance that the traversal computes is the cyclic distance of the specification. -/
theorem tmpMinDist_eq (g : Geometry) (a b : Nat)
    (ha : a < g.NUM_PAGES) (hb : b < g.NUM_PAGES) (hN : g.NUM_PAGES < 2 ^ 64) :
    tmpMinDist g a b = cyclicDist g a b := by
  unfold tmpMinDist cyclicDist
  have hd : (if a > b then a - b else b - a) < g.NUM_PAGES := by split_ifs <;> omega
  generalize (if a > b then a - b else b - a) = d at hd ⊢
  have e : ((g.NUM_PAGES : Int) - (d : Int)) = ((g.NUM_PAGES - d : Nat) : Int) := by omega
  simp only [e]
  rw [toU64_natCast _ (by omega)]
  simp only [gt_iff_lt]
  split_ifs with h
  · omega
  · omega

theorem cyclicDist_pos (g : Geometry) (a b : Nat)
    (ha : a < g.NUM_PAGES) (hb : b < g.NUM_PAGES) (hab : a ≠ b) : 0 < cyclicDist g a b := by
  unfold cyclicDist
  split_ifs <;> omega

/-! ### The page-table tree -/

theorem Tree.depth_le {g : Geometry} {s : State} {d q : Nat} {f : Int} (h : Tree g s d q f) :
    d ≤ g.TABLES_DEPTH := by
  cases h with
  | root => exact Nat.zero_le _
  | child i h hd hi hc => omega

theorem Tree.lt_pow {g : Geometry} {s : State} {d q : Nat} {f : Int} (h : Tree g s d q f) :
    q < g.PAGE_SIZE ^ d := by
  induction h with
  | root => simp
  | @child d q f i h hd hi hc ih =>
    rw [pow_succ]
    calc q * g.PAGE_SIZE + i < q * g.PAGE_SIZE + g.PAGE_SIZE := by omega
      _ = (q + 1) * g.PAGE_SIZE := by ring
      _ ≤ g.PAGE_SIZE ^ d * g.PAGE_SIZE := Nat.mul_le_mul_right _ ih

/-- Inversion of a tree node below the root: it is linked from a slot of its parent. -/
theorem Tree.parent {g : Geometry} {s : State} {d q : Nat} {f : Int}
    (h : Tree g s (d + 1) q f) :
    ∃ qp fp i, Tree g s d qp fp ∧ d < g.TABLES_DEPTH ∧ i < g.PAGE_SIZE ∧
      q = qp * g.PAGE_SIZE + i ∧ PMread s (slotAddr g fp i) = f ∧ f ≠ 0 := by
  cases h with
  | child i h hd hi hc => exact ⟨_, _, i, h, hd, hi, rfl, rfl, hc⟩

theorem Tree.root_eq {g : Geometry} {s : State} {q : Nat} {f : Int}
    (h : Tree g s 0 q f) : q = 0 ∧ f = 0 := by
  cases h with
  | root => exact ⟨rfl, rfl⟩

/-- The depth and the digits determine the frame. -/
theorem Tree.frame_unique {g : Geometry} {s : State} {d q : Nat} {f f2 : Int}
    (h : Tree g s d q f) (h2 : Tree g s d q f2) : f = f2 := by
  induction h generalizing f2 with
  | root => exact (Tree.root_eq h2).2.symm
  | @child d q f i h hd hi hc ih =>
    obtain ⟨qp, fp, j, hp, _, hj, hq, hr, _⟩ := Tree.parent h2
    have hP := PAGE_SIZE_pos g
    have e1 : q = qp := by
      have := congrArg (· / g.PAGE_SIZE) hq
      simp only at this
      rw [Nat.add_comm, Nat.add_mul_div_right _ _ hP, Nat.div_eq_of_lt hi, Nat.zero_add,
        Nat.add_comm, Nat.add_mul_div_right _ _ hP, Nat.div_eq_of_lt hj, Nat.zero_add] at this
      exact this
    subst e1
    have e2 : i = j := by omega
    subst e2
    rw [← ih hp] at hr
    exact hr

theorem pow_OFFSET (g : Geometry) (k : Nat) : g.PAGE_SIZE ^ k = 2 ^ (g.OFFSET_WIDTH * k) := by
  rw [Geometry.PAGE_SIZE, pow_mul]

/-- The page path of a child, within the word range. -/
theorem childPath_eq (g : Geometry) (hg : g.Fits) (q i d : Nat) (hd : d < g.TABLES_DEPTH)
    (hi : i < g.PAGE_SIZE) :
    childPath g (q * g.PAGE_SIZE ^ (g.TABLES_DEPTH - d)) i d
      = (q * g.PAGE_SIZE + i) * g.PAGE_SIZE ^ (g.TABLES_DEPTH - (d + 1)) := by
  unfold childPath
  obtain ⟨m, hm⟩ : ∃ m, g.TABLES_DEPTH - d = m + 1 := ⟨g.TABLES_DEPTH - d - 1, by omega⟩
  have hm1 : g.TABLES_DEPTH - d - 1 = m := by omega
  have hm2 : g.TABLES_DEPTH - (d + 1) = m := by omega
  rw [hm1, hm, hm2, Nat.shiftLeft_eq, Nat.mul_comm m g.OFFSET_WIDTH, ← pow_OFFSET]
  have hlt : i * g.PAGE_SIZE ^ m < g.PAGE_SIZE ^ (m + 1) := by
    rw [pow_succ, Nat.mul_comm (g.PAGE_SIZE ^ m)]
    exact Nat.mul_lt_mul_of_pos_right hi (by have := PAGE_SIZE_pos g; positivity)
  have hle : g.PAGE_SIZE ^ (m + 1) ≤ 2 ^ 31 := by
    rw [pow_OFFSET]
    apply Nat.pow_le_pow_right (by norm_num)
    calc g.OFFSET_WIDTH * (m + 1) ≤ g.OFFSET_WIDTH * g.TABLES_DEPTH :=
          Nat.mul_le_mul_left _ (by omega)
      _ ≤ 31 := hg.2
  have h31 : i * g.PAGE_SIZE ^ m < 2 ^ 31 := lt_of_lt_of_le hlt hle
  rw [toWord_eq _ (Int.natCast_nonneg _) (by exact_mod_cast h31),
    toU64_natCast _ (lt_trans h31 (by norm_num))]
  have e : q * g.PAGE_SIZE ^ (m + 1) = 2 ^ (g.OFFSET_WIDTH * (m + 1)) * q := by
    rw [pow_OFFSET, Nat.mul_comm]
  rw [e, ← Nat.mul_add_lt_is_or (by rw [← pow_OFFSET]; exact hlt), ← pow_OFFSET]
  ring

/-- The slot of a frame in its parent, recovered from its page path as `DFS` does for an
empty table. -/
theorem emptyFrameOffset_eq (g : Geometry) (qp i k : Nat) (hi : i < g.PAGE_SIZE) :
    (((qp * g.PAGE_SIZE + i) * g.PAGE_SIZE ^ k) >>> (k * g.OFFSET_WIDTH)) &&& (g.PAGE_SIZE - 1)
      = i := by
  rw [Nat.shiftRight_eq_div_pow, Nat.mul_comm k, ← pow_OFFSET,
    Nat.mul_div_cancel _ (by have := PAGE_SIZE_pos g; positivity)]
  unfold Geometry.PAGE_SIZE
  rw [Nat.and_pow_two_sub_one_eq_mod]
  unfold Geometry.PAGE_SIZE at hi
  rw [Nat.mul_comm, Nat.mul_add_mod, Nat.mod_eq_of_lt hi]

/-! ### The frames of the traversal and the tree -/

theorem head_mem_nodesFrom (g : Geometry) (s : State) (rem : Nat) (f par : Int) (sl pp : Nat) :
    (⟨f, par, sl, pp, g.TABLES_DEPTH - rem⟩ : Node) ∈ nodesFrom g s rem f par sl pp := by
  cases rem with
  | zero => simp [nodesFrom]
  | succ rem => simp [nodesFrom]

theorem root_mem_nodes (g : Geometry) (s : State) : (⟨0, 0, 0, 0, 0⟩ : Node) ∈ nodes g s := by
  have := head_mem_nodesFrom g s g.TABLES_DEPTH 0 0 0 0
  simpa [nodes] using this

theorem mem_nodesFrom_succ (g : Geometry) (s : State) (rem : Nat) (f par : Int) (sl pp : Nat)
    (n : Node) :
    n ∈ nodesFrom g s (rem + 1) f par sl pp ↔
      n = ⟨f, par, sl, pp, g.TABLES_DEPTH - (rem + 1)⟩ ∨
      ∃ i, i < g.PAGE_SIZE ∧ PMread s (slotAddr g f i) ≠ 0 ∧
        n ∈ nodesFrom g s rem (PMread s (slotAddr g f i)) f i
          (childPath g pp i (g.TABLES_DEPTH - (rem + 1))) := by
  simp only [nodesFrom, List.mem_cons, List.mem_flatMap, List.mem_range]
  constructor
  · rintro (h | ⟨i, hi, h⟩)
    · exact Or.inl h
    · by_cases hc : PMread s (slotAddr g f i) ≠ 0
      · rw [if_pos hc] at h
        exact Or.inr ⟨i, hi, hc, h⟩
      · rw [if_neg hc] at h
        simp at h
  · rintro (h | ⟨i, hi, hc, h⟩)
    · exact Or.inl h
    · exact Or.inr ⟨i, hi, by rw [if_pos hc]; exact h⟩

/-- Every frame of the traversal is a frame of the tree, with the page path, the parent and
the slot that the tree gives it. -/
theorem nodesFrom_ok (g : Geometry) (hg : g.Fits) (s : State) (rem : Nat)
    (hrem : rem ≤ g.TABLES_DEPTH) (f par : Int) (sl pp : Nat)
    (h0 : NodeOK g s ⟨f, par, sl, pp, g.TABLES_DEPTH - rem⟩) :
    ∀ n ∈ nodesFrom g s rem f par sl pp, NodeOK g s n := by
  induction rem generalizing f par sl pp with
  | zero =>
    intro n hn
    simp only [nodesFrom, List.mem_singleton] at hn
    subst hn
    simpa using h0
  | succ rem ih =>
    intro n hn
    rcases (mem_nodesFrom_succ g s rem f par sl pp n).mp hn with rfl | ⟨i, hi, hc, hn⟩
    · exact h0
    · refine ih (by omega) _ _ _ _ ?_ n hn
      obtain ⟨q, hT, hpp, _, _⟩ := h0
      simp only at hT hpp
      have hd : g.TABLES_DEPTH - (rem + 1) < g.TABLES_DEPTH := by omega
      have hd1 : g.TABLES_DEPTH - (rem + 1) + 1 = g.TABLES_DEPTH - rem := by omega
      refine ⟨q * g.PAGE_SIZE + i, ?_, ?_, ?_, Or.inr ⟨?_, hc, hi, rfl, q, ?_, rfl⟩⟩
      · have := Tree.child i hT hd hi hc
        rw [hd1] at this
        exact this
      · simp only
        rw [hpp, childPath_eq g hg q i _ hd hi, hd1]
      · simp only; omega
      · simp only; omega
      · simp only
        have : g.TABLES_DEPTH - rem - 1 = g.TABLES_DEPTH - (rem + 1) := by omega
        rw [this]
        exact hT

theorem nodes_ok (g : Geometry) (hg : g.Fits) (s : State) : ∀ n ∈ nodes g s, NodeOK g s n := by
  apply nodesFrom_ok g hg s g.TABLES_DEPTH le_rfl
  refine ⟨0, ?_, ?_, ?_, Or.inl ?_⟩
  · simp only [Nat.sub_self]; exact Tree.root
  · simp
  · simp
  · simp

/-- The traversal list is closed under following a nonzero slot. -/
theorem child_mem_nodesFrom (g : Geometry) (s : State) (rem : Nat)
    (hrem : rem ≤ g.TABLES_DEPTH) (f par : Int) (sl pp : Nat) (n : Node)
    (hn : n ∈ nodesFrom g s rem f par sl pp) (hd : n.depth < g.TABLES_DEPTH) (i : Nat)
    (hi : i < g.PAGE_SIZE) (hc : PMread s (slotAddr g n.frame i) ≠ 0) :
    (⟨PMread s (slotAddr g n.frame i), n.frame, i, childPath g n.pagePath i n.depth,
      n.depth + 1⟩ : Node) ∈ nodesFrom g s rem f par sl pp := by
  induction rem generalizing f par sl pp with
  | zero =>
    simp only [nodesFrom, List.mem_singleton] at hn
    subst hn
    simp at hd
  | succ rem ih =>
    rcases (mem_nodesFrom_succ g s rem f par sl pp n).mp hn with rfl | ⟨j, hj, hcj, hn⟩
    · apply (mem_nodesFrom_succ g s rem f par sl pp _).mpr
      right
      refine ⟨i, hi, hc, ?_⟩
      have := head_mem_nodesFrom g s rem (PMread s (slotAddr g f i)) f i
        (childPath g pp i (g.TABLES_DEPTH - (rem + 1)))
      have e : g.TABLES_DEPTH - (rem + 1) + 1 = g.TABLES_DEPTH - rem := by omega
      simp only [e]
      exact this
    · apply (mem_nodesFrom_succ g s rem f par sl pp _).mpr
      right
      exact ⟨j, hj, hcj, ih (by omega) _ _ _ _ hn⟩

/-- Every frame of the tree is met by the traversal. -/
theorem Tree.mem_nodes {g : Geometry} (hg : g.Fits) {s : State} {d q : Nat} {f : Int}
    (h : Tree g s d q f) :
    ∃ n ∈ nodes g s, n.depth = d ∧ n.frame = f ∧
      n.pagePath = q * g.PAGE_SIZE ^ (g.TABLES_DEPTH - d) := by
  induction h with
  | root => exact ⟨_, root_mem_nodes g s, rfl, rfl, by simp⟩
  | @child d q f i h hd hi hc ih =>
    obtain ⟨n, hn, h1, h2, h3⟩ := ih
    subst h1 h2
    refine ⟨_, child_mem_nodesFrom g s g.TABLES_DEPTH le_rfl 0 0 0 0 n hn hd i hi hc,
      rfl, rfl, ?_⟩
    simp only
    rw [h3, childPath_eq g hg q i _ hd hi]

/-- The page paths below a frame lie in the range of its digits. -/
theorem nodesFrom_pagePath_bounds (g : Geometry) (hg : g.Fits) (s : State) (rem : Nat)
    (hrem : rem ≤ g.TABLES_DEPTH) (f par : Int) (sl q : Nat) :
    ∀ n ∈ nodesFrom g s rem f par sl (q * g.PAGE_SIZE ^ rem),
      q * g.PAGE_SIZE ^ rem ≤ n.pagePath ∧ n.pagePath < (q + 1) * g.PAGE_SIZE ^ rem := by
  have hP := PAGE_SIZE_pos g
  induction rem generalizing f par sl q with
  | zero =>
    intro n hn
    simp only [nodesFrom, List.mem_singleton] at hn
    subst hn
    simp
  | succ rem ih =>
    intro n hn
    rcases (mem_nodesFrom_succ g s rem f par sl _ n).mp hn with rfl | ⟨i, hi, hc, hn⟩
    · simp only
      constructor
      · exact le_rfl
      · exact Nat.mul_lt_mul_of_pos_right (by omega) (by positivity)
    · have hd : g.TABLES_DEPTH - (rem + 1) < g.TABLES_DEPTH := by omega
      have e : rem + 1 = g.TABLES_DEPTH - (g.TABLES_DEPTH - (rem + 1)) := by omega
      have e2 : g.TABLES_DEPTH - (g.TABLES_DEPTH - (rem + 1) + 1) = rem := by omega
      have hcp := childPath_eq g hg q i _ hd hi
      rw [← e, e2] at hcp
      rw [hcp] at hn
      obtain ⟨h1, h2⟩ := ih (by omega) _ _ _ _ n hn
      constructor
      · calc q * g.PAGE_SIZE ^ (rem + 1) = (q * g.PAGE_SIZE) * g.PAGE_SIZE ^ rem := by ring
          _ ≤ (q * g.PAGE_SIZE + i) * g.PAGE_SIZE ^ rem := Nat.mul_le_mul_right _ (by omega)
          _ ≤ n.pagePath := h1
      · calc n.pagePath < (q * g.PAGE_SIZE + i + 1) * g.PAGE_SIZE ^ rem := h2
          _ ≤ ((q + 1) * g.PAGE_SIZE) * g.PAGE_SIZE ^ rem :=
            Nat.mul_le_mul_right _ (by nlinarith)
          _ = (q + 1) * g.PAGE_SIZE ^ (rem + 1) := by ring

/-- The traversal meets the leaves in strictly ascending order of page number. -/
theorem nodesFrom_leaves_sorted (g : Geometry) (hg : g.Fits) (s : State) (rem : Nat)
    (hrem : rem ≤ g.TABLES_DEPTH) (f par : Int) (sl q : Nat) :
    (nodesFrom g s rem f par sl (q * g.PAGE_SIZE ^ rem)).Pairwise
      (fun a b => a.depth = g.TABLES_DEPTH → b.depth = g.TABLES_DEPTH →
        a.pagePath < b.pagePath) := by
  induction rem generalizing f par sl q with
  | zero => simp [nodesFrom]
  | succ rem ih =>
    have hd : g.TABLES_DEPTH - (rem + 1) < g.TABLES_DEPTH := by omega
    have e : rem + 1 = g.TABLES_DEPTH - (g.TABLES_DEPTH - (rem + 1)) := by omega
    have e2 : g.TABLES_DEPTH - (g.TABLES_DEPTH - (rem + 1) + 1) = rem := by omega
    have hcp : ∀ i, i < g.PAGE_SIZE →
        childPath g (q * g.PAGE_SIZE ^ (rem + 1)) i (g.TABLES_DEPTH - (rem + 1))
          = (q * g.PAGE_SIZE + i) * g.PAGE_SIZE ^ rem := by
      intro i hi
      have := childPath_eq g hg q i _ hd hi
      rw [← e, e2] at this
      exact this
    simp only [nodesFrom]
    rw [List.pairwise_cons]
    constructor
    · intro b _ ha
      simp only at ha
      omega
    · rw [List.pairwise_flatMap]
      constructor
      · intro i hi
        by_cases hc : PMread s (slotAddr g f i) ≠ 0
        · rw [if_pos hc, hcp i (List.mem_range.mp hi)]
          exact ih (by omega) _ _ _ _
        · rw [if_neg hc]
          exact List.Pairwise.nil
      · apply List.Pairwise.imp_of_mem _ (List.pairwise_lt_range g.PAGE_SIZE)
        intro i j hi hj hij x hx y hy _ _
        by_cases hci : PMread s (slotAddr g f i) ≠ 0
        · by_cases hcj : PMread s (slotAddr g f j) ≠ 0
          · rw [if_pos hci, hcp i (List.mem_range.mp hi)] at hx
            rw [if_pos hcj, hcp j (List.mem_range.mp hj)] at hy
            have h1 := (nodesFrom_pagePath_bounds g hg s rem (by omega) _ _ _ _ x hx).2
            have h2 := (nodesFrom_pagePath_bounds g hg s rem (by omega) _ _ _ _ y hy).1
            calc x.pagePath < (q * g.PAGE_SIZE + i + 1) * g.PAGE_SIZE ^ rem := h1
              _ ≤ (q * g.PAGE_SIZE + j) * g.PAGE_SIZE ^ rem :=
                Nat.mul_le_mul_right _ (by omega)
              _ ≤ y.pagePath := h2
          · rw [if_neg hcj] at hy
            simp at hy
        · rw [if_neg hci] at hx
          simp at hx

theorem leaves_sorted (g : Geometry) (hg : g.Fits) (s : State) :
    (leaves g s).Pairwise (fun a b => a.pagePath < b.pagePath) := by
  have h := nodesFrom_leaves_sorted g hg s g.TABLES_DEPTH le_rfl 0 0 0 0
  simp only [Nat.zero_mul] at h
  have h2 := h.filter (fun n => decide (n.depth = g.TABLES_DEPTH))
  apply List.Pairwise.imp_of_mem _ h2
  intro a b ha hb hab
  have ha2 := (List.mem_filter.mp ha).2
  have hb2 := (List.mem_filter.mp hb).2
  simp only [decide_eq_true_eq] at ha2 hb2
  exact hab ha2 hb2

/-! ### The three cases of the allocator -/

theorem findFrame_eq (g : Geometry) (s : State) (V : Nat) (fe : Int) :
    findFrame g s V fe =
      if (dfsResult g s V fe).emptyFrame ≠ 0 then
        ((dfsResult g s V fe).emptyFrame,
          PMwrite s (toU64 ((dfsResult g s V fe).emptyFrameParent * (g.PAGE_SIZE : Int)
            + ((dfsResult g s V fe).emptyFrameOffset : Int))) 0)
      else if (dfsResult g s V fe).maxFrame + 1 < (g.NUM_FRAMES : Int) then
        ((dfsResult g s V fe).maxFrame + 1, s)
      else if (dfsResult g s V fe).maxDistFrame ≠ 0 then
        ((dfsResult g s V fe).maxDistFrame,
          PMwrite (PMevict g s (toU64 (dfsResult g s V fe).maxDistFrame)
              (dfsResult g s V fe).maxDistPagePath)
            (toU64 ((dfsResult g s V fe).maxDistParentFrame * (g.PAGE_SIZE : Int)
              + toWord (((dfsResult g s V fe).maxDistPagePath &&& (g.PAGE_SIZE - 1) : Nat) : Int)))
            0)
      else (-1, s) := rfl

theorem pageSwappedInOf_eq (g : Geometry) (hg : g.Fits) (V : Nat)
    (hV : V < g.VIRTUAL_MEMORY_SIZE) :
    pageSwappedInOf g V = V >>> g.OFFSET_WIDTH ∧ V >>> g.OFFSET_WIDTH < g.NUM_PAGES := by
  have h1 : V >>> g.OFFSET_WIDTH < g.NUM_PAGES := by
    rw [Nat.shiftRight_eq_div_pow]
    rw [VIRTUAL_MEMORY_SIZE_eq, Nat.mul_comm] at hV
    exact Nat.div_lt_of_lt_mul hV
  have h2 := NUM_PAGES_le g hg
  refine ⟨?_, h1⟩
  unfold pageSwappedInOf
  rw [toWord_eq _ (Int.natCast_nonneg _) (by exact_mod_cast lt_of_lt_of_le h1 h2),
    toU64_natCast _ (by omega)]

/-- The outcome of the traversal: either no frame is an empty-table candidate, and then the
largest frame and the eviction candidate are those of the whole tree, or the first
candidate in traversal order is recorded. -/
theorem dfsResult_cases (g : Geometry) (s : State) (V : Nat) (fe : Int) :
    ((∀ n ∈ nodes g s, ¬ IsEmptyCandidate g s fe n) ∧
      (dfsResult g s V fe).emptyFrame = 0 ∧
      (dfsResult g s V fe).maxFrame = maxReachable g s ∧
      SameVictim (dfsResult g s V fe)
        (victimOf g (pageSwappedInOf g V) (leaves g s) DFSVars.init)) ∨
    (∃ l1 n l2, nodes g s = l1 ++ n :: l2 ∧ (∀ m ∈ l1, ¬ IsEmptyCandidate g s fe m) ∧
      IsEmptyCandidate g s fe n ∧
      (dfsResult g s V fe).emptyFrame = n.frame ∧
      (dfsResult g s V fe).emptyFrameParent = n.parent ∧
      (dfsResult g s V fe).emptyFrameOffset
        = (n.pagePath >>> ((g.TABLES_DEPTH - n.depth) * g.OFFSET_WIDTH))
            &&& (g.PAGE_SIZE - 1)) := by
  unfold dfsResult
  rw [DFS_root_eq_foldl]
  rcases split_at_first (IsEmptyCandidate g s fe) (nodes g s) with h | ⟨l1, n, l2, e, h1, h2⟩
  · left
    obtain ⟨a, b, c⟩ := foldl_visit_no_candidate g s (pageSwappedInOf g V) fe (nodes g s)
      DFSVars.init rfl h
    exact ⟨h, a, b, c⟩
  · right
    refine ⟨l1, n, l2, e, h1, h2, ?_⟩
    rw [e]
    exact foldl_visit_candidate g s (pageSwappedInOf g V) fe l1 l2 n DFSVars.init rfl h1 h2

theorem maxReachable_spec (g : Geometry) (s : State) :
    (∃ n ∈ nodes g s, n.frame = maxReachable g s) ∧
    ∀ n ∈ nodes g s, n.frame ≤ maxReachable g s := by
  refine ⟨?_, fun n hn => frame_le_maxFrameOf _ 0 n hn⟩
  rcases maxFrameOf_eq (nodes g s) 0 with h | h
  · exact ⟨_, root_mem_nodes g s, h.symm⟩
  · exact h

/-- The slot address that `findFrame` clears for an empty table is the slot that links
it. -/
theorem candidate_unlink_addr (g : Geometry) (hg : g.Fits) (s : State) (n : Node)
    (hn : n ∈ nodes g s) (h0 : n.frame ≠ 0)
    (hp0 : 0 ≤ n.parent) (hp : n.parent < g.NUM_FRAMES) :
    toU64 (n.parent * (g.PAGE_SIZE : Int)
        + (((n.pagePath >>> ((g.TABLES_DEPTH - n.depth) * g.OFFSET_WIDTH))
            &&& (g.PAGE_SIZE - 1) : Nat) : Int))
      = slotAddr g n.parent n.slot := by
  obtain ⟨q, _, hpp, _, h | ⟨_, _, hsl, _, qp, _, hq⟩⟩ := nodes_ok g hg s n hn
  · exact absurd h.2.1 h0
  · rw [hpp, hq, emptyFrameOffset_eq g qp n.slot _ hsl]
    exact toU64_frame_addr_eq_slotAddr g hg _ _ hp0 hp hsl

/-- The slot address that `findFrame` clears for an evicted leaf is the slot that links
it. -/
theorem victim_unlink_addr (g : Geometry) (hg : g.Fits) (s : State) (n : Node)
    (hn : n ∈ nodes g s) (hd : n.depth = g.TABLES_DEPTH) (h0 : n.frame ≠ 0)
    (hp0 : 0 ≤ n.parent) (hp : n.parent < g.NUM_FRAMES) :
    toU64 (n.parent * (g.PAGE_SIZE : Int)
        + toWord (((n.pagePath &&& (g.PAGE_SIZE - 1) : Nat) : Int)))
      = slotAddr g n.parent n.slot := by
  obtain ⟨q, _, hpp, _, h | ⟨_, _, hsl, _, qp, _, hq⟩⟩ := nodes_ok g hg s n hn
  · exact absurd h.2.1 h0
  · have e := emptyFrameOffset_eq g qp n.slot 0 hsl
    simp only [pow_zero, Nat.mul_one, Nat.zero_mul, Nat.shiftRight_zero] at e
    rw [hpp, hq, hd, Nat.sub_self, pow_zero, Nat.mul_one, e]
    have h31 : (n.slot : Int) < 2 ^ 31 := by
      have h1 : n.slot < g.NUM_FRAMES * g.PAGE_SIZE := by
        have : 0 < g.NUM_FRAMES := by omega
        calc n.slot < g.PAGE_SIZE := hsl
          _ ≤ g.NUM_FRAMES * g.PAGE_SIZE := Nat.le_mul_of_pos_left _ this
      have := lt_of_lt_of_le h1 hg.1
      exact_mod_cast this
    rw [toWord_eq _ (Int.natCast_nonneg _) h31]
    exact toU64_frame_addr_eq_slotAddr g hg _ _ hp0 hp hsl

theorem leaf_pagePath_lt (g : Geometry) (hg : g.Fits) (s : State) (n : Node)
    (hn : n ∈ leaves g s) : n.pagePath < g.NUM_PAGES := by
  obtain ⟨hn1, hn2⟩ := List.mem_filter.mp hn
  simp only [decide_eq_true_eq] at hn2
  obtain ⟨q, hT, hpp, _, _⟩ := nodes_ok g hg s n hn1
  rw [hpp, hn2, Nat.sub_self, pow_zero, Nat.mul_one, NUM_PAGES_eq_pow]
  have := hT.lt_pow
  rw [hn2] at this
  exact this

/-- The parent of a frame of the traversal is a frame of the traversal. -/
theorem parent_mem_nodes (g : Geometry) (hg : g.Fits) (s : State) (n : Node)
    (hn : n ∈ nodes g s) : ∃ p ∈ nodes g s, p.frame = n.parent := by
  obtain ⟨q, _, _, _, h | ⟨_, _, _, _, qp, hT, _⟩⟩ := nodes_ok g hg s n hn
  · exact ⟨_, root_mem_nodes g s, h.2.2.1.symm⟩
  · obtain ⟨p, hp, _, h2, _⟩ := hT.mem_nodes hg
    exact ⟨p, hp, h2⟩

/-- The first element of a list with a property is unique. -/
theorem first_unique {α : Type} (p : α → Prop) :
    ∀ (a1 a2 b1 b2 : List α) (x y : α), a1 ++ x :: a2 = b1 ++ y :: b2 →
      (∀ z ∈ a1, ¬ p z) → p x → (∀ z ∈ b1, ¬ p z) → p y → a1 = b1 ∧ x = y ∧ a2 = b2 := by
  intro a1
  induction a1 with
  | nil =>
    intro a2 b1 b2 x y h _ hx hb _
    cases b1 with
    | nil =>
      simp only [List.nil_append, List.cons.injEq] at h
      exact ⟨rfl, h.1, h.2⟩
    | cons z b1 =>
      simp only [List.nil_append, List.cons_append, List.cons.injEq] at h
      exact absurd (h.1 ▸ hx) (hb z (List.mem_cons_self _ _))
  | cons w a1 ih =>
    intro a2 b1 b2 x y h ha hx hb hy
    cases b1 with
    | nil =>
      simp only [List.nil_append, List.cons_append, List.cons.injEq] at h
      exact absurd (h.1 ▸ hy) (ha w (List.mem_cons_self _ _))
    | cons z b1 =>
      simp only [List.cons_append, List.cons.injEq] at h
      obtain ⟨e1, e2, e3⟩ := ih a2 b1 b2 x y h.2
        (fun z hz => ha z (List.mem_cons_of_mem _ hz)) hx
        (fun z hz => hb z (List.mem_cons_of_mem _ hz)) hy
      exact ⟨by rw [h.1, e1], e2, e3⟩

/-- Case 1 of the allocator, for the first empty-table candidate of the traversal. -/
theorem findFrame_case1 (g : Geometry) (hg : g.Fits) (s : State) (V : Nat) (fe : Int)
    (hrange : ∀ n ∈ nodes g s, 0 ≤ n.frame ∧ n.frame < g.NUM_FRAMES)
    (l1 l2 : List Node) (n : Node) (e : nodes g s = l1 ++ n :: l2)
    (h1 : ∀ m ∈ l1, ¬ IsEmptyCandidate g s fe m) (h2 : IsEmptyCandidate g s fe n) :
    findFrame g s V fe = (n.frame, PMwrite s (slotAddr g n.parent n.slot) 0) := by
  have hn : n ∈ nodes g s := by rw [e]; simp
  rcases dfsResult_cases g s V fe with ⟨h, _⟩ | ⟨k1, m, k2, e2, g1, g2, a, b, c⟩
  · exact absurd h2 (h n hn)
  · have hmn : m = n :=
      (first_unique (IsEmptyCandidate g s fe) k1 k2 l1 l2 m n (e2.symm.trans e) g1 g2 h1 h2).2.1
    subst hmn
    obtain ⟨p, hp, hpf⟩ := parent_mem_nodes g hg s m hn
    have hpr := hrange p hp
    rw [hpf] at hpr
    rw [findFrame_eq, a, b, c, if_pos g2.2.2.2,
      candidate_unlink_addr g hg s m hn g2.2.2.2 hpr.1 hpr.2]

/-- Case 1 applies as soon as some frame of the traversal is an empty-table candidate. -/
theorem findFrame_of_candidate (g : Geometry) (hg : g.Fits) (s : State) (V : Nat) (fe : Int)
    (hrange : ∀ n ∈ nodes g s, 0 ≤ n.frame ∧ n.frame < g.NUM_FRAMES)
    (hex : ∃ n ∈ nodes g s, IsEmptyCandidate g s fe n) :
    ∃ m ∈ nodes g s, IsEmptyCandidate g s fe m ∧
      findFrame g s V fe = (m.frame, PMwrite s (slotAddr g m.parent m.slot) 0) := by
  rcases split_at_first (IsEmptyCandidate g s fe) (nodes g s) with h | ⟨l1, n, l2, e, h1, h2⟩
  · obtain ⟨n, hn, hc⟩ := hex
    exact absurd hc (h n hn)
  · exact ⟨n, by rw [e]; simp, h2, findFrame_case1 g hg s V fe hrange l1 l2 n e h1 h2⟩

/-- Case 3 of the allocator: when no frame is an empty-table candidate, no frame is unused
and the traversal has an eviction candidate, the leaf evicted is the first leaf in
traversal order whose distance to the page to install is the largest. -/
theorem findFrame_case3 (g : Geometry) (s : State) (V : Nat) (fe : Int)
    (hempty : (dfsResult g s V fe).emptyFrame = 0)
    (hfull : ¬ (dfsResult g s V fe).maxFrame + 1 < (g.NUM_FRAMES : Int))
    (hvict : (dfsResult g s V fe).maxDistFrame ≠ 0) :
    ∃ l1 n l2, leaves g s = l1 ++ n :: l2 ∧
      findFrame g s V fe = (n.frame,
        PMwrite (PMevict g s (toU64 n.frame) n.pagePath)
          (toU64 (n.parent * (g.PAGE_SIZE : Int)
            + toWord (((n.pagePath &&& (g.PAGE_SIZE - 1) : Nat) : Int)))) 0) ∧
      0 < tmpMinDist g (pageSwappedInOf g V) n.pagePath ∧
      (∀ m ∈ l1, tmpMinDist g (pageSwappedInOf g V) m.pagePath
        < tmpMinDist g (pageSwappedInOf g V) n.pagePath) ∧
      (∀ m ∈ l2, tmpMinDist g (pageSwappedInOf g V) m.pagePath
        ≤ tmpMinDist g (pageSwappedInOf g V) n.pagePath) := by
  rcases dfsResult_cases g s V fe with ⟨_, _, _, hs⟩ | ⟨_, n, _, _, _, hc, he, _⟩
  · rcases victimOf_spec g (pageSwappedInOf g V) (leaves g s) DFSVars.init with ⟨h, _⟩ | h
    · rw [h] at hs
      exact absurd hs.2.1 hvict
    · obtain ⟨l1, n, l2, e, a1, a2, a3, a4, a5, a6, a7⟩ := h
      refine ⟨l1, n, l2, e, ?_, by omega, a6, a7⟩
      rw [findFrame_eq]
      simp only [hempty, ne_eq, not_true_eq_false, if_false, hfull, hvict, not_false_eq_true,
        if_true]
      rw [hs.2.1, hs.2.2.1, hs.2.2.2, a2, a3, a4]
  · rw [hempty] at he
    exact absurd he.symm hc.2.2.2

/-! ### The tree under updates of the physical memory -/

theorem PMread_of_mem_update (s s2 : State) (a : Nat) (x : Int)
    (h : s2.mem = Function.update s.mem a x) (b : Nat) :
    PMread s2 b = if b = a then x else PMread s b := by
  unfold PMread
  rw [h, Function.update_apply]

/-- The tree is the same in two states whose table slots agree on the tree of the first. -/
theorem Tree_congr_of_reads (g : Geometry) (s s2 : State)
    (h : ∀ d q f, Tree g s d q f → d < g.TABLES_DEPTH → ∀ i, i < g.PAGE_SIZE →
      PMread s2 (slotAddr g f i) = PMread s (slotAddr g f i)) (d q : Nat) (f : Int) :
    Tree g s2 d q f ↔ Tree g s d q f := by
  constructor
  · intro hT
    induction hT with
    | root => exact Tree.root
    | @child d q f i hT hd hi hc ih =>
      have e := h d q f ih hd i hi
      rw [e] at hc ⊢
      exact Tree.child i ih hd hi hc
  · intro hT
    induction hT with
    | root => exact Tree.root
    | @child d q f i hT hd hi hc ih =>
      have e := h d q f hT hd i hi
      rw [← e] at hc ⊢
      exact Tree.child i ih hd hi hc

/-- A change of the physical memory inside one frame that is a leaf of the tree, or not in
the tree at all, leaves the tree as it is. -/
theorem Tree_frame_local (g : Geometry) (hg : g.Fits) (s s2 : State) (x : Int)
    (hr : TreeRange g s) (hx0 : 0 ≤ x) (hx : x < g.NUM_FRAMES)
    (hleaf : ∀ d q, Tree g s d q x → d = g.TABLES_DEPTH)
    (hmem : ∀ a, ¬ (x.toNat * g.PAGE_SIZE ≤ a ∧ a < x.toNat * g.PAGE_SIZE + g.PAGE_SIZE) →
      s2.mem a = s.mem a) (d q : Nat) (f : Int) :
    Tree g s2 d q f ↔ Tree g s d q f := by
  apply Tree_congr_of_reads
  intro d q f hT hd i hi
  obtain ⟨hf0, hf⟩ := hr d q f hT
  have hne : f ≠ x := by
    rintro rfl
    have := hleaf d q hT
    omega
  unfold PMread
  apply hmem
  rw [slotAddr_eq g hg f i hf0 hf hi]
  intro ⟨h1, h2⟩
  have hfx : f.toNat ≠ x.toNat := by omega
  rcases Nat.lt_or_gt_of_ne hfx with h | h
  · have : (f.toNat + 1) * g.PAGE_SIZE ≤ x.toNat * g.PAGE_SIZE :=
      Nat.mul_le_mul_right _ h
    have e : (f.toNat + 1) * g.PAGE_SIZE = f.toNat * g.PAGE_SIZE + g.PAGE_SIZE := by ring
    omega
  · have : (x.toNat + 1) * g.PAGE_SIZE ≤ f.toNat * g.PAGE_SIZE :=
      Nat.mul_le_mul_right _ h
    have e : (x.toNat + 1) * g.PAGE_SIZE = x.toNat * g.PAGE_SIZE + g.PAGE_SIZE := by ring
    omega

theorem digits_inj (g : Geometry) (q q2 i i2 : Nat) (hi : i < g.PAGE_SIZE)
    (hi2 : i2 < g.PAGE_SIZE) (h : q * g.PAGE_SIZE + i = q2 * g.PAGE_SIZE + i2) :
    q = q2 ∧ i = i2 := by
  have hP := PAGE_SIZE_pos g
  have h1 : (q * g.PAGE_SIZE + i) / g.PAGE_SIZE = q := by
    rw [Nat.add_comm, Nat.add_mul_div_right _ _ hP, Nat.div_eq_of_lt hi, Nat.zero_add]
  have h2 : (q2 * g.PAGE_SIZE + i2) / g.PAGE_SIZE = q2 := by
    rw [Nat.add_comm, Nat.add_mul_div_right _ _ hP, Nat.div_eq_of_lt hi2, Nat.zero_add]
  have h3 : q = q2 := by rw [← h1, ← h2, h]
  subst h3
  exact ⟨rfl, by omega⟩

/-- Clearing the slot that links a frame without children removes exactly that frame from
the tree. -/
theorem Tree_unlink (g : Geometry) (s s2 : State)
    (hr : TreeRange g s) (hu : TreeUnique g s)
    (d qa : Nat) (a : Int) (j : Nat) (c : Int)
    (hTa : Tree g s d qa a) (hd : d < g.TABLES_DEPTH) (hj : j < g.PAGE_SIZE)
    (hc : PMread s (slotAddr g a j) = c) (hc0 : c ≠ 0)
    (hchildless : d + 1 = g.TABLES_DEPTH ∨ EmptyTable g s c)
    (hmem : s2.mem = Function.update s.mem (slotAddr g a j) 0) (d2 q2 : Nat) (f2 : Int) :
    Tree g s2 d2 q2 f2 ↔ (Tree g s d2 q2 f2 ∧ f2 ≠ c) := by
  obtain ⟨ha0, ha⟩ := hr d qa a hTa
  have hTc : Tree g s (d + 1) (qa * g.PAGE_SIZE + j) c := by
    have := Tree.child j hTa hd hj (by rw [hc]; exact hc0)
    rw [hc] at this
    exact this
  constructor
  · intro hT
    induction hT with
    | root => exact ⟨Tree.root, fun h => hc0 h.symm⟩
    | @child d2 q2 f2 i hT hd2 hi hread ih =>
      obtain ⟨ih1, _⟩ := ih
      obtain ⟨hf0, hf⟩ := hr d2 q2 f2 ih1
      rw [PMread_of_mem_update s s2 _ _ hmem] at hread ⊢
      by_cases hsl : slotAddr g f2 i = slotAddr g a j
      · rw [if_pos hsl] at hread
        exact absurd rfl hread
      · rw [if_neg hsl] at hread ⊢
        refine ⟨Tree.child i ih1 hd2 hi hread, ?_⟩
        intro heq
        have hT2 := Tree.child i ih1 hd2 hi hread
        rw [heq] at hT2
        obtain ⟨e1, e2⟩ := hu _ _ _ _ _ hT2 hTc
        have e3 : d2 = d := by omega
        subst e3
        obtain ⟨e4, e5⟩ := digits_inj g _ _ _ _ hi hj e2
        subst e4 e5
        have := Tree.frame_unique ih1 hTa
        subst this
        exact hsl rfl
  · rintro ⟨hT, hne⟩
    induction hT with
    | root => exact Tree.root
    | @child d2 q2 f2 i hT hd2 hi hread ih =>
      obtain ⟨hf0, hf⟩ := hr d2 q2 f2 hT
      have hf2 : f2 ≠ c := by
        rintro rfl
        obtain ⟨e1, _⟩ := hu _ _ _ _ _ hT hTc
        rcases hchildless with h | h
        · omega
        · exact hread (h i hi)
      have hT2 := ih hf2
      have hsl : slotAddr g f2 i ≠ slotAddr g a j := by
        intro heq
        rw [heq, hc] at hne
        exact hne rfl
      have e : PMread s2 (slotAddr g f2 i) = PMread s (slotAddr g f2 i) := by
        rw [PMread_of_mem_update s s2 _ _ hmem, if_neg hsl]
      rw [← e] at hread ⊢
      exact Tree.child i hT2 hd2 hi hread

/-- Storing a fresh frame without children into a zero slot of a table of the tree adds
exactly that frame to the tree. -/
theorem Tree_link (g : Geometry) (hg : g.Fits) (s s2 : State)
    (hr : TreeRange g s) (hu : TreeUnique g s)
    (d qa : Nat) (a : Int) (j : Nat) (nf : Int)
    (hTa : Tree g s d qa a) (hd : d < g.TABLES_DEPTH) (hj : j < g.PAGE_SIZE)
    (hz : PMread s (slotAddr g a j) = 0)
    (hnf0 : nf ≠ 0) (hnfr0 : 0 ≤ nf) (hnfr : nf < g.NUM_FRAMES)
    (hfresh : ∀ d q, ¬ Tree g s d q nf)
    (hchildless : d + 1 = g.TABLES_DEPTH ∨ EmptyTable g s nf)
    (hmem : s2.mem = Function.update s.mem (slotAddr g a j) nf) (d2 q2 : Nat) (f2 : Int) :
    Tree g s2 d2 q2 f2 ↔
      (Tree g s d2 q2 f2 ∨ (d2 = d + 1 ∧ q2 = qa * g.PAGE_SIZE + j ∧ f2 = nf)) := by
  obtain ⟨ha0, ha⟩ := hr d qa a hTa
  have hmono : ∀ d2 q2 f2, Tree g s d2 q2 f2 → Tree g s2 d2 q2 f2 := by
    intro d2 q2 f2 hT
    induction hT with
    | root => exact Tree.root
    | @child d2 q2 f2 i hT hd2 hi hread ih =>
      have hsl : slotAddr g f2 i ≠ slotAddr g a j := by
        intro heq
        rw [heq, hz] at hread
        exact hread rfl
      have e : PMread s2 (slotAddr g f2 i) = PMread s (slotAddr g f2 i) := by
        rw [PMread_of_mem_update s s2 _ _ hmem, if_neg hsl]
      rw [← e] at hread ⊢
      exact Tree.child i ih hd2 hi hread
  have hnew : PMread s2 (slotAddr g a j) = nf := by
    rw [PMread_of_mem_update s s2 _ _ hmem, if_pos rfl]
  constructor
  · intro hT
    induction hT with
    | root => exact Or.inl Tree.root
    | @child d2 q2 f2 i hT hd2 hi hread ih =>
      rcases ih with ih | ⟨e1, e2, e3⟩
      · obtain ⟨hf0, hf⟩ := hr d2 q2 f2 ih
        by_cases hsl : slotAddr g f2 i = slotAddr g a j
        · obtain ⟨e1, e2⟩ := slotAddr_inj g hg f2 a i j hf0 hf hi ha0 ha hj hsl
          subst e1 e2
          obtain ⟨e3, e4⟩ := hu _ _ _ _ _ ih hTa
          subst e3 e4
          right
          exact ⟨rfl, rfl, hnew⟩
        · have e : PMread s2 (slotAddr g f2 i) = PMread s (slotAddr g f2 i) := by
            rw [PMread_of_mem_update s s2 _ _ hmem, if_neg hsl]
          rw [e] at hread ⊢
          exact Or.inl (Tree.child i ih hd2 hi hread)
      · subst e3
        exfalso
        have hne : f2 ≠ a := by
          rintro rfl
          exact hfresh _ _ hTa
        have hsl : slotAddr g f2 i ≠ slotAddr g a j := by
          intro heq
          exact hne (slotAddr_inj g hg f2 a i j hnfr0 hnfr hi ha0 ha hj heq).1
        rw [PMread_of_mem_update s s2 _ _ hmem, if_neg hsl] at hread
        rcases hchildless with h | h
        · omega
        · exact hread (h i hi)
  · rintro (hT | ⟨e1, e2, e3⟩)
    · exact hmono _ _ _ hT
    · subst e1 e2 e3
      have := Tree.child j (hmono _ _ _ hTa) hd hj (by rw [hnew]; exact hnf0)
      rw [hnew] at this
      exact this

/-! ### The invariant of the page-table tree -/

theorem mem_update_frame_other (g : Geometry) (hg : g.Fits) (s s2 : State) (a f : Int)
    (j o : Nat) (x : Int) (ha0 : 0 ≤ a) (ha : a < g.NUM_FRAMES) (hj : j < g.PAGE_SIZE)
    (hf0 : 0 ≤ f) (hf : f < g.NUM_FRAMES) (ho : o < g.PAGE_SIZE) (hne : f ≠ a)
    (hmem : s2.mem = Function.update s.mem (slotAddr g a j) x) :
    s2.mem (f.toNat * g.PAGE_SIZE + o) = s.mem (f.toNat * g.PAGE_SIZE + o) := by
  rw [hmem, Function.update_apply, if_neg]
  rw [← slotAddr_eq g hg f o hf0 hf ho]
  intro h
  exact hne (slotAddr_inj g hg f a o j hf0 hf ho ha0 ha hj h).1

/-- The state after the unlinking of a frame without children is detached. -/
theorem detached_of_unlink (g : Geometry) (hg : g.Fits) (s s2 : State) (vm : Nat → Int)
    (hI : Inv g s vm) (d qa : Nat) (a : Int) (j : Nat) (c : Int)
    (hTa : Tree g s d qa a) (hd : d < g.TABLES_DEPTH) (hj : j < g.PAGE_SIZE)
    (hc : PMread s (slotAddr g a j) = c) (hc0 : c ≠ 0)
    (hchildless : d + 1 = g.TABLES_DEPTH ∨ EmptyTable g s c)
    (hmem : s2.mem = Function.update s.mem (slotAddr g a j) 0)
    (hswap : ∀ q, q < g.NUM_PAGES → (∀ f, ¬ Tree g s g.TABLES_DEPTH q f) →
      s2.swap q = s.swap q)
    (hsaved : d + 1 = g.TABLES_DEPTH → ∀ o, o < g.PAGE_SIZE →
      restoredWord (s2.swap (qa * g.PAGE_SIZE + j)) o = s.mem (c.toNat * g.PAGE_SIZE + o)) :
    Detached g s2 vm c ∧ (∀ d2 q2 f2, Tree g s2 d2 q2 f2 ↔ (Tree g s d2 q2 f2 ∧ f2 ≠ c)) := by
  have hT := Tree_unlink g s s2 hI.range hI.unique d qa a j c hTa hd hj hc hc0 hchildless hmem
  have hTc : Tree g s (d + 1) (qa * g.PAGE_SIZE + j) c := by
    have := Tree.child j hTa hd hj (by rw [hc]; exact hc0)
    rw [hc] at this
    exact this
  obtain ⟨ha0, ha⟩ := hI.range _ _ _ hTa
  obtain ⟨hc00, hclt⟩ := hI.range _ _ _ hTc
  refine ⟨⟨?_, ?_, ?_, hclt, ?_, ?_, ?_, ?_, ?_⟩, hT⟩
  · intro d2 q2 f2 h
    exact hI.range _ _ _ ((hT _ _ _).mp h).1
  · intro d2 q2 f2 d3 q3 h h3
    exact hI.unique _ _ _ _ _ ((hT _ _ _).mp h).1 ((hT _ _ _).mp h3).1
  · omega
  · intro d2 q2 h
    exact ((hT _ _ _).mp h).2 rfl
  · intro d2 q2 f2 x h hx0 hx
    obtain ⟨d3, q3, h3⟩ := hI.closed _ _ _ x ((hT _ _ _).mp h).1 hx0 hx
    by_cases hxc : x = c
    · exact Or.inl hxc
    · exact Or.inr ⟨d3, q3, (hT _ _ _).mpr ⟨h3, hxc⟩⟩
  · intro x hx0 hx
    obtain ⟨d3, q3, h3⟩ := hI.closed _ _ _ x hTc hx0 (le_of_lt hx)
    exact ⟨d3, q3, (hT _ _ _).mpr ⟨h3, by omega⟩⟩
  · intro q f h o ho
    obtain ⟨h1, _⟩ := (hT _ _ _).mp h
    obtain ⟨hf0, hf⟩ := hI.range _ _ _ h1
    have hne : f ≠ a := by
      rintro rfl
      have := (hI.unique _ _ _ _ _ h1 hTa).1
      omega
    rw [mem_update_frame_other g hg s s2 a f j o 0 ha0 ha hj hf0 hf ho hne hmem]
    exact hI.resident q f h1 o ho
  · intro q hq hnr o ho
    by_cases hres : ∀ f, ¬ Tree g s g.TABLES_DEPTH q f
    · rw [hswap q hq hres]
      exact hI.swapped q hq hres o ho
    · push_neg at hres
      obtain ⟨f, hf⟩ := hres
      have hfc : f = c := by
        by_contra hne
        exact hnr f ((hT _ _ _).mpr ⟨hf, hne⟩)
      subst hfc
      obtain ⟨e1, e2⟩ := hI.unique _ _ _ _ _ hf hTc
      subst e2
      rw [hsaved e1.symm o ho]
      exact hI.resident _ _ hf o ho

theorem root_empty_tree (g : Geometry) (s : State) (h : EmptyTable g s 0) {d q : Nat} {f : Int}
    (hT : Tree g s d q f) : d = 0 := by
  induction hT with
  | root => rfl
  | @child d q f i hT hd hi hc ih =>
    subst ih
    obtain ⟨_, rfl⟩ := Tree.root_eq hT
    exact absurd (h i hi) hc

/-- The ancestors of a frame of the tree are frames of the tree. -/
theorem Tree.ancestor {g : Geometry} {s : State} (k : Nat) {d q : Nat} {f : Int}
    (hT : Tree g s (d + k) q f) : ∃ f2, Tree g s d (q / g.PAGE_SIZE ^ k) f2 := by
  induction k generalizing q f with
  | zero => exact ⟨f, by simpa using hT⟩
  | succ k ih =>
    obtain ⟨qp, fp, i, hp, _, hi, hq, _, _⟩ := Tree.parent (d := d + k) hT
    obtain ⟨f2, h2⟩ := ih hp
    refine ⟨f2, ?_⟩
    have hP := PAGE_SIZE_pos g
    have e : q / g.PAGE_SIZE ^ (k + 1) = qp / g.PAGE_SIZE ^ k := by
      rw [pow_succ', ← Nat.div_div_eq_div_mul, hq, Nat.add_comm,
        Nat.add_mul_div_right _ _ hP, Nat.div_eq_of_lt hi, Nat.zero_add]
    rw [e]
    exact h2

/-- When the tree has no leaf and its only empty table is the current frame, every frame
of the tree lies on the path from frame 0 to the current frame. -/
theorem all_on_path (g : Geometry) (s : State) (hu : TreeUnique g s)
    (d qc : Nat) (cur : Int) (hcur : Tree g s d qc cur)
    (hnoleaf : ∀ q f, ¬ Tree g s g.TABLES_DEPTH q f)
    (hnocand : ∀ k q f, Tree g s k q f → k < g.TABLES_DEPTH → EmptyTable g s f →
      f = cur ∨ f = 0) :
    ∀ m k q f, g.TABLES_DEPTH - k = m → Tree g s k q f →
      k ≤ d ∧ q = qc / g.PAGE_SIZE ^ (d - k) := by
  intro m
  induction m with
  | zero =>
    intro k q f hm hT
    have := hT.depth_le
    have hk : k = g.TABLES_DEPTH := by omega
    subst hk
    exact absurd hT (hnoleaf q f)
  | succ m ih =>
    intro k q f hm hT
    have hk : k < g.TABLES_DEPTH := by omega
    by_cases hfc : f = cur
    · subst hfc
      obtain ⟨e1, e2⟩ := hu _ _ _ _ _ hT hcur
      subst e1 e2
      simp
    · have hne : ¬ EmptyTable g s f := by
        intro he
        rcases hnocand k q f hT hk he with h | h
        · exact hfc h
        · subst h
          have hd0 := root_empty_tree g s he hcur
          subst hd0
          exact hfc (Tree.root_eq hcur).2.symm
      unfold EmptyTable at hne
      push_neg at hne
      obtain ⟨i, hi, hread⟩ := hne
      have hchild := Tree.child i hT hk hi hread
      obtain ⟨h1, h2⟩ := ih (k + 1) _ _ (by omega) hchild
      refine ⟨by omega, ?_⟩
      have hP := PAGE_SIZE_pos g
      have e : d - k = (d - (k + 1)) + 1 := by omega
      rw [e, pow_succ, ← Nat.div_div_eq_div_mul, ← h2, Nat.add_comm,
        Nat.add_mul_div_right _ _ hP, Nat.div_eq_of_lt hi, Nat.zero_add]

/-- When every frame of the tree lies on one path of length `d`, the tree has at most
`d + 1` frames. -/
theorem frames_le_depth (g : Geometry) (s : State) (hc : TreeClosed g s)
    (d qc : Nat)
    (hall : ∀ k q f, Tree g s k q f → k ≤ d ∧ q = qc / g.PAGE_SIZE ^ (d - k))
    (dM qM : Nat) (M : Int) (hM : Tree g s dM qM M) (hM0 : 0 ≤ M) : M ≤ d := by
  have h : ∀ x ∈ Finset.Icc (0 : Int) M, ∃ k, ∃ q, Tree g s k q x := by
    intro x hx
    obtain ⟨h1, h2⟩ := Finset.mem_Icc.mp hx
    exact hc _ _ _ x hM h1 h2
  choose! kf hkf using h
  have hcard := Finset.card_le_card_of_injOn (s := Finset.Icc (0 : Int) M)
    (t := Finset.range (d + 1)) kf
    (by
      intro x hx
      obtain ⟨q, hq⟩ := hkf x hx
      exact Finset.mem_range.mpr (by have := (hall _ _ _ hq).1; omega))
    (by
      intro x hx y hy hxy
      obtain ⟨q, hq⟩ := hkf x hx
      obtain ⟨q2, hq2⟩ := hkf y hy
      have e1 := (hall _ _ _ hq).2
      have e2 := (hall _ _ _ hq2).2
      rw [hxy] at hq e1
      rw [← e2] at e1
      subst e1
      exact Tree.frame_unique hq hq2)
  rw [Int.card_Icc, Finset.card_range] at hcard
  omega

/-- When no frame is an empty-table candidate and no frame is unused, the tree has a
leaf. -/
theorem exists_leaf (g : Geometry) (hg : g.Fits) (hNF : g.TABLES_DEPTH + 1 ≤ g.NUM_FRAMES)
    (s : State) (hu : TreeUnique g s) (hc : TreeClosed g s)
    (d qc : Nat) (cur : Int) (hcur : Tree g s d qc cur) (hd : d < g.TABLES_DEPTH)
    (hnocand : ∀ n ∈ nodes g s, ¬ IsEmptyCandidate g s cur n)
    (hfull : ¬ maxReachable g s + 1 < (g.NUM_FRAMES : Int)) :
    ∃ q f, Tree g s g.TABLES_DEPTH q f := by
  by_contra hno
  push_neg at hno
  have hnc : ∀ k q f, Tree g s k q f → k < g.TABLES_DEPTH → EmptyTable g s f →
      f = cur ∨ f = 0 := by
    intro k q f hT hk he
    obtain ⟨n, hn, h1, h2, _⟩ := hT.mem_nodes hg
    have := hnocand n hn
    unfold IsEmptyCandidate at this
    rw [h1, h2] at this
    by_contra hcon
    push_neg at hcon
    exact this ⟨by omega, he, fun h => hcon.1 h.symm, hcon.2⟩
  have hall := all_on_path g s hu d qc cur hcur hno hnc
  obtain ⟨⟨n, hn, hnM⟩, _⟩ := maxReachable_spec g s
  obtain ⟨q, hT, _⟩ := nodes_ok g hg s n hn
  rw [hnM] at hT
  have hM0 : 0 ≤ maxReachable g s := le_maxFrameOf _ 0
  have := frames_le_depth g s hc d qc (fun k q f h => hall _ k q f rfl h) _ _ _ hT hM0
  have h2 : (d : Int) < g.TABLES_DEPTH := by exact_mod_cast hd
  have h3 : ((g.TABLES_DEPTH + 1 : Nat) : Int) ≤ g.NUM_FRAMES := by exact_mod_cast hNF
  push_cast at h3
  omega

theorem restoredWord_PMevict (g : Geometry) (s : State) (fr pg o : Nat) (ho : o < g.PAGE_SIZE) :
    restoredWord ((PMevict g s fr pg).swap pg) o = s.mem (fr * g.PAGE_SIZE + o) := by
  simp only [PMevict, Function.update_same, restoredWord]
  rw [List.getD_eq_getElem?_getD, List.getElem?_map, List.getElem?_range ho]
  rfl

theorem nodes_range (g : Geometry) (hg : g.Fits) (s : State) (hr : TreeRange g s) :
    ∀ n ∈ nodes g s, 0 ≤ n.frame ∧ n.frame < (g.NUM_FRAMES : Int) := by
  intro n hn
  obtain ⟨q, hT, _⟩ := nodes_ok g hg s n hn
  exact hr _ _ _ hT

/-- The allocator, called by `translate` for a missing link below the frame `cur` of the
tree: it returns a frame and a state that satisfy the detached invariant, the tree only
shrinks, `cur` stays in the tree and zero words stay zero. -/
theorem findFrame_spec (g : Geometry) (hg : g.Fits) (hNF : g.TABLES_DEPTH + 1 ≤ g.NUM_FRAMES)
    (s : State) (vm : Nat → Int) (hI : Inv g s vm) (V : Nat)
    (hV : V < g.VIRTUAL_MEMORY_SIZE) (d qc : Nat) (cur : Int) (hcur : Tree g s d qc cur)
    (hd : d < g.TABLES_DEPTH)
    (hπ : ∀ f, ¬ Tree g s g.TABLES_DEPTH (V >>> g.OFFSET_WIDTH) f) :
    Detached g (findFrame g s V cur).2 vm (findFrame g s V cur).1 ∧
    (∀ d2 q2 f2, Tree g (findFrame g s V cur).2 d2 q2 f2 → Tree g s d2 q2 f2) ∧
    Tree g (findFrame g s V cur).2 d qc cur ∧
    (∀ a, PMread s a = 0 → PMread (findFrame g s V cur).2 a = 0) := by
  have hnr := nodes_range g hg s hI.range
  rcases split_at_first (IsEmptyCandidate g s cur) (nodes g s) with hno | ⟨l1, n, l2, e, h1, h2⟩
  · -- no empty table: case 2 or case 3
    rcases dfsResult_cases g s V cur with ⟨_, hempty, hmax, hs⟩ | ⟨_, n, _, e, _, hc, _⟩
    swap
    · exact absurd hc (hno n (by rw [e]; simp))
    have hM0 : 0 ≤ maxReachable g s := le_maxFrameOf _ 0
    obtain ⟨⟨nM, hnM, hnMf⟩, hMle⟩ := maxReachable_spec g s
    obtain ⟨qM, hTM, _⟩ := nodes_ok g hg s nM hnM
    rw [hnMf] at hTM
    have hle : ∀ d2 q2 f2, Tree g s d2 q2 f2 → f2 ≤ maxReachable g s := by
      intro d2 q2 f2 hT
      obtain ⟨n, hn, _, h2, _⟩ := hT.mem_nodes hg
      rw [← h2]
      exact hMle n hn
    by_cases hlt : maxReachable g s + 1 < (g.NUM_FRAMES : Int)
    · have hf : findFrame g s V cur = (maxReachable g s + 1, s) := by
        rw [findFrame_eq]
        simp only [hempty, ne_eq, not_true_eq_false, if_false, hmax, hlt, if_true]
      rw [hf]
      refine ⟨⟨hI.range, hI.unique, by omega, hlt, ?_, ?_, ?_, hI.resident, hI.swapped⟩,
        fun _ _ _ h => h, hcur, fun _ h => h⟩
      · intro d2 q2 h
        have := hle _ _ _ h
        omega
      · intro d2 q2 f2 x h hx0 hx
        exact Or.inr (hI.closed _ _ _ x h hx0 hx)
      · intro x hx0 hx
        exact hI.closed _ _ _ x hTM hx0 (by omega)
    · -- case 3
      have hfull : ¬ (dfsResult g s V cur).maxFrame + 1 < (g.NUM_FRAMES : Int) := by
        rw [hmax]; exact hlt
      obtain ⟨hπeq, hπlt⟩ := pageSwappedInOf_eq g hg V hV
      have hN : g.NUM_PAGES < 2 ^ 64 := lt_of_le_of_lt (NUM_PAGES_le g hg) (by norm_num)
      have hvict : (dfsResult g s V cur).maxDistFrame ≠ 0 := by
        rcases victimOf_spec g (pageSwappedInOf g V) (leaves g s) DFSVars.init
          with ⟨_, hall⟩ | ⟨k1, n, k2, e, _, a2, _⟩
        · exfalso
          obtain ⟨q, f, hT⟩ := exists_leaf g hg hNF s hI.unique hI.closed d qc cur hcur hd hno hlt
          obtain ⟨n, hn, e1, e2, e3⟩ := hT.mem_nodes hg
          have hnl : n ∈ leaves g s := List.mem_filter.mpr ⟨hn, by simpa using e1⟩
          have := hall n hnl
          rw [hπeq, tmpMinDist_eq g _ _ hπlt (leaf_pagePath_lt g hg s n hnl) hN] at this
          have hne : V >>> g.OFFSET_WIDTH ≠ n.pagePath := by
            intro heq
            rw [e3, Nat.sub_self, pow_zero, Nat.mul_one] at heq
            rw [heq] at hπ
            exact hπ f hT
          have := cyclicDist_pos g _ _ hπlt (leaf_pagePath_lt g hg s n hnl) hne
          simp only [DFSVars.init] at *
          omega
        · rw [hs.2.1, a2]
          have hnl : n ∈ leaves g s := by rw [e]; simp
          obtain ⟨hn1, hn2⟩ := List.mem_filter.mp hnl
          simp only [decide_eq_true_eq] at hn2
          obtain ⟨q, _, _, _, h | ⟨_, h0, _⟩⟩ := nodes_ok g hg s n hn1
          · omega
          · exact h0
      obtain ⟨k1, n, k2, e, hf, _⟩ := findFrame_case3 g s V cur hempty hfull hvict
      have hnl : n ∈ leaves g s := by rw [e]; simp
      obtain ⟨hn1, hn2⟩ := List.mem_filter.mp hnl
      simp only [decide_eq_true_eq] at hn2
      obtain ⟨q, hT, hpp, _, h | ⟨_, h0, hsl, hread, qp, hTp, hq⟩⟩ := nodes_ok g hg s n hn1
      · omega
      obtain ⟨hp0, hp⟩ := hI.range _ _ _ hTp
      obtain ⟨hf0, hflt⟩ := hI.range _ _ _ hT
      rw [hn2] at hT hTp
      rw [hn2, Nat.sub_self, pow_zero, Nat.mul_one] at hpp
      rw [victim_unlink_addr g hg s n hn1 hn2 h0 hp0 hp] at hf
      have hfu : toU64 n.frame = n.frame.toNat := by
        apply toU64_eq _ hf0
        have : (g.NUM_FRAMES : Int) ≤ 2 ^ 31 := by
          have h1 : g.NUM_FRAMES ≤ g.NUM_FRAMES * g.PAGE_SIZE :=
            Nat.le_mul_of_pos_right _ (PAGE_SIZE_pos g)
          have := le_trans h1 hg.1
          exact_mod_cast this
        have h64 : (2 : Int) ^ 31 < 2 ^ 64 := by norm_num
        omega
      have hdet := detached_of_unlink g hg s (findFrame g s V cur).2 vm hI
        (g.TABLES_DEPTH - 1) qp n.parent n.slot n.frame hTp (by omega) hsl hread h0
        (Or.inl (by omega)) (by rw [hf]; rfl)
        (by
          intro q2 hq2 hnres
          rw [hf]
          simp only [PMwrite, PMevict]
          apply Function.update_noteq
          intro heq
          rw [heq, hpp] at hnres
          exact hnres _ hT)
        (by
          intro _ o ho
          rw [hf, ← hq, ← hpp]
          simp only [PMwrite]
          rw [restoredWord_PMevict g s _ _ o ho, hfu])
      have hfr : (findFrame g s V cur).1 = n.frame := by rw [hf]
      rw [hfr]
      refine ⟨hdet.1, fun d2 q2 f2 h => ((hdet.2 _ _ _).mp h).1, ?_, ?_⟩
      · apply (hdet.2 _ _ _).mpr
        refine ⟨hcur, ?_⟩
        rintro rfl
        have := (hI.unique _ _ _ _ _ hcur hT).1
        omega
      · intro a ha
        rw [hf]
        unfold PMread at ha ⊢
        simp only [PMwrite, PMevict, Function.update_apply]
        split_ifs
        · rfl
        · exact ha
  · -- case 1
    have hf := findFrame_case1 g hg s V cur hnr l1 l2 n e h1 h2
    have hn : n ∈ nodes g s := by rw [e]; simp
    obtain ⟨q, hT, hpp, _, h | ⟨_, h0, hsl, hread, qp, hTp, hq⟩⟩ := nodes_ok g hg s n hn
    · exact absurd h.2.1 h2.2.2.2
    have hdepth := hT.depth_le
    have hdet := detached_of_unlink g hg s (findFrame g s V cur).2 vm hI
      (n.depth - 1) qp n.parent n.slot n.frame hTp
      (by have := h2.1; omega) hsl hread h0 (Or.inr h2.2.1) (by rw [hf]; rfl)
      (by intro q2 _ _; rw [hf]; rfl)
      (by intro hcon; exfalso; have := h2.1; omega)
    have hfr : (findFrame g s V cur).1 = n.frame := by rw [hf]
    rw [hfr]
    refine ⟨hdet.1, fun d2 q2 f2 h => ((hdet.2 _ _ _).mp h).1, ?_, ?_⟩
    · exact (hdet.2 _ _ _).mpr ⟨hcur, h2.2.2.1⟩
    · intro a ha
      rw [hf]
      unfold PMread at ha ⊢
      simp only [PMwrite, Function.update_apply]
      split_ifs
      · rfl
      · exact ha

/-! ### Linking a frame and the translation loop -/

theorem fillWithZeros_foldl (s : State) (base : Nat) (n : Nat) :
    ((List.range n).foldl (fun st (i : Nat) => PMwrite st (base + i) 0) s).swap = s.swap ∧
    ∀ a, ((List.range n).foldl (fun st (i : Nat) => PMwrite st (base + i) 0) s).mem a
      = if base ≤ a ∧ a < base + n then 0 else s.mem a := by
  induction n with
  | zero =>
    refine ⟨rfl, fun a => ?_⟩
    simp only [List.range_zero, List.foldl_nil]
    rw [if_neg (by omega)]
  | succ n ih =>
    rw [List.range_succ, List.foldl_append]
    simp only [List.foldl_cons, List.foldl_nil]
    refine ⟨ih.1, fun a => ?_⟩
    show Function.update _ (base + n) 0 a = _
    rw [Function.update_apply, ih.2 a]
    by_cases h1 : a = base + n
    · rw [if_pos h1, if_pos (by omega)]
    · rw [if_neg h1]
      by_cases h2 : base ≤ a ∧ a < base + n
      · rw [if_pos h2, if_pos (by omega)]
      · rw [if_neg h2, if_neg (by omega)]

/-- The function `fillWithZeros` on a valid frame clears the words of that frame and nothing
else. -/
theorem fillWithZeros_spec (g : Geometry) (hg : g.Fits) (s : State) (f : Int)
    (hf0 : 0 ≤ f) (hf : f < g.NUM_FRAMES) :
    (fillWithZeros g s f).swap = s.swap ∧
    ∀ a, (fillWithZeros g s f).mem a
      = if f.toNat * g.PAGE_SIZE ≤ a ∧ a < f.toNat * g.PAGE_SIZE + g.PAGE_SIZE then 0
        else s.mem a := by
  have key : ∀ n, n ≤ g.PAGE_SIZE →
      (List.range n).foldl
        (fun st (i : Nat) => PMwrite st (toU64 (f * (g.PAGE_SIZE : Int) + (i : Int))) 0) s
      = (List.range n).foldl (fun st (i : Nat) => PMwrite st (f.toNat * g.PAGE_SIZE + i) 0) s := by
    intro n
    induction n with
    | zero => intro _; rfl
    | succ n ih =>
      intro hn
      rw [List.range_succ, List.foldl_append, List.foldl_append, ih (by omega)]
      simp only [List.foldl_cons, List.foldl_nil]
      rw [toU64_frame_addr g hg f n hf0 hf (by omega)]
  unfold fillWithZeros
  rw [key _ le_rfl]
  exact fillWithZeros_foldl s (f.toNat * g.PAGE_SIZE) g.PAGE_SIZE

theorem frame_disjoint (g : Geometry) (f x : Int) (o : Nat) (hf0 : 0 ≤ f) (hx0 : 0 ≤ x)
    (ho : o < g.PAGE_SIZE) (hne : f ≠ x) :
    ¬ (x.toNat * g.PAGE_SIZE ≤ f.toNat * g.PAGE_SIZE + o ∧
      f.toNat * g.PAGE_SIZE + o < x.toNat * g.PAGE_SIZE + g.PAGE_SIZE) := by
  intro ⟨h1, h2⟩
  have hfx : f.toNat ≠ x.toNat := by omega
  rcases Nat.lt_or_gt_of_ne hfx with h | h
  · have : (f.toNat + 1) * g.PAGE_SIZE ≤ x.toNat * g.PAGE_SIZE :=
      Nat.mul_le_mul_right _ h
    have e : (f.toNat + 1) * g.PAGE_SIZE = f.toNat * g.PAGE_SIZE + g.PAGE_SIZE := by ring
    omega
  · have : (x.toNat + 1) * g.PAGE_SIZE ≤ f.toNat * g.PAGE_SIZE :=
      Nat.mul_le_mul_right _ h
    have e : (x.toNat + 1) * g.PAGE_SIZE = x.toNat * g.PAGE_SIZE + g.PAGE_SIZE := by ring
    omega

/-- A change of the physical memory inside the detached frame keeps the detached
invariant and the tree. -/
theorem detached_frame_local (g : Geometry) (hg : g.Fits) (s s2 : State) (vm : Nat → Int)
    (nf : Int) (hD : Detached g s vm nf)
    (hmem : ∀ a, ¬ (nf.toNat * g.PAGE_SIZE ≤ a ∧ a < nf.toNat * g.PAGE_SIZE + g.PAGE_SIZE) →
      s2.mem a = s.mem a)
    (hswap : s2.swap = s.swap) :
    Detached g s2 vm nf ∧ ∀ d q f, Tree g s2 d q f ↔ Tree g s d q f := by
  have hT := Tree_frame_local g hg s s2 nf hD.range (le_of_lt hD.nf_pos) hD.nf_lt
    (fun d q h => absurd h (hD.fresh d q)) hmem
  refine ⟨⟨?_, ?_, hD.nf_pos, hD.nf_lt, ?_, ?_, ?_, ?_, ?_⟩, hT⟩
  · intro d q f h
    exact hD.range _ _ _ ((hT _ _ _).mp h)
  · intro d q f d2 q2 h h2
    exact hD.unique _ _ _ _ _ ((hT _ _ _).mp h) ((hT _ _ _).mp h2)
  · intro d q h
    exact hD.fresh d q ((hT _ _ _).mp h)
  · intro d q f x h hx0 hx
    rcases hD.closed1 _ _ _ x ((hT _ _ _).mp h) hx0 hx with h1 | ⟨d2, q2, h2⟩
    · exact Or.inl h1
    · exact Or.inr ⟨d2, q2, (hT _ _ _).mpr h2⟩
  · intro x hx0 hx
    obtain ⟨d2, q2, h2⟩ := hD.closed2 x hx0 hx
    exact ⟨d2, q2, (hT _ _ _).mpr h2⟩
  · intro q f h o ho
    have h1 := (hT _ _ _).mp h
    obtain ⟨hf0, _⟩ := hD.range _ _ _ h1
    have hne : f ≠ nf := by
      rintro rfl
      exact hD.fresh _ _ h1
    rw [hmem _ (frame_disjoint g f nf o hf0 (le_of_lt hD.nf_pos) ho hne)]
    exact hD.resident q f h1 o ho
  · intro q hq hnr o ho
    rw [hswap]
    exact hD.swapped q hq (fun f h => hnr f ((hT _ _ _).mpr h)) o ho

/-- The tree after the detached frame is linked below a table of the tree. -/
theorem link_tree (g : Geometry) (hg : g.Fits) (s s2 : State) (vm : Nat → Int) (nf : Int)
    (hD : Detached g s vm nf) (d qa : Nat) (a : Int) (j : Nat)
    (hTa : Tree g s d qa a) (hd : d < g.TABLES_DEPTH) (hj : j < g.PAGE_SIZE)
    (hz : PMread s (slotAddr g a j) = 0)
    (hchildless : d + 1 = g.TABLES_DEPTH ∨ EmptyTable g s nf)
    (hmem : s2.mem = Function.update s.mem (slotAddr g a j) nf) :
    (∀ d2 q2 f2, Tree g s2 d2 q2 f2 ↔
      (Tree g s d2 q2 f2 ∨ (d2 = d + 1 ∧ q2 = qa * g.PAGE_SIZE + j ∧ f2 = nf))) ∧
    TreeRange g s2 ∧ TreeUnique g s2 ∧ TreeClosed g s2 := by
  have hT := Tree_link g hg s s2 hD.range hD.unique d qa a j nf hTa hd hj hz
    (ne_of_gt hD.nf_pos) (le_of_lt hD.nf_pos) hD.nf_lt hD.fresh hchildless hmem
  refine ⟨hT, ?_, ?_, ?_⟩
  · intro d2 q2 f2 h
    rcases (hT _ _ _).mp h with h | ⟨_, _, rfl⟩
    · exact hD.range _ _ _ h
    · exact ⟨le_of_lt hD.nf_pos, hD.nf_lt⟩
  · intro d2 q2 f2 d3 q3 h h3
    rcases (hT _ _ _).mp h with h | ⟨e1, e2, e3⟩
    · rcases (hT _ _ _).mp h3 with h3 | ⟨_, _, e6⟩
      · exact hD.unique _ _ _ _ _ h h3
      · subst e6
        exact absurd h (hD.fresh _ _)
    · rcases (hT _ _ _).mp h3 with h3 | ⟨e4, e5, _⟩
      · subst e3
        exact absurd h3 (hD.fresh _ _)
      · exact ⟨by omega, by omega⟩
  · intro d2 q2 f2 x h hx0 hx
    have hnew : Tree g s2 (d + 1) (qa * g.PAGE_SIZE + j) nf :=
      (hT _ _ _).mpr (Or.inr ⟨rfl, rfl, rfl⟩)
    rcases (hT _ _ _).mp h with h | ⟨_, _, rfl⟩
    · rcases hD.closed1 _ _ _ x h hx0 hx with rfl | ⟨d3, q3, h3⟩
      · exact ⟨_, _, hnew⟩
      · exact ⟨d3, q3, (hT _ _ _).mpr (Or.inl h3)⟩
    · by_cases hxe : x = f2
      · subst hxe
        exact ⟨_, _, hnew⟩
      · obtain ⟨d3, q3, h3⟩ := hD.closed2 x hx0 (by omega)
        exact ⟨d3, q3, (hT _ _ _).mpr (Or.inl h3)⟩

/-- Linking the detached frame as a new, zero-filled table restores the invariant. -/
theorem link_table (g : Geometry) (hg : g.Fits) (s s2 : State) (vm : Nat → Int) (nf : Int)
    (hD : Detached g s vm nf) (d qa : Nat) (a : Int) (j : Nat)
    (hTa : Tree g s d qa a) (hd : d + 1 < g.TABLES_DEPTH) (hj : j < g.PAGE_SIZE)
    (hz : PMread s (slotAddr g a j) = 0) (hempty : EmptyTable g s nf)
    (hmem : s2.mem = Function.update s.mem (slotAddr g a j) nf)
    (hswap : s2.swap = s.swap) :
    Inv g s2 vm ∧ Tree g s2 (d + 1) (qa * g.PAGE_SIZE + j) nf := by
  obtain ⟨hT, hr, hu, hc⟩ := link_tree g hg s s2 vm nf hD d qa a j hTa (by omega) hj hz
    (Or.inr hempty) hmem
  obtain ⟨ha0, ha⟩ := hD.range _ _ _ hTa
  have hleaf : ∀ q f, Tree g s2 g.TABLES_DEPTH q f ↔ Tree g s g.TABLES_DEPTH q f := by
    intro q f
    rw [hT]
    constructor
    · rintro (h | ⟨h, _⟩)
      · exact h
      · omega
    · exact Or.inl
  refine ⟨⟨hr, hu, hc, ?_, ?_⟩, (hT _ _ _).mpr (Or.inr ⟨rfl, rfl, rfl⟩)⟩
  · intro q f h o ho
    have h1 := (hleaf q f).mp h
    obtain ⟨hf0, hf⟩ := hD.range _ _ _ h1
    have hne : f ≠ a := by
      rintro rfl
      have := (hD.unique _ _ _ _ _ h1 hTa).1
      omega
    rw [mem_update_frame_other g hg s s2 a f j o nf ha0 ha hj hf0 hf ho hne hmem]
    exact hD.resident q f h1 o ho
  · intro q hq hnr o ho
    rw [hswap]
    exact hD.swapped q hq (fun f h => hnr f ((hleaf q f).mpr h)) o ho

/-- Linking the detached frame as a leaf and restoring its page restores the invariant. -/
theorem link_leaf (g : Geometry) (hg : g.Fits) (s s2 : State) (vm : Nat → Int) (nf : Int)
    (hD : Detached g s vm nf) (d qa : Nat) (a : Int) (j : Nat)
    (hTa : Tree g s d qa a) (hd : d + 1 = g.TABLES_DEPTH) (hj : j < g.PAGE_SIZE)
    (hz : PMread s (slotAddr g a j) = 0)
    (hmem : s2.mem = Function.update s.mem (slotAddr g a j) nf)
    (hswap : s2.swap = s.swap)
    (hnr : ∀ f, ¬ Tree g s g.TABLES_DEPTH (qa * g.PAGE_SIZE + j) f) :
    Inv g (PMrestore g s2 nf.toNat (qa * g.PAGE_SIZE + j)) vm ∧
    Tree g (PMrestore g s2 nf.toNat (qa * g.PAGE_SIZE + j)) g.TABLES_DEPTH
      (qa * g.PAGE_SIZE + j) nf := by
  obtain ⟨hT, hr, hu, hc⟩ := link_tree g hg s s2 vm nf hD d qa a j hTa (by omega) hj hz
    (Or.inl hd) hmem
  obtain ⟨ha0, ha⟩ := hD.range _ _ _ hTa
  have hnf0 := le_of_lt hD.nf_pos
  have hmem3 : ∀ x, ¬ (nf.toNat * g.PAGE_SIZE ≤ x ∧ x < nf.toNat * g.PAGE_SIZE + g.PAGE_SIZE) →
      (PMrestore g s2 nf.toNat (qa * g.PAGE_SIZE + j)).mem x = s2.mem x := by
    intro x hx
    simp only [PMrestore]
    rw [if_neg hx]
  have hT3 := Tree_frame_local g hg s2 (PMrestore g s2 nf.toNat (qa * g.PAGE_SIZE + j)) nf hr
    hnf0 hD.nf_lt
    (by
      intro d2 q2 h
      rcases (hT _ _ _).mp h with h | ⟨h, _⟩
      · exact absurd h (hD.fresh _ _)
      · omega)
    hmem3
  have hnew : Tree g s2 g.TABLES_DEPTH (qa * g.PAGE_SIZE + j) nf :=
    (hT _ _ _).mpr (Or.inr ⟨hd.symm, rfl, rfl⟩)
  refine ⟨⟨?_, ?_, ?_, ?_, ?_⟩, (hT3 _ _ _).mpr hnew⟩
  · intro d2 q2 f2 h
    exact hr _ _ _ ((hT3 _ _ _).mp h)
  · intro d2 q2 f2 d3 q3 h h3
    exact hu _ _ _ _ _ ((hT3 _ _ _).mp h) ((hT3 _ _ _).mp h3)
  · intro d2 q2 f2 x h hx0 hx
    obtain ⟨d3, q3, h3⟩ := hc _ _ _ x ((hT3 _ _ _).mp h) hx0 hx
    exact ⟨d3, q3, (hT3 _ _ _).mpr h3⟩
  · intro q f h o ho
    rcases (hT _ _ _).mp ((hT3 _ _ _).mp h) with h1 | ⟨_, e2, e3⟩
    · obtain ⟨hf0, hf⟩ := hD.range _ _ _ h1
      have hne : f ≠ nf := by
        rintro rfl
        exact hD.fresh _ _ h1
      have hne2 : f ≠ a := by
        rintro rfl
        have := (hD.unique _ _ _ _ _ h1 hTa).1
        omega
      rw [hmem3 _ (frame_disjoint g f nf o hf0 hnf0 ho hne),
        mem_update_frame_other g hg s s2 a f j o nf ha0 ha hj hf0 hf ho hne2 hmem]
      exact hD.resident q f h1 o ho
    · subst e2 e3
      have hq : qa * g.PAGE_SIZE + j < g.NUM_PAGES := by
        rw [NUM_PAGES_eq_pow]
        exact hnew.lt_pow
      simp only [PMrestore]
      rw [if_pos (by omega), hswap, Nat.add_sub_cancel_left]
      exact hD.swapped _ hq hnr o ho
  · intro q hq hnres o ho
    have : (PMrestore g s2 nf.toNat (qa * g.PAGE_SIZE + j)).swap = s.swap := hswap
    rw [this]
    apply hD.swapped q hq _ o ho
    intro f h
    exact hnres f ((hT3 _ _ _).mpr ((hT _ _ _).mpr (Or.inl h)))

theorem VIRTUAL_MEMORY_SIZE_lt (g : Geometry) (hg : g.Fits) (hNF : 1 ≤ g.NUM_FRAMES) :
    g.VIRTUAL_MEMORY_SIZE < 2 ^ 64 := by
  have hP : g.PAGE_SIZE ≤ 2 ^ 31 := by
    calc g.PAGE_SIZE = 1 * g.PAGE_SIZE := (Nat.one_mul _).symm
      _ ≤ g.NUM_FRAMES * g.PAGE_SIZE := Nat.mul_le_mul_right _ hNF
      _ ≤ 2 ^ 31 := hg.1
  have hN := NUM_PAGES_le g hg
  rw [VIRTUAL_MEMORY_SIZE_eq]
  calc g.NUM_PAGES * g.PAGE_SIZE ≤ 2 ^ 31 * 2 ^ 31 := Nat.mul_le_mul hN hP
    _ < 2 ^ 64 := by norm_num

/-- The offset that `translate` uses at the value `i ≥ 1` of its loop counter is the digit
of the page number at position `i - 1`. -/
theorem offsets_getD (g : Geometry) (hg : g.Fits) (hNF : 1 ≤ g.NUM_FRAMES) (V i : Nat)
    (hV : V < g.VIRTUAL_MEMORY_SIZE) (hi1 : 1 ≤ i) (hi : i ≤ g.TABLES_DEPTH) :
    (split_virtual_address g V (g.TABLES_DEPTH + 1)).getD i 0
      = ((V >>> g.OFFSET_WIDTH) / g.PAGE_SIZE ^ (i - 1)) % g.PAGE_SIZE := by
  have h64 := lt_trans hV (VIRTUAL_MEMORY_SIZE_lt g hg hNF)
  rw [split_virtual_address_getD g V _ i h64 (by omega), Nat.shiftRight_eq_div_pow,
    Nat.shiftRight_eq_div_pow, ← pow_OFFSET, Nat.div_div_eq_div_mul]
  have : g.PAGE_SIZE ^ i = 2 ^ g.OFFSET_WIDTH * g.PAGE_SIZE ^ (i - 1) := by
    obtain ⟨k, rfl⟩ : ∃ k, i = k + 1 := ⟨i - 1, by omega⟩
    rw [Nat.add_sub_cancel, pow_succ, Nat.mul_comm]
    rfl
  rw [this]

theorem digits_step (P m i : Nat) (hi : 1 ≤ i) :
    (m / P ^ i) * P + (m / P ^ (i - 1)) % P = m / P ^ (i - 1) := by
  obtain ⟨k, rfl⟩ : ∃ k, i = k + 1 := ⟨i - 1, by omega⟩
  rw [Nat.add_sub_cancel, pow_succ, ← Nat.div_div_eq_div_mul]
  rw [Nat.mul_comm]
  exact Nat.div_add_mod _ _

/-- A resident page has every link of its path: if the slot of the path of a page below a
frame of the tree is zero, the page is not resident. -/
theorem not_resident_of_zero_slot (g : Geometry) (s : State) (pg i : Nat) (cur : Int)
    (hi1 : 1 ≤ i) (hi : i ≤ g.TABLES_DEPTH)
    (hcur : Tree g s (g.TABLES_DEPTH - i) (pg / g.PAGE_SIZE ^ i) cur)
    (hz : PMread s (slotAddr g cur ((pg / g.PAGE_SIZE ^ (i - 1)) % g.PAGE_SIZE)) = 0) :
    ∀ f, ¬ Tree g s g.TABLES_DEPTH pg f := by
  intro f hT
  have hP := PAGE_SIZE_pos g
  have e : g.TABLES_DEPTH = (g.TABLES_DEPTH - i + 1) + (i - 1) := by omega
  rw [e] at hT
  obtain ⟨f2, h2⟩ := Tree.ancestor (i - 1) hT
  obtain ⟨qp, fp, k, hp, _, hk, hq, hread, hne⟩ := Tree.parent h2
  have hstep := digits_step g.PAGE_SIZE pg i hi1
  rw [hq] at hstep
  obtain ⟨e1, e2⟩ := digits_inj g _ _ _ _ (Nat.mod_lt _ hP) hk hstep
  rw [← e1] at hp
  have := Tree.frame_unique hp hcur
  subst this
  rw [hq, e2, hread] at hz
  exact hne hz

/-- One iteration of the loop of `translate` keeps the invariant and moves one level down
the path of the page. -/
theorem translateStep_spec (g : Geometry) (hg : g.Fits)
    (hNF : g.TABLES_DEPTH + 1 ≤ g.NUM_FRAMES) (s : State) (vm : Nat → Int) (hI : Inv g s vm)
    (V : Nat) (hV : V < g.VIRTUAL_MEMORY_SIZE) (i : Nat) (hi1 : 1 ≤ i)
    (hi : i ≤ g.TABLES_DEPTH) (cur : Int)
    (hcur : Tree g s (g.TABLES_DEPTH - i) ((V >>> g.OFFSET_WIDTH) / g.PAGE_SIZE ^ i) cur) :
    Inv g (translateStep g V (split_virtual_address g V (g.TABLES_DEPTH + 1)) i cur s).2 vm ∧
    Tree g (translateStep g V (split_virtual_address g V (g.TABLES_DEPTH + 1)) i cur s).2
      (g.TABLES_DEPTH - (i - 1)) ((V >>> g.OFFSET_WIDTH) / g.PAGE_SIZE ^ (i - 1))
      (translateStep g V (split_virtual_address g V (g.TABLES_DEPTH + 1)) i cur s).1 := by
  have hP := PAGE_SIZE_pos g
  obtain ⟨hc0, hc⟩ := hI.range _ _ _ hcur
  have hj : ((V >>> g.OFFSET_WIDTH) / g.PAGE_SIZE ^ (i - 1)) % g.PAGE_SIZE < g.PAGE_SIZE :=
    Nat.mod_lt _ hP
  have hcw : toU64 (cur * (g.PAGE_SIZE : Int)
      + (((split_virtual_address g V (g.TABLES_DEPTH + 1)).getD i 0 : Nat) : Int))
      = slotAddr g cur (((V >>> g.OFFSET_WIDTH) / g.PAGE_SIZE ^ (i - 1)) % g.PAGE_SIZE) := by
    rw [offsets_getD g hg (by omega) V i hV hi1 hi]
    exact toU64_frame_addr_eq_slotAddr g hg cur _ hc0 hc hj
  have hstep := digits_step g.PAGE_SIZE (V >>> g.OFFSET_WIDTH) i hi1
  have hdep : g.TABLES_DEPTH - i + 1 = g.TABLES_DEPTH - (i - 1) := by omega
  simp only [translateStep, hcw]
  by_cases hz : PMread s (slotAddr g cur
      (((V >>> g.OFFSET_WIDTH) / g.PAGE_SIZE ^ (i - 1)) % g.PAGE_SIZE)) = 0
  · rw [if_pos hz]
    simp only
    have hπ := not_resident_of_zero_slot g s _ i cur hi1 hi hcur hz
    obtain ⟨hD, hsub, hcur1, hzero⟩ := findFrame_spec g hg hNF s vm hI V hV
      (g.TABLES_DEPTH - i) _ cur hcur (by omega) hπ
    have hz1 := hzero _ hz
    have hnf0 := le_of_lt hD.nf_pos
    by_cases hi1' : i = 1
    · subst hi1'
      simp only [gt_iff_lt, lt_self_iff_false, if_false, if_true]
      have hfu : toU64 (findFrame g s V cur).1 = (findFrame g s V cur).1.toNat := by
        apply toU64_eq _ hnf0
        have : (g.NUM_FRAMES : Int) ≤ 2 ^ 31 := by
          have h1 : g.NUM_FRAMES ≤ g.NUM_FRAMES * g.PAGE_SIZE :=
            Nat.le_mul_of_pos_right _ hP
          have := le_trans h1 hg.1
          exact_mod_cast this
        have h64 : (2 : Int) ^ 31 < 2 ^ 64 := by norm_num
        have := hD.nf_lt
        omega
      simp only [Nat.sub_self, pow_zero, Nat.div_one, Nat.sub_zero] at hstep hz hz1 hj ⊢
      have hl := link_leaf g hg (findFrame g s V cur).2
        (PMwrite (findFrame g s V cur).2
          (slotAddr g cur ((V >>> g.OFFSET_WIDTH) % g.PAGE_SIZE)) (findFrame g s V cur).1)
        vm (findFrame g s V cur).1 hD (g.TABLES_DEPTH - 1) _ cur
        ((V >>> g.OFFSET_WIDTH) % g.PAGE_SIZE) hcur1 (by omega) hj hz1 rfl rfl
        (by
          rw [hstep]
          intro f h
          exact hπ f (hsub _ _ _ h))
      rw [hstep] at hl
      rw [hfu]
      exact hl
    · have hgt : i > 1 := by omega
      have hne1 : ¬ i = 1 := hi1'
      simp only [hgt, if_true, hne1, if_false]
      obtain ⟨hfs, hfm⟩ := fillWithZeros_spec g hg (findFrame g s V cur).2
        (findFrame g s V cur).1 hnf0 hD.nf_lt
      obtain ⟨hD2, hT2⟩ := detached_frame_local g hg (findFrame g s V cur).2
        (fillWithZeros g (findFrame g s V cur).2 (findFrame g s V cur).1) vm _ hD
        (by
          intro a ha
          rw [hfm a, if_neg ha])
        hfs
      have hempty : EmptyTable g
          (fillWithZeros g (findFrame g s V cur).2 (findFrame g s V cur).1)
          (findFrame g s V cur).1 := by
        intro k hk
        unfold PMread
        rw [slotAddr_eq g hg _ k hnf0 hD.nf_lt hk, hfm, if_pos (by omega)]
      have hz2 : PMread (fillWithZeros g (findFrame g s V cur).2 (findFrame g s V cur).1)
          (slotAddr g cur (((V >>> g.OFFSET_WIDTH) / g.PAGE_SIZE ^ (i - 1)) % g.PAGE_SIZE))
          = 0 := by
        unfold PMread at hz1 ⊢
        rw [hfm]
        split_ifs
        · rfl
        · exact hz1
      have hl := link_table g hg
        (fillWithZeros g (findFrame g s V cur).2 (findFrame g s V cur).1)
        (PMwrite (fillWithZeros g (findFrame g s V cur).2 (findFrame g s V cur).1)
          (slotAddr g cur (((V >>> g.OFFSET_WIDTH) / g.PAGE_SIZE ^ (i - 1)) % g.PAGE_SIZE))
          (findFrame g s V cur).1)
        vm (findFrame g s V cur).1 hD2 (g.TABLES_DEPTH - i) _ cur _
        ((hT2 _ _ _).mpr hcur1) (by omega) hj hz2 hempty rfl rfl
      rw [hstep, hdep] at hl
      exact hl
  · rw [if_neg hz]
    simp only
    refine ⟨hI, ?_⟩
    have := Tree.child _ hcur (by omega) hj hz
    rw [hstep, hdep] at this
    exact this

/-- The loop of `translate` keeps the invariant and ends at the leaf of the page. -/
theorem translateLoop_spec (g : Geometry) (hg : g.Fits)
    (hNF : g.TABLES_DEPTH + 1 ≤ g.NUM_FRAMES) (vm : Nat → Int)
    (V : Nat) (hV : V < g.VIRTUAL_MEMORY_SIZE) (i : Nat) (hi : i ≤ g.TABLES_DEPTH)
    (s : State) (hI : Inv g s vm) (cur : Int)
    (hcur : Tree g s (g.TABLES_DEPTH - i) ((V >>> g.OFFSET_WIDTH) / g.PAGE_SIZE ^ i) cur) :
    Inv g (translateLoop g V (split_virtual_address g V (g.TABLES_DEPTH + 1)) i cur s).2 vm ∧
    Tree g (translateLoop g V (split_virtual_address g V (g.TABLES_DEPTH + 1)) i cur s).2
      g.TABLES_DEPTH (V >>> g.OFFSET_WIDTH)
      (translateLoop g V (split_virtual_address g V (g.TABLES_DEPTH + 1)) i cur s).1 := by
  induction i generalizing s cur with
  | zero =>
    simp only [translateLoop]
    simp only [Nat.sub_zero, pow_zero, Nat.div_one] at hcur
    exact ⟨hI, hcur⟩
  | succ i ih =>
    simp only [translateLoop]
    obtain ⟨h1, h2⟩ := translateStep_spec g hg hNF s vm hI V hV (i + 1) (by omega) hi cur hcur
    simp only [Nat.add_sub_cancel] at h2
    exact ih (by omega) _ h1 _ h2

/-- The function `translate` keeps the invariant and returns the leaf frame of the page of
the address. -/
theorem translate_spec (g : Geometry) (hg : g.Fits)
    (hNF : g.TABLES_DEPTH + 1 ≤ g.NUM_FRAMES) (s : State) (vm : Nat → Int) (hI : Inv g s vm)
    (V : Nat) (hV : V < g.VIRTUAL_MEMORY_SIZE) :
    Inv g (translate g s V).2 vm ∧
    Tree g (translate g s V).2 g.TABLES_DEPTH (V >>> g.OFFSET_WIDTH) (translate g s V).1 := by
  unfold translate
  simp only [Nat.add_sub_cancel]
  apply translateLoop_spec g hg hNF vm V hV _ le_rfl s hI
  obtain ⟨_, hlt⟩ := pageSwappedInOf_eq g hg V hV
  rw [NUM_PAGES_eq_pow] at hlt
  rw [Nat.sub_self, Nat.div_eq_of_lt hlt]
  exact Tree.root

/-! ### The public surface -/

/-- After `VMinitialize` the tree is the root alone and the invariant holds. -/
theorem VMinitialize_inv (g : Geometry) (hg : g.Fits) (hTD : 1 ≤ g.TABLES_DEPTH)
    (hNF : 1 ≤ g.NUM_FRAMES) (s0 : State) :
    Inv g ( VMinitialize g s0) (initialVM g s0) := by
  have hP := PAGE_SIZE_pos g
  have hNF2 : (0 : Int) < g.NUM_FRAMES := by exact_mod_cast hNF
  obtain ⟨hsw, hmem⟩ := fillWithZeros_spec g hg s0 0 le_rfl hNF2
  have hempty : EmptyTable g ( VMinitialize g s0) 0 := by
    intro i hi
    unfold PMread VMinitialize
    rw [slotAddr_eq g hg 0 i le_rfl hNF2 hi, hmem, if_pos]
    simp only [Int.toNat_zero, Nat.zero_mul, Nat.zero_add]
    exact ⟨Nat.zero_le _, hi⟩
  have hroot : ∀ d q f, Tree g ( VMinitialize g s0) d q f → d = 0 ∧ q = 0 ∧ f = 0 := by
    intro d q f h
    have hd := root_empty_tree g _ hempty h
    subst hd
    exact ⟨rfl, Tree.root_eq h⟩
  refine ⟨?_, ?_, ?_, ?_, ?_⟩
  · intro d q f h
    obtain ⟨_, _, rfl⟩ := hroot _ _ _ h
    exact ⟨le_rfl, hNF2⟩
  · intro d q f d2 q2 h h2
    obtain ⟨rfl, rfl, _⟩ := hroot _ _ _ h
    obtain ⟨rfl, rfl, _⟩ := hroot _ _ _ h2
    exact ⟨rfl, rfl⟩
  · intro d q f x h hx0 hx
    obtain ⟨_, _, rfl⟩ := hroot _ _ _ h
    have : x = 0 := by omega
    subst this
    exact ⟨0, 0, Tree.root⟩
  · intro q f h
    have := (hroot _ _ _ h).1
    omega
  · intro q _ _ o ho
    unfold initialVM VMinitialize
    rw [hsw, Nat.add_comm, Nat.add_mul_div_right _ _ hP, Nat.div_eq_of_lt ho, Nat.zero_add,
      Nat.add_mul_mod_self_right, Nat.mod_eq_of_lt ho]

theorem page_split (g : Geometry) (V : Nat) :
    (V >>> g.OFFSET_WIDTH) * g.PAGE_SIZE + (V &&& (g.PAGE_SIZE - 1)) = V ∧
    V &&& (g.PAGE_SIZE - 1) < g.PAGE_SIZE ∧ V &&& (g.PAGE_SIZE - 1) = V % g.PAGE_SIZE := by
  have hP := PAGE_SIZE_pos g
  have e : V &&& (g.PAGE_SIZE - 1) = V % g.PAGE_SIZE := by
    unfold Geometry.PAGE_SIZE
    exact Nat.and_pow_two_sub_one_eq_mod V g.OFFSET_WIDTH
  refine ⟨?_, ?_, e⟩
  · rw [e, Nat.shiftRight_eq_div_pow]
    exact Nat.div_add_mod' V g.PAGE_SIZE
  · rw [e]
    exact Nat.mod_lt _ hP

/-- The function `VMread` on an in-range address returns 1 and the word of the virtual
memory, and keeps the invariant. -/
theorem VMread_spec (g : Geometry) (hg : g.Fits) (hNF : g.TABLES_DEPTH + 1 ≤ g.NUM_FRAMES)
    (s : State) (vm : Nat → Int) (hI : Inv g s vm) (V : Nat)
    (hV : V < g.VIRTUAL_MEMORY_SIZE) (v : Int) :
    (VMread g s V v).ret = 1 ∧ (VMread g s V v).value = vm V ∧
    Inv g (VMread g s V v).state vm := by
  obtain ⟨h1, h2⟩ := translate_spec g hg hNF s vm hI V hV
  obtain ⟨e1, e2, _⟩ := page_split g V
  obtain ⟨hf0, hf⟩ := h1.range _ _ _ h2
  unfold VMread
  rw [if_neg (by omega)]
  refine ⟨rfl, ?_, h1⟩
  simp only [PMread]
  rw [toU64_frame_addr g hg _ _ hf0 hf e2, h1.resident _ _ h2 _ e2, e1]

/-- The function `VMwrite` on an in-range address returns 1, stores the word in the
virtual memory, and keeps the invariant. -/
theorem VMwrite_spec (g : Geometry) (hg : g.Fits) (hNF : g.TABLES_DEPTH + 1 ≤ g.NUM_FRAMES)
    (s : State) (vm : Nat → Int) (hI : Inv g s vm) (V : Nat)
    (hV : V < g.VIRTUAL_MEMORY_SIZE) (x : Int) :
    (VMwrite g s V x).1 = 1 ∧ Inv g (VMwrite g s V x).2 (Function.update vm V x) := by
  obtain ⟨h1, h2⟩ := translate_spec g hg hNF s vm hI V hV
  obtain ⟨e1, e2, _⟩ := page_split g V
  obtain ⟨hf0, hf⟩ := h1.range _ _ _ h2
  unfold VMwrite
  rw [if_neg (by omega)]
  refine ⟨rfl, ?_⟩
  simp only
  rw [toU64_frame_addr g hg _ _ hf0 hf e2]
  generalize translate g s V = r at h1 h2 hf0 hf
  have hmemeq : (PMwrite r.2 (r.1.toNat * g.PAGE_SIZE + (V &&& (g.PAGE_SIZE - 1))) x).mem
      = Function.update r.2.mem (r.1.toNat * g.PAGE_SIZE + (V &&& (g.PAGE_SIZE - 1))) x := rfl
  have hT := Tree_frame_local g hg r.2
    (PMwrite r.2 (r.1.toNat * g.PAGE_SIZE + (V &&& (g.PAGE_SIZE - 1))) x) r.1 h1.range hf0 hf
    (fun d q h => (h1.unique _ _ _ _ _ h h2).1)
    (by
      intro a ha
      rw [hmemeq, Function.update_apply, if_neg]
      rintro rfl
      exact ha ⟨by omega, by omega⟩)
  refine ⟨?_, ?_, ?_, ?_, ?_⟩
  · intro d q f h
    exact h1.range _ _ _ ((hT _ _ _).mp h)
  · intro d q f d2 q2 h h3
    exact h1.unique _ _ _ _ _ ((hT _ _ _).mp h) ((hT _ _ _).mp h3)
  · intro d q f y h hy0 hy
    obtain ⟨d3, q3, h3⟩ := h1.closed _ _ _ y ((hT _ _ _).mp h) hy0 hy
    exact ⟨d3, q3, (hT _ _ _).mpr h3⟩
  · intro q f h o ho
    have h3 := (hT _ _ _).mp h
    obtain ⟨hf20, hf2⟩ := h1.range _ _ _ h3
    rw [hmemeq, Function.update_apply, Function.update_apply]
    by_cases hfe : f = r.1
    · subst hfe
      have hq := (h1.unique _ _ _ _ _ h3 h2).2
      subst hq
      by_cases ho2 : o = V &&& (g.PAGE_SIZE - 1)
      · subst ho2
        rw [if_pos rfl, if_pos e1]
      · rw [if_neg (by omega), if_neg (by omega)]
        exact h1.resident _ _ h3 o ho
    · have hq : q ≠ V >>> g.OFFSET_WIDTH := by
        rintro rfl
        exact hfe (Tree.frame_unique h3 h2)
      have hne1 : f.toNat * g.PAGE_SIZE + o
          ≠ r.1.toNat * g.PAGE_SIZE + (V &&& (g.PAGE_SIZE - 1)) := by
        intro heq
        have := (digits_inj g _ _ _ _ ho e2 heq).1
        omega
      have hne2 : q * g.PAGE_SIZE + o ≠ V := by
        intro heq
        rw [← e1] at heq
        exact hq (digits_inj g _ _ _ _ ho e2 heq).1
      rw [if_neg hne1, if_neg hne2]
      exact h1.resident _ _ h3 o ho
  · intro q hq hnr o ho
    have hq2 : q ≠ V >>> g.OFFSET_WIDTH := by
      rintro rfl
      exact hnr _ ((hT _ _ _).mpr h2)
    have hne2 : q * g.PAGE_SIZE + o ≠ V := by
      intro heq
      rw [← e1] at heq
      exact hq2 (digits_inj g _ _ _ _ ho e2 heq).1
    rw [Function.update_apply, if_neg hne2]
    exact h1.swapped q hq (fun f h => hnr f ((hT _ _ _).mpr h)) o ho

/-- Every sequence of in-range calls keeps the invariant, for the virtual memory that the
calls produce. -/
theorem run_inv (g : Geometry) (hg : g.Fits) (hNF : g.TABLES_DEPTH + 1 ≤ g.NUM_FRAMES)
    (cs : List Call) (hcs : ∀ c ∈ cs, c.addr < g.VIRTUAL_MEMORY_SIZE)
    (s : State) (vm : Nat → Int) (hI : Inv g s vm) :
    Inv g (run g s cs) (vmAfter vm cs) := by
  induction cs generalizing s vm with
  | nil => exact hI
  | cons c cs ih =>
    simp only [run, vmAfter, List.foldl_cons]
    have hc := hcs c (List.mem_cons_self _ _)
    have hrest : ∀ c2 ∈ cs, c2.addr < g.VIRTUAL_MEMORY_SIZE :=
      fun c2 h => hcs c2 (List.mem_cons_of_mem _ h)
    cases c with
    | read V => exact ih hrest _ _ (VMread_spec g hg hNF s vm hI V hc 0).2.2
    | write V x => exact ih hrest _ _ (VMwrite_spec g hg hNF s vm hI V hc x).2

theorem vmAfter_lastWrite_aux (cs : List Call) (V : Nat) (vm0 vm : Nat → Int)
    (r : Option Int) (h : vm V = r.getD (vm0 V)) :
    vmAfter vm cs V
      = (cs.foldl (fun r c =>
          match c with
          | Call.read _ => r
          | Call.write W x => if W = V then some x else r) r).getD (vm0 V) := by
  induction cs generalizing vm r with
  | nil => exact h
  | cons c cs ih =>
    simp only [vmAfter, List.foldl_cons]
    cases c with
    | read W => exact ih _ _ h
    | write W x =>
      apply ih
      by_cases hW : W = V
      · subst hW
        simp
      · simp only [hW, if_false]
        rw [Function.update_apply, if_neg (fun e => hW e.symm)]
        exact h

/-- The virtual memory after a sequence of calls holds, at each address, the value of the
most recent write to it, or the initial word when there is none. -/
theorem vmAfter_lastWrite (cs : List Call) (V : Nat) (vm : Nat → Int) :
    vmAfter vm cs V = (lastWrite cs V).getD (vm V) :=
  vmAfter_lastWrite_aux cs V vm vm none rfl

theorem lastWrite_addr_aux (cs : List Call) (V : Nat) (B : Nat)
    (hcs : ∀ c ∈ cs, c.addr < B) (r : Option Int) (hr : r.isSome → V < B) :
    (cs.foldl (fun r c =>
        match c with
        | Call.read _ => r
        | Call.write W x => if W = V then some x else r) r).isSome → V < B := by
  induction cs generalizing r with
  | nil => exact hr
  | cons c cs ih =>
    simp only [List.foldl_cons]
    have hrest : ∀ c2 ∈ cs, c2.addr < B := fun c2 h => hcs c2 (List.mem_cons_of_mem _ h)
    have hc := hcs c (List.mem_cons_self _ _)
    cases c with
    | read W => exact ih hrest _ hr
    | write W x =>
      apply ih hrest
      by_cases hW : W = V
      · subst hW
        intro _
        exact hc
      · simp only [hW, if_false]
        exact hr

/-- An address that was written by an in-range call is in range. -/
theorem lastWrite_addr (cs : List Call) (V : Nat) (B : Nat) (hcs : ∀ c ∈ cs, c.addr < B)
    (x : Int) (h : lastWrite cs V = some x) : V < B := by
  apply lastWrite_addr_aux cs V B hcs none (by simp)
  unfold lastWrite at h
  rw [h]
  rfl

/-- The first iterations of the loop of `translate` keep the invariant. -/
theorem translatePartial_inv (g : Geometry) (hg : g.Fits)
    (hNF : g.TABLES_DEPTH + 1 ≤ g.NUM_FRAMES) (vm : Nat → Int)
    (V : Nat) (hV : V < g.VIRTUAL_MEMORY_SIZE) (k i : Nat) (hi : i ≤ g.TABLES_DEPTH)
    (s : State) (hI : Inv g s vm) (cur : Int)
    (hcur : Tree g s (g.TABLES_DEPTH - i) ((V >>> g.OFFSET_WIDTH) / g.PAGE_SIZE ^ i) cur) :
    Inv g (translatePartial g V (split_virtual_address g V (g.TABLES_DEPTH + 1))
      k i cur s).2 vm := by
  induction k generalizing i s cur with
  | zero => simp only [translatePartial]; exact hI
  | succ k ih =>
    cases i with
    | zero => simp only [translatePartial]; exact hI
    | succ i =>
      simp only [translatePartial]
      obtain ⟨h1, h2⟩ := translateStep_spec g hg hNF s vm hI V hV (i + 1) (by omega) hi cur hcur
      simp only [Nat.add_sub_cancel] at h2
      exact ih i (by omega) _ h1 _ h2

/-- Every reachable state satisfies the invariant for some virtual memory. -/
theorem reachable_inv (g : Geometry) (hg : g.Fits) (hTD : 1 ≤ g.TABLES_DEPTH)
    (hNF : g.TABLES_DEPTH + 1 ≤ g.NUM_FRAMES) (s : State) (h : ReachableState g s) :
    ∃ vm, Inv g s vm := by
  induction h with
  | init s0 => exact ⟨_, VMinitialize_inv g hg hTD (by omega) s0⟩
  | read V v _ hV ih =>
    obtain ⟨vm, hI⟩ := ih
    exact ⟨vm, (VMread_spec g hg hNF _ vm hI V hV v).2.2⟩
  | write V x _ hV ih =>
    obtain ⟨vm, hI⟩ := ih
    exact ⟨_, (VMwrite_spec g hg hNF _ vm hI V hV x).2⟩
  | translating V k _ hV ih =>
    obtain ⟨vm, hI⟩ := ih
    refine ⟨vm, translatePartial_inv g hg hNF vm V hV k _ le_rfl _ hI 0 ?_⟩
    obtain ⟨_, hlt⟩ := pageSwappedInOf_eq g hg V hV
    rw [NUM_PAGES_eq_pow] at hlt
    rw [Nat.sub_self, Nat.div_eq_of_lt hlt]
    exact Tree.root

/-- The state after a sequence of in-range calls is reachable. -/
theorem run_reachable (g : Geometry) (cs : List Call)
    (hcs : ∀ c ∈ cs, c.addr < g.VIRTUAL_MEMORY_SIZE) (s : State) (h : ReachableState g s) :
    ReachableState g (run g s cs) := by
  induction cs generalizing s with
  | nil => exact h
  | cons c cs ih =>
    simp only [run, List.foldl_cons]
    have hc := hcs c (List.mem_cons_self _ _)
    have hrest : ∀ c2 ∈ cs, c2.addr < g.VIRTUAL_MEMORY_SIZE :=
      fun c2 h => hcs c2 (List.mem_cons_of_mem _ h)
    cases c with
    | read V => exact ih hrest _ (ReachableState.read V 0 h hc)
    | write V x => exact ih hrest _ (ReachableState.write V x h hc)

theorem lastWrite_none_aux (cs : List Call) (V : Nat)
    (h : ∀ x, Call.write V x ∉ cs) :
    cs.foldl (fun r c =>
        match c with
        | Call.read _ => r
        | Call.write W x => if W = V then some x else r) (none : Option Int) = none := by
  induction cs with
  | nil => rfl
  | cons c cs ih =>
    simp only [List.foldl_cons]
    have hrest : ∀ x, Call.write V x ∉ cs :=
      fun x hx => h x (List.mem_cons_of_mem _ hx)
    cases c with
    | read W => exact ih hrest
    | write W x =>
      have hW : W ≠ V := by
        rintro rfl
        exact h x (List.mem_cons_self _ _)
      simp only [hW, if_false]
      exact ih hrest

/-- An address that no call of the sequence writes has no most recent write. -/
theorem lastWrite_none (cs : List Call) (V : Nat) (h : ∀ x, Call.write V x ∉ cs) :
    lastWrite cs V = none := lastWrite_none_aux cs V h

/-! ### Page hits, the root frame and the order of the backend operations -/

/-- When the walk along the path of the address meets no zero link, the loop of
`translate` returns the frame at the end of the walk and leaves the state as it is. -/
theorem translateLoop_of_walk (g : Geometry) (s : State) (V : Nat) (offsets_arr : List Nat)
    (f : Int) (i : Nat) (cur : Int) (h : walk g s offsets_arr i cur = some f) :
    translateLoop g V offsets_arr i cur s = (f, s) := by
  induction i generalizing cur with
  | zero =>
    simp only [walk, Option.some.injEq] at h
    simp only [translateLoop, h]
  | succ i ih =>
    simp only [walk] at h
    simp only [translateLoop, translateStep]
    by_cases hz : PMread s (toU64 (cur * (g.PAGE_SIZE : Int)
        + ((offsets_arr.getD (i + 1) 0 : Nat) : Int))) = 0
    · rw [if_pos hz] at h
      exact absurd h (by simp)
    · rw [if_neg hz] at h
      rw [if_neg hz]
      exact ih _ h

theorem leafUpdate_maxFrame (g : Geometry) (π : Nat) (f par : Int) (pp : Nat) (v : DFSVars) :
    (leafUpdate g π f par pp v).maxFrame = v.maxFrame := by
  unfold leafUpdate
  split_ifs <;> rfl

theorem visit_maxFrame_nonneg (g : Geometry) (s : State) (π : Nat) (fe : Int) (v : DFSVars)
    (n : Node) (hv : 0 ≤ v.maxFrame) : 0 ≤ (visit g s π fe v n).maxFrame := by
  unfold visit
  by_cases h1 : v.emptyFrame ≠ 0
  · rw [if_pos h1]; exact hv
  · rw [if_neg h1]
    simp only
    by_cases h2 : n.depth = g.TABLES_DEPTH
    · rw [if_pos h2, leafUpdate_maxFrame]
      simp only
      split_ifs <;> omega
    · rw [if_neg h2]
      by_cases h3 : EmptyTable g s n.frame ∧ fe ≠ n.frame
      · rw [if_pos h3]
        simp only
        split_ifs <;> omega
      · rw [if_neg h3]
        simp only
        split_ifs <;> omega

theorem foldl_visit_maxFrame_nonneg (g : Geometry) (s : State) (π : Nat) (fe : Int)
    (l : List Node) (v : DFSVars) (hv : 0 ≤ v.maxFrame) :
    0 ≤ (l.foldl (visit g s π fe) v).maxFrame := by
  induction l generalizing v with
  | nil => exact hv
  | cons n l ih =>
    simp only [List.foldl_cons]
    exact ih _ (visit_maxFrame_nonneg g s π fe v n hv)

theorem dfsResult_maxFrame_nonneg (g : Geometry) (s : State) (V : Nat) (fe : Int) :
    0 ≤ (dfsResult g s V fe).maxFrame := by
  unfold dfsResult
  rw [DFS_root_eq_foldl]
  exact foldl_visit_maxFrame_nonneg g s _ fe _ _ le_rfl

/-- The allocator never returns frame 0. -/
theorem findFrame_ne_zero (g : Geometry) (s : State) (V : Nat) (fe : Int) :
    (findFrame g s V fe).1 ≠ 0 := by
  rw [findFrame_eq]
  have := dfsResult_maxFrame_nonneg g s V fe
  split_ifs with h1 h2 h3
  · exact h1
  · simp only; omega
  · exact h3
  · simp

/-- The backend operations of the allocator: none, the write that unlinks an empty table,
or the eviction of the frame returned followed by the write that unlinks it. -/
theorem findFrame_ops (g : Geometry) (s : State) (V : Nat) (fe : Int) :
    findFrame g s V fe = ((findFrame g s V fe).1, s) ∨
    (∃ a, findFrame g s V fe = ((findFrame g s V fe).1, PMwrite s a 0)) ∨
    (∃ p a, findFrame g s V fe = ((findFrame g s V fe).1,
      PMwrite (PMevict g s (toU64 (findFrame g s V fe).1) p) a 0)) := by
  rw [findFrame_eq]
  split_ifs with h1 h2 h3
  · exact Or.inr (Or.inl ⟨_, rfl⟩)
  · exact Or.inl rfl
  · exact Or.inr (Or.inr ⟨_, _, rfl⟩)
  · exact Or.inl rfl

/-- Every frame of the traversal is the start frame or a word of the physical memory. -/
theorem nodesFrom_frame_mem (g : Geometry) (s : State) (rem : Nat) (f par : Int)
    (sl pp : Nat) :
    ∀ n ∈ nodesFrom g s rem f par sl pp, n.frame = f ∨ ∃ a, n.frame = s.mem a := by
  induction rem generalizing f par sl pp with
  | zero =>
    intro n hn
    simp only [nodesFrom, List.mem_singleton] at hn
    subst hn
    exact Or.inl rfl
  | succ rem ih =>
    intro n hn
    rcases (mem_nodesFrom_succ g s rem f par sl pp n).mp hn with rfl | ⟨i, _, _, hn⟩
    · exact Or.inl rfl
    · rcases ih _ _ _ _ n hn with h | h
      · exact Or.inr ⟨_, h⟩
      · exact Or.inr h

theorem toU64_ne_zero_of_word (x : Int) (h0 : x ≠ 0) (hlo : -(2 ^ 31) ≤ x) (hhi : x < 2 ^ 31) :
    toU64 x ≠ 0 := by
  unfold toU64
  have h1 : (2 : Int) ^ 31 = 2147483648 := by norm_num
  have h2 : (2 : Int) ^ 64 = 18446744073709551616 := by norm_num
  rw [h1] at hlo hhi
  rw [h2]
  omega

theorem zeroWrites_log (s : State) (A : Nat → Nat) (n : Nat) :
    ((List.range n).foldl (fun st (i : Nat) => PMwrite st (A i) 0) s).log
      = s.log ++ (List.range n).map (fun i => BackendOp.write (A i) 0) := by
  induction n with
  | zero => simp
  | succ n ih =>
    rw [List.range_succ, List.foldl_append, List.map_append]
    simp only [List.foldl_cons, List.foldl_nil, List.map_cons, List.map_nil]
    show _ ++ [BackendOp.write (A n) 0] = _
    rw [ih, List.append_assoc]

theorem zeroWrites_mem (s : State) (A : Nat → Nat) (n : Nat) :
    ∀ k, k < n → ((List.range n).foldl (fun st (i : Nat) => PMwrite st (A i) 0) s).mem (A k)
      = 0 := by
  induction n with
  | zero => intro k hk; omega
  | succ n ih =>
    intro k hk
    rw [List.range_succ, List.foldl_append]
    simp only [List.foldl_cons, List.foldl_nil]
    show Function.update _ (A n) 0 (A k) = 0
    rw [Function.update_apply]
    by_cases h : A k = A n
    · rw [if_pos h]
    · rw [if_neg h]
      apply ih
      by_contra hk2
      have : k = n := by omega
      exact h (by rw [this])

/-- The backend operations of `fillWithZeros`: the `PAGE_SIZE` writes of 0 to the words of
the frame, in ascending order. -/
theorem fillWithZeros_log (g : Geometry) (s : State) (f : Int) :
    (fillWithZeros g s f).log
      = s.log ++ (List.range g.PAGE_SIZE).map
          (fun (k : Nat) => BackendOp.write (toU64 (f * (g.PAGE_SIZE : Int) + (k : Int))) 0) :=
  zeroWrites_log s (fun k => toU64 (f * (g.PAGE_SIZE : Int) + (k : Int))) g.PAGE_SIZE

/-- After `fillWithZeros` every word that it addressed is zero. -/
theorem fillWithZeros_zero (g : Geometry) (s : State) (f : Int) (k : Nat)
    (hk : k < g.PAGE_SIZE) :
    (fillWithZeros g s f).mem (toU64 (f * (g.PAGE_SIZE : Int) + (k : Int))) = 0 :=
  zeroWrites_mem s (fun k => toU64 (f * (g.PAGE_SIZE : Int) + (k : Int))) g.PAGE_SIZE k hk

/-- The log of the allocator extends the log of the state by its operations. -/
theorem findFrame_log (g : Geometry) (s : State) (V : Nat) (fe : Int) :
    ∃ ops, (findFrame g s V fe).2.log = s.log ++ ops ∧
      (ops = [] ∨ (∃ a, ops = [BackendOp.write a 0]) ∨
        ∃ p a, ops = [BackendOp.evict (toU64 (findFrame g s V fe).1) p, BackendOp.write a 0]) := by
  rcases findFrame_ops g s V fe with h | ⟨a, h⟩ | ⟨p, a, h⟩
  · refine ⟨[], ?_, Or.inl rfl⟩
    rw [h]; simp
  · refine ⟨[BackendOp.write a 0], ?_, Or.inr (Or.inl ⟨a, rfl⟩)⟩
    rw [h]; rfl
  · refine ⟨[BackendOp.evict (toU64 (findFrame g s V fe).1) p, BackendOp.write a 0], ?_,
      Or.inr (Or.inr ⟨p, a, rfl⟩)⟩
    rw [h]
    simp only [PMwrite, PMevict, List.append_assoc, List.singleton_append]

/-- The state after an iteration of the loop of `translate` that finds a zero link. -/
theorem translateStep_miss (g : Geometry) (s : State) (V : Nat) (offsets_arr : List Nat)
    (i : Nat) (cur : Int)
    (hmiss : PMread s (toU64 (cur * (g.PAGE_SIZE : Int)
      + ((offsets_arr.getD i 0 : Nat) : Int))) = 0) :
    translateStep g V offsets_arr i cur s
      = ((findFrame g s V cur).1,
          if i = 1 then
            PMrestore g
              (PMwrite (if i > 1 then fillWithZeros g (findFrame g s V cur).2
                  (findFrame g s V cur).1 else (findFrame g s V cur).2)
                (toU64 (cur * (g.PAGE_SIZE : Int) + ((offsets_arr.getD i 0 : Nat) : Int)))
                (findFrame g s V cur).1)
              (toU64 (findFrame g s V cur).1) (V >>> g.OFFSET_WIDTH)
          else
            PMwrite (if i > 1 then fillWithZeros g (findFrame g s V cur).2
                (findFrame g s V cur).1 else (findFrame g s V cur).2)
              (toU64 (cur * (g.PAGE_SIZE : Int) + ((offsets_arr.getD i 0 : Nat) : Int)))
              (findFrame g s V cur).1) := by
  simp only [translateStep]
  rw [if_pos hmiss]

/-- The state after an iteration of the loop of `translate` that finds a nonzero link. -/
theorem translateStep_hit (g : Geometry) (s : State) (V : Nat) (offsets_arr : List Nat)
    (i : Nat) (cur : Int)
    (hhit : PMread s (toU64 (cur * (g.PAGE_SIZE : Int)
      + ((offsets_arr.getD i 0 : Nat) : Int))) ≠ 0) :
    translateStep g V offsets_arr i cur s
      = (PMread s (toU64 (cur * (g.PAGE_SIZE : Int)
          + ((offsets_arr.getD i 0 : Nat) : Int))), s) := by
  simp only [translateStep]
  rw [if_neg hhit]

theorem DFSfuel_loop (g : Geometry) (s : State) (π : Nat) (fe : Int) (fuel rem : Nat)
    (f : Int) (pp d : Nat)
    (ih : ∀ (c par : Int) (pq : Nat) (v : DFSVars),
      DFSfuel g s π fe fuel c par (d + 1) pq v = some (DFS g s π fe rem c par pq v))
    (l : List Nat) (st : DFSVars × Nat) :
    l.foldl (fun (st : Option (DFSVars × Nat)) (i : Nat) =>
        match st with
        | none => none
        | some st =>
          if PMread s (slotAddr g f i) ≠ 0 then
            match DFSfuel g s π fe fuel (PMread s (slotAddr g f i)) f (d + 1)
                (childPath g pp i d) st.1 with
            | none => none
            | some v2 => some (v2, st.2)
          else some (st.1, st.2 + 1)) (some st)
      = some (l.foldl (fun (st : DFSVars × Nat) (i : Nat) =>
          if PMread s (slotAddr g f i) ≠ 0 then
            (DFS g s π fe rem (PMread s (slotAddr g f i)) f (childPath g pp i d) st.1, st.2)
          else (st.1, st.2 + 1)) st) := by
  induction l generalizing st with
  | nil => rfl
  | cons i l ihl =>
    rw [List.foldl_cons, List.foldl_cons]
    by_cases hz : PMread s (slotAddr g f i) ≠ 0
    · rw [if_pos hz]
      simp only
      rw [if_pos hz, ih (PMread s (slotAddr g f i)) f (childPath g pp i d) st.1]
      exact ihl _
    · rw [if_neg hz]
      simp only
      rw [if_neg hz]
      exact ihl _

/-- The traversal terminates: with a bound on the nesting of the calls larger than
`TABLES_DEPTH - curDepth` the function `DFS` of the source returns, and its result is the
one of the recursion on `TABLES_DEPTH - curDepth`, whatever the physical memory holds. -/
theorem DFSfuel_eq (g : Geometry) (s : State) (π : Nat) (fe : Int) (fuel : Nat) :
    ∀ (curDepth : Nat) (f par : Int) (pp : Nat) (v : DFSVars),
      curDepth ≤ g.TABLES_DEPTH → g.TABLES_DEPTH - curDepth < fuel →
      DFSfuel g s π fe fuel f par curDepth pp v
        = some (DFS g s π fe (g.TABLES_DEPTH - curDepth) f par pp v) := by
  induction fuel with
  | zero => intro _ _ _ _ _ _ h; omega
  | succ fuel ih =>
    intro curDepth f par pp v hle hfuel
    by_cases hd : curDepth = g.TABLES_DEPTH
    · subst hd
      simp only [Nat.sub_self, DFSfuel, DFS, if_true]
      split_ifs <;> rfl
    · obtain ⟨rem, hrem⟩ : ∃ rem, g.TABLES_DEPTH - curDepth = rem + 1 :=
        ⟨g.TABLES_DEPTH - curDepth - 1, by omega⟩
      have e : g.TABLES_DEPTH - (rem + 1) = curDepth := by omega
      have ih2 : ∀ (c par : Int) (pq : Nat) (v : DFSVars),
          DFSfuel g s π fe fuel c par (curDepth + 1) pq v
            = some (DFS g s π fe rem c par pq v) := by
        intro c par pq v
        have := ih (curDepth + 1) c par pq v (by omega) (by omega)
        have e2 : g.TABLES_DEPTH - (curDepth + 1) = rem := by omega
        rw [e2] at this
        exact this
      rw [hrem]
      by_cases hv : v.emptyFrame ≠ 0
      · simp only [DFSfuel, DFS, hv, if_true, not_false_eq_true, ne_eq]
      · simp only [DFSfuel, DFS, hd, if_false, e, hv]
        rw [DFSfuel_loop g s π fe fuel rem f pp curDepth ih2]
        simp only
        by_cases hR : ((List.range g.PAGE_SIZE).foldl
            (fun (st : DFSVars × Nat) (i : Nat) =>
              if PMread s (slotAddr g f i) ≠ 0 then
                (DFS g s π fe rem (PMread s (slotAddr g f i)) f (childPath g pp i curDepth) st.1,
                  st.2)
              else (st.1, st.2 + 1))
            ({ v with maxFrame := if f ≥ v.maxFrame then f else v.maxFrame }, 0)).2
              = g.PAGE_SIZE ∧ fe ≠ f
        · rw [if_pos hR, if_pos hR]
        · rw [if_neg hR, if_neg hR]

/-- The first `k` iterations of the loop of `translate` keep the invariant and end at the
frame of depth `k` on the path of the address. -/
theorem translatePartial_spec (g : Geometry) (hg : g.Fits)
    (hNF : g.TABLES_DEPTH + 1 ≤ g.NUM_FRAMES) (vm : Nat → Int)
    (V : Nat) (hV : V < g.VIRTUAL_MEMORY_SIZE) (k i : Nat) (hk : k ≤ i)
    (hi : i ≤ g.TABLES_DEPTH) (s : State) (hI : Inv g s vm) (cur : Int)
    (hcur : Tree g s (g.TABLES_DEPTH - i) ((V >>> g.OFFSET_WIDTH) / g.PAGE_SIZE ^ i) cur) :
    Inv g (translatePartial g V (split_virtual_address g V (g.TABLES_DEPTH + 1))
      k i cur s).2 vm ∧
    Tree g (translatePartial g V (split_virtual_address g V (g.TABLES_DEPTH + 1)) k i cur s).2
      (g.TABLES_DEPTH - (i - k)) ((V >>> g.OFFSET_WIDTH) / g.PAGE_SIZE ^ (i - k))
      (translatePartial g V (split_virtual_address g V (g.TABLES_DEPTH + 1)) k i cur s).1 := by
  induction k generalizing i s cur with
  | zero =>
    simp only [translatePartial, Nat.sub_zero]
    exact ⟨hI, hcur⟩
  | succ k ih =>
    obtain ⟨j, rfl⟩ : ∃ j, i = j + 1 := ⟨i - 1, by omega⟩
    simp only [translatePartial]
    obtain ⟨h1, h2⟩ := translateStep_spec g hg hNF s vm hI V hV (j + 1) (by omega) hi cur hcur
    simp only [Nat.add_sub_cancel] at h2
    have := ih j (by omega) (by omega) _ h1 _ h2
    have e : j + 1 - (k + 1) = j - k := by omega
    rw [e]
    exact this

/-- The iteration that follows the first `k` iterations of the loop of `translate` is the
body of the loop at the value `i - k` of the counter. -/
theorem translatePartial_succ (g : Geometry) (V : Nat) (offsets_arr : List Nat) (k i : Nat)
    (hk : k < i) (cur : Int) (s : State) :
    translatePartial g V offsets_arr (k + 1) i cur s
      = translateStep g V offsets_arr (i - k)
          (translatePartial g V offsets_arr k i cur s).1
          (translatePartial g V offsets_arr k i cur s).2 := by
  induction k generalizing i cur s with
  | zero =>
    obtain ⟨j, rfl⟩ : ∃ j, i = j + 1 := ⟨i - 1, by omega⟩
    simp only [translatePartial, Nat.sub_zero]
  | succ k ih =>
    obtain ⟨j, rfl⟩ : ∃ j, i = j + 1 := ⟨i - 1, by omega⟩
    have e : j + 1 - (k + 1) = j - k := by omega
    rw [e]
    show translatePartial g V offsets_arr (k + 1) j _ _ = _
    rw [ih j (by omega)]
    rfl

/-- An eviction candidate recorded by the traversal has a positive distance. -/
theorem dfsResult_victim_pos (g : Geometry) (s : State) (V : Nat) (fe : Int)
    (hempty : (dfsResult g s V fe).emptyFrame = 0)
    (hvict : (dfsResult g s V fe).maxDistFrame ≠ 0) : 0 < (dfsResult g s V fe).maxDist := by
  rcases dfsResult_cases g s V fe with ⟨_, _, _, hs⟩ | ⟨_, n, _, _, _, hc, he, _⟩
  · rcases victimOf_spec g (pageSwappedInOf g V) (leaves g s) DFSVars.init with ⟨h, _⟩ | h
    · rw [h] at hs
      exact absurd hs.2.1 hvict
    · obtain ⟨_, n, _, _, a1, _, _, _, a5, _⟩ := h
      rw [hs.1, a1]
      omega
  · rw [hempty] at he
    exact absurd he.symm hc.2.2.2

/-! ### The page path of a descent -/

/-- At a leaf the low `OFFSET_WIDTH` bits of the page path are the slot of the leaf in its
parent. -/
theorem leaf_low_bits (g : Geometry) (hg : g.Fits) (s : State) (n : Node)
    (hn : n ∈ nodes g s) (hd : n.depth = g.TABLES_DEPTH) :
    n.pagePath &&& (g.PAGE_SIZE - 1) = n.slot := by
  obtain ⟨q, _, hq, _, h⟩ := nodes_ok g hg s n hn
  rw [hd, Nat.sub_self, pow_zero, Nat.mul_one] at hq
  rcases h with ⟨_, _, _, h4, h5⟩ | ⟨_, _, h3, _, qp, _, h6⟩
  · rw [hq, h5, h4]
    simp
  · have := emptyFrameOffset_eq g qp n.slot 0 h3
    simpa [hq, h6] using this

/-- A walk that reaches a frame meets a nonzero link first. -/
theorem walk_succ_ne_zero (g : Geometry) (s : State) (offsets_arr : List Nat) (f : Int)
    (i : Nat) (cur : Int) (h : walk g s offsets_arr (i + 1) cur = some f) :
    PMread s (toU64 (cur * (g.PAGE_SIZE : Int)
      + ((offsets_arr.getD (i + 1) 0 : Nat) : Int))) ≠ 0 ∧
    walk g s offsets_arr i (PMread s (toU64 (cur * (g.PAGE_SIZE : Int)
      + ((offsets_arr.getD (i + 1) 0 : Nat) : Int)))) = some f := by
  simp only [walk] at h
  by_cases hz : PMread s (toU64 (cur * (g.PAGE_SIZE : Int)
      + ((offsets_arr.getD (i + 1) 0 : Nat) : Int))) = 0
  · rw [if_pos hz] at h
    cases h
  · rw [if_neg hz] at h
    exact ⟨hz, h⟩

/-- Along a walk that reaches a frame, the first `k` iterations of the loop of `translate`
leave the state as it is and the rest of the walk reaches the same frame. -/
theorem translatePartial_of_walk (g : Geometry) (s : State) (V : Nat) (offsets_arr : List Nat)
    (f : Int) (k i : Nat) (hk : k ≤ i) (cur : Int)
    (h : walk g s offsets_arr i cur = some f) :
    (translatePartial g V offsets_arr k i cur s).2 = s ∧
    walk g s offsets_arr (i - k) (translatePartial g V offsets_arr k i cur s).1 = some f := by
  induction k generalizing i cur with
  | zero =>
    simp only [translatePartial, Nat.sub_zero]
    exact ⟨trivial, h⟩
  | succ k ih =>
    obtain ⟨j, rfl⟩ : ∃ j, i = j + 1 := ⟨i - 1, by omega⟩
    obtain ⟨hz, hw⟩ := walk_succ_ne_zero g s offsets_arr f j cur h
    have e : j + 1 - (k + 1) = j - k := by omega
    simp only [translatePartial]
    rw [translateStep_hit g s V offsets_arr (j + 1) cur hz, e]
    exact ih j (by omega) _ hw

/-- With memory words in the range of `word_t`, an eviction by `findFrame` is of the frame
it returns, and that frame is not frame 0. -/
theorem findFrame_evict_log (g : Geometry) (s : State) (V : Nat) (fe : Int) :
    ∃ ops, (findFrame g s V fe).2.log = s.log ++ ops ∧
      ∀ fr p, BackendOp.evict fr p ∈ ops →
        fr = toU64 (findFrame g s V fe).1 ∧
        ((∀ a, -(2 ^ 31) ≤ s.mem a ∧ s.mem a < 2 ^ 31) → fr ≠ 0) := by
  obtain ⟨ops, hlog, hops⟩ := findFrame_log g s V fe
  refine ⟨ops, hlog, ?_⟩
  intro fr p hmem
  rcases hops with h | ⟨a, h⟩ | ⟨p2, a, h⟩
  · rw [h] at hmem
    cases hmem
  · rw [h] at hmem
    simp at hmem
  · rw [h] at hmem
    simp only [List.mem_cons, BackendOp.evict.injEq, List.mem_singleton, reduceCtorEq,
      or_false, List.mem_nil_iff] at hmem
    refine ⟨hmem.1, ?_⟩
    intro hw
    rw [hmem.1]
    have hne := findFrame_ne_zero g s V fe
    -- the frame returned is the frame of a leaf of the traversal
    by_cases h1 : (dfsResult g s V fe).emptyFrame ≠ 0
    · rw [findFrame_eq, if_pos h1] at hlog
      rw [h] at hlog
      simp [PMwrite] at hlog
    · by_cases h2 : (dfsResult g s V fe).maxFrame + 1 < (g.NUM_FRAMES : Int)
      · rw [findFrame_eq, if_neg h1, if_pos h2] at hlog
        rw [h] at hlog
        simp at hlog
      · by_cases h3 : (dfsResult g s V fe).maxDistFrame ≠ 0
        · obtain ⟨l1, n, l2, e, hf, _⟩ :=
            findFrame_case3 g s V fe (not_not.mp h1) h2 h3
          have hn : n ∈ nodes g s := by
            have : n ∈ leaves g s := by rw [e]; simp
            exact (List.mem_filter.mp this).1
          rw [hf] at hne ⊢
          simp only at hne ⊢
          rcases nodesFrom_frame_mem g s g.TABLES_DEPTH 0 0 0 0 n hn with h0 | ⟨a, ha⟩
          · exact absurd h0 hne
          · rw [ha] at hne ⊢
            exact toU64_ne_zero_of_word _ hne (hw a).1 (hw a).2
        · rw [findFrame_eq, if_neg h1, if_neg h2, if_neg h3] at hlog
          rw [h] at hlog
          simp at hlog

/-- The state in which the loop of `translate` calls `findFrame`: after `k` iterations from
a state that satisfies the invariant, with a zero link at the current frame, the invariant
holds, the current frame is the frame of depth `k` on the path of the page, and the page is
not resident. -/
theorem call_site_spec (g : Geometry) (hg : g.Fits)
    (hNF : g.TABLES_DEPTH + 1 ≤ g.NUM_FRAMES) (s : State) (vm : Nat → Int) (hI : Inv g s vm)
    (V : Nat) (hV : V < g.VIRTUAL_MEMORY_SIZE) (k : Nat) (hk : k < g.TABLES_DEPTH)
    (hmiss : PMread
      (translatePartial g V (split_virtual_address g V (g.TABLES_DEPTH + 1)) k
        g.TABLES_DEPTH 0 s).2
      (toU64 ((translatePartial g V (split_virtual_address g V (g.TABLES_DEPTH + 1)) k
          g.TABLES_DEPTH 0 s).1 * (g.PAGE_SIZE : Int)
        + (((split_virtual_address g V (g.TABLES_DEPTH + 1)).getD
            (g.TABLES_DEPTH - k) 0 : Nat) : Int))) = 0) :
    Inv g (translatePartial g V (split_virtual_address g V (g.TABLES_DEPTH + 1)) k
      g.TABLES_DEPTH 0 s).2 vm ∧
    Tree g (translatePartial g V (split_virtual_address g V (g.TABLES_DEPTH + 1)) k
        g.TABLES_DEPTH 0 s).2 k
      ((V >>> g.OFFSET_WIDTH) / g.PAGE_SIZE ^ (g.TABLES_DEPTH - k))
      (translatePartial g V (split_virtual_address g V (g.TABLES_DEPTH + 1)) k
        g.TABLES_DEPTH 0 s).1 ∧
    ∀ f, ¬ Tree g (translatePartial g V (split_virtual_address g V (g.TABLES_DEPTH + 1)) k
      g.TABLES_DEPTH 0 s).2 g.TABLES_DEPTH (V >>> g.OFFSET_WIDTH) f := by
  have hroot : Tree g s (g.TABLES_DEPTH - g.TABLES_DEPTH)
      ((V >>> g.OFFSET_WIDTH) / g.PAGE_SIZE ^ g.TABLES_DEPTH) 0 := by
    obtain ⟨_, hlt⟩ := pageSwappedInOf_eq g hg V hV
    rw [NUM_PAGES_eq_pow] at hlt
    rw [Nat.sub_self, Nat.div_eq_of_lt hlt]
    exact Tree.root
  obtain ⟨hI2, hcur⟩ := translatePartial_spec g hg hNF vm V hV k g.TABLES_DEPTH (by omega)
    le_rfl s hI 0 hroot
  have e : g.TABLES_DEPTH - (g.TABLES_DEPTH - k) = k := by omega
  refine ⟨hI2, by rw [e] at hcur; exact hcur, ?_⟩
  obtain ⟨hc0, hc1⟩ := hI2.range _ _ _ hcur
  have hoff := offsets_getD g hg (by omega) V (g.TABLES_DEPTH - k) hV (by omega) (by omega)
  have hlt : (split_virtual_address g V (g.TABLES_DEPTH + 1)).getD (g.TABLES_DEPTH - k) 0
      < g.PAGE_SIZE := by
    rw [hoff]
    exact Nat.mod_lt _ (PAGE_SIZE_pos g)
  rw [toU64_frame_addr_eq_slotAddr g hg _ _ hc0 hc1 hlt, hoff] at hmiss
  exact not_resident_of_zero_slot g _ (V >>> g.OFFSET_WIDTH) (g.TABLES_DEPTH - k) _ (by omega)
    (by omega) hcur hmiss

/-! ### The claims -/

/-- C4: `VMread` and `VMwrite` return 0 exactly when the address is at least
`VIRTUAL_MEMORY_SIZE` and 1 otherwise; when they return 0 the state of the backend
(physical memory, swap, operation log) and the output word are unchanged. -/
theorem VMread_VMwrite_bounds (g : Geometry) (s : State) (V : Nat) (v x : Int) :
    ((VMread g s V v).ret = 0 ↔ V ≥ g.VIRTUAL_MEMORY_SIZE) ∧
    ((VMread g s V v).ret = 1 ↔ V < g.VIRTUAL_MEMORY_SIZE) ∧
    ((VMwrite g s V x).1 = 0 ↔ V ≥ g.VIRTUAL_MEMORY_SIZE) ∧
    ((VMwrite g s V x).1 = 1 ↔ V < g.VIRTUAL_MEMORY_SIZE) ∧
    ((VMread g s V v).ret = 0 → (VMread g s V v).state = s ∧ (VMread g s V v).value = v) ∧
    ((VMwrite g s V x).1 = 0 → (VMwrite g s V x).2 = s) := by
  unfold VMread VMwrite
  by_cases h : V ≥ g.VIRTUAL_MEMORY_SIZE
  · simp [h]
  · simp only [h, if_false]
    simp only [ge_iff_le, not_le] at h
    simp [h]

/-- C5: for an address below `VIRTUAL_MEMORY_SIZE` (a `uint64_t`) and an index
`i ≤ TABLES_DEPTH`, `split_virtual_address` with size `TABLES_DEPTH + 1` sets
`arr[i] = (V >> (OFFSET_WIDTH * i)) mod PAGE_SIZE`; every output is below `PAGE_SIZE`,
`arr[0]` is `V mod PAGE_SIZE` and `arr[TABLES_DEPTH]` is the high part
`V >> (OFFSET_WIDTH * TABLES_DEPTH)` of the address. -/
theorem split_virtual_address_spec (g : Geometry) (V i : Nat) (hV64 : V < 2 ^ 64)
    (hV : V < g.VIRTUAL_MEMORY_SIZE) (hi : i ≤ g.TABLES_DEPTH) :
    (split_virtual_address g V (g.TABLES_DEPTH + 1)).length = g.TABLES_DEPTH + 1 ∧
    (split_virtual_address g V (g.TABLES_DEPTH + 1)).getD i 0
      = (V >>> (g.OFFSET_WIDTH * i)) % g.PAGE_SIZE ∧
    (split_virtual_address g V (g.TABLES_DEPTH + 1)).getD i 0 < g.PAGE_SIZE ∧
    (split_virtual_address g V (g.TABLES_DEPTH + 1)).getD 0 0 = V % g.PAGE_SIZE ∧
    (split_virtual_address g V (g.TABLES_DEPTH + 1)).getD g.TABLES_DEPTH 0
      = V >>> (g.OFFSET_WIDTH * g.TABLES_DEPTH) := by
  have hP := PAGE_SIZE_pos g
  refine ⟨split_virtual_address_length g V _, ?_, ?_, ?_, ?_⟩
  · exact split_virtual_address_getD g V _ i hV64 (by omega)
  · rw [split_virtual_address_getD g V _ i hV64 (by omega)]
    exact Nat.mod_lt _ hP
  · rw [split_virtual_address_getD g V _ 0 hV64 (by omega)]
    simp
  · rw [split_virtual_address_getD g V _ _ hV64 (by omega)]
    apply Nat.mod_eq_of_lt
    rw [Nat.shiftRight_eq_div_pow]
    apply Nat.div_lt_of_lt_mul
    unfold Geometry.VIRTUAL_MEMORY_SIZE at hV
    unfold Geometry.PAGE_SIZE
    rw [← pow_add]
    have : g.OFFSET_WIDTH * g.TABLES_DEPTH + g.OFFSET_WIDTH
        = g.OFFSET_WIDTH * (g.TABLES_DEPTH + 1) := by ring
    rw [this]
    exact hV

theorem split_virtual_address_spec_witness :
    (split_virtual_address exampleGeometry 0x1234 (exampleGeometry.TABLES_DEPTH + 1)).length
      = exampleGeometry.TABLES_DEPTH + 1 ∧
    (split_virtual_address exampleGeometry 0x1234 (exampleGeometry.TABLES_DEPTH + 1)).getD 2 0
      = (0x1234 >>> (exampleGeometry.OFFSET_WIDTH * 2)) % exampleGeometry.PAGE_SIZE ∧
    (split_virtual_address exampleGeometry 0x1234 (exampleGeometry.TABLES_DEPTH + 1)).getD 2 0
      < exampleGeometry.PAGE_SIZE ∧
    (split_virtual_address exampleGeometry 0x1234 (exampleGeometry.TABLES_DEPTH + 1)).getD 0 0
      = 0x1234 % exampleGeometry.PAGE_SIZE ∧
    (split_virtual_address exampleGeometry 0x1234
        (exampleGeometry.TABLES_DEPTH + 1)).getD exampleGeometry.TABLES_DEPTH 0
      = 0x1234 >>> (exampleGeometry.OFFSET_WIDTH * exampleGeometry.TABLES_DEPTH) :=
  split_virtual_address_spec exampleGeometry 0x1234 2 (by decide) (by decide) (by decide)

/-- Case 1 has priority, on a geometry that fits a `word_t` (`Geometry.Fits`) and a tree
whose links are valid frame indices. Whenever the tree rooted at frame 0 contains a table frame
(depth below `TABLES_DEPTH`) other than frame 0 and other than `frameEvict` whose slots
are all zero, `findFrame` returns such a frame; the only change to the backend is the
write of 0 into the parent slot that referenced the returned frame (nothing is evicted to
swap), and the result is not the largest reachable frame index plus one. -/
theorem findFrame_empty_table_priority (g : Geometry) (hg : g.Fits) (s : State) (V : Nat)
    (frameEvict : Int)
    (hrange : ∀ n ∈ nodes g s, 0 ≤ n.frame ∧ n.frame < g.NUM_FRAMES)
    (hex : ∃ n ∈ nodes g s, n.depth < g.TABLES_DEPTH ∧ n.frame ≠ 0 ∧ n.frame ≠ frameEvict ∧
      EmptyTable g s n.frame) :
    ∃ m ∈ nodes g s, m.depth < g.TABLES_DEPTH ∧ m.frame ≠ 0 ∧ m.frame ≠ frameEvict ∧
      EmptyTable g s m.frame ∧
      (∃ p ∈ nodes g s, p.frame = m.parent) ∧ m.slot < g.PAGE_SIZE ∧
      PMread s (slotAddr g m.parent m.slot) = m.frame ∧
      (findFrame g s V frameEvict).1 = m.frame ∧
      (findFrame g s V frameEvict).2.mem
        = Function.update s.mem (slotAddr g m.parent m.slot) 0 ∧
      (findFrame g s V frameEvict).2.swap = s.swap ∧
      (findFrame g s V frameEvict).2.log
        = s.log ++ [BackendOp.write (slotAddr g m.parent m.slot) 0] ∧
      (findFrame g s V frameEvict).1 ≠ maxReachable g s + 1 := by
  have hex2 : ∃ n ∈ nodes g s, IsEmptyCandidate g s frameEvict n := by
    obtain ⟨n, hn, h1, h2, h3, h4⟩ := hex
    exact ⟨n, hn, by omega, h4, fun h => h3 h.symm, h2⟩
  obtain ⟨m, hm, hc, hf⟩ := findFrame_of_candidate g hg s V frameEvict hrange hex2
  obtain ⟨q, _, _, hd, h | ⟨_, _, hsl, hread, _⟩⟩ := nodes_ok g hg s m hm
  · exact absurd h.2.1 hc.2.2.2
  · have hle := (maxReachable_spec g s).2 m hm
    refine ⟨m, hm, lt_of_le_of_ne hd hc.1, hc.2.2.2, fun h => hc.2.2.1 h.symm, hc.2.1,
      parent_mem_nodes g hg s m hm, hsl, hread, ?_, ?_, ?_, ?_, ?_⟩
    · rw [hf]
    · rw [hf]; rfl
    · rw [hf]; rfl
    · rw [hf]; rfl
    · rw [hf]; simp only; omega

theorem findFrame_empty_table_priority_witness :
    ∃ m ∈ nodes exampleGeometry emptyTableState,
      m.depth < exampleGeometry.TABLES_DEPTH ∧ m.frame ≠ 0 ∧ m.frame ≠ 0 ∧
      EmptyTable exampleGeometry emptyTableState m.frame ∧
      (∃ p ∈ nodes exampleGeometry emptyTableState, p.frame = m.parent) ∧
      m.slot < exampleGeometry.PAGE_SIZE ∧
      PMread emptyTableState (slotAddr exampleGeometry m.parent m.slot) = m.frame ∧
      (findFrame exampleGeometry emptyTableState 0x1234 0).1 = m.frame ∧
      (findFrame exampleGeometry emptyTableState 0x1234 0).2.mem
        = Function.update emptyTableState.mem (slotAddr exampleGeometry m.parent m.slot) 0 ∧
      (findFrame exampleGeometry emptyTableState 0x1234 0).2.swap = emptyTableState.swap ∧
      (findFrame exampleGeometry emptyTableState 0x1234 0).2.log
        = emptyTableState.log
          ++ [BackendOp.write (slotAddr exampleGeometry m.parent m.slot) 0] ∧
      (findFrame exampleGeometry emptyTableState 0x1234 0).1
        ≠ maxReachable exampleGeometry emptyTableState + 1 :=
  findFrame_empty_table_priority exampleGeometry (by decide) emptyTableState 0x1234 0
    (by decide) (by decide)

/-- The victim of case 3, on a geometry that fits a `word_t` (`Geometry.Fits`) and for an
in-range address: when `findFrame` reaches case 3 (no empty table found,
`maxFrame + 1 ≥ NUM_FRAMES`) and evicts a leaf, the page `p` of the evicted leaf maximises the cyclic distance
`min(|π - p|, NUM_PAGES - |π - p|)` to `π = virtualAddress >> OFFSET_WIDTH` over all leaves
reachable from frame 0; among the leaves at that distance it is the first in traversal
order, which is the one with the smallest page number. -/
theorem findFrame_evicts_farthest (g : Geometry) (hg : g.Fits) (s : State) (V : Nat)
    (frameEvict : Int) (hV : V < g.VIRTUAL_MEMORY_SIZE)
    (hempty : (dfsResult g s V frameEvict).emptyFrame = 0)
    (hfull : ¬ (dfsResult g s V frameEvict).maxFrame + 1 < (g.NUM_FRAMES : Int))
    (hvict : (dfsResult g s V frameEvict).maxDistFrame ≠ 0) :
    ∃ l1 n l2 addr, leaves g s = l1 ++ n :: l2 ∧
      findFrame g s V frameEvict
        = (n.frame, PMwrite (PMevict g s (toU64 n.frame) n.pagePath) addr 0) ∧
      (∀ m ∈ leaves g s, cyclicDist g (V >>> g.OFFSET_WIDTH) m.pagePath
        ≤ cyclicDist g (V >>> g.OFFSET_WIDTH) n.pagePath) ∧
      (∀ m ∈ l1, cyclicDist g (V >>> g.OFFSET_WIDTH) m.pagePath
        < cyclicDist g (V >>> g.OFFSET_WIDTH) n.pagePath) ∧
      (∀ m ∈ leaves g s, cyclicDist g (V >>> g.OFFSET_WIDTH) m.pagePath
        = cyclicDist g (V >>> g.OFFSET_WIDTH) n.pagePath → n.pagePath ≤ m.pagePath) := by
  obtain ⟨l1, n, l2, e, hf, _, h1, h2⟩ := findFrame_case3 g s V frameEvict hempty hfull hvict
  obtain ⟨hπ, hπlt⟩ := pageSwappedInOf_eq g hg V hV
  rw [hπ] at h1 h2
  have hN : g.NUM_PAGES < 2 ^ 64 := lt_of_le_of_lt (NUM_PAGES_le g hg) (by norm_num)
  have hd : ∀ m ∈ leaves g s, tmpMinDist g (V >>> g.OFFSET_WIDTH) m.pagePath
      = cyclicDist g (V >>> g.OFFSET_WIDTH) m.pagePath :=
    fun m hm => tmpMinDist_eq g _ _ hπlt (leaf_pagePath_lt g hg s m hm) hN
  have hn : n ∈ leaves g s := by rw [e]; simp
  have hl1 : ∀ m ∈ l1, m ∈ leaves g s := fun m hm => by rw [e]; simp [hm]
  have hl2 : ∀ m ∈ l2, m ∈ leaves g s := fun m hm => by rw [e]; simp [hm]
  have hsorted := leaves_sorted g hg s
  rw [e, List.pairwise_append, List.pairwise_cons] at hsorted
  refine ⟨l1, n, l2, _, e, hf, ?_, ?_, ?_⟩
  · intro m hm
    rw [e] at hm
    rcases List.mem_append.mp hm with hm | hm
    · have := h1 m hm
      rw [hd m (hl1 m hm), hd n hn] at this
      omega
    · rcases List.mem_cons.mp hm with rfl | hm
      · exact le_rfl
      · have := h2 m hm
        rw [hd m (hl2 m hm), hd n hn] at this
        exact this
  · intro m hm
    have := h1 m hm
    rw [hd m (hl1 m hm), hd n hn] at this
    exact this
  · intro m hm heq
    rw [e] at hm
    rcases List.mem_append.mp hm with hm | hm
    · have := h1 m hm
      rw [hd m (hl1 m hm), hd n hn] at this
      omega
    · rcases List.mem_cons.mp hm with rfl | hm
      · exact le_rfl
      · exact le_of_lt (hsorted.2.1.1 m hm)

theorem findFrame_evicts_farthest_witness :
    ∃ l1 n l2 addr, leaves exampleGeometry fullState = l1 ++ n :: l2 ∧
      findFrame exampleGeometry fullState 0x724 1
        = (n.frame,
          PMwrite (PMevict exampleGeometry fullState (toU64 n.frame) n.pagePath) addr 0) ∧
      (∀ m ∈ leaves exampleGeometry fullState,
        cyclicDist exampleGeometry (0x724 >>> exampleGeometry.OFFSET_WIDTH) m.pagePath
          ≤ cyclicDist exampleGeometry (0x724 >>> exampleGeometry.OFFSET_WIDTH) n.pagePath) ∧
      (∀ m ∈ l1,
        cyclicDist exampleGeometry (0x724 >>> exampleGeometry.OFFSET_WIDTH) m.pagePath
          < cyclicDist exampleGeometry (0x724 >>> exampleGeometry.OFFSET_WIDTH) n.pagePath) ∧
      (∀ m ∈ leaves exampleGeometry fullState,
        cyclicDist exampleGeometry (0x724 >>> exampleGeometry.OFFSET_WIDTH) m.pagePath
          = cyclicDist exampleGeometry (0x724 >>> exampleGeometry.OFFSET_WIDTH) n.pagePath →
        n.pagePath ≤ m.pagePath) :=
  findFrame_evicts_farthest exampleGeometry (by decide) fullState 0x724 1 (by decide)
    (by decide) (by decide) (by decide)

/-- Round trip, on a geometry that fits a `word_t` (`Geometry.Fits`) with
`TABLES_DEPTH ≥ 1`: with the backend of the specification (a restore of a never-evicted page
yields zeros) and `NUM_FRAMES ≥ TABLES_DEPTH + 1`, starting from `VMinitialize` on any state,
after every finite sequence of in-range `VMread` and `VMwrite` calls a `VMread` of an
address that was written returns 1 and yields the value of the most recent `VMwrite` to
that address. -/
theorem read_returns_last_write (g : Geometry) (hg : g.Fits) (hTD : 1 ≤ g.TABLES_DEPTH)
    (hNF : g.TABLES_DEPTH + 1 ≤ g.NUM_FRAMES) (s0 : State) (cs : List Call)
    (hcs : ∀ c ∈ cs, c.addr < g.VIRTUAL_MEMORY_SIZE) (V : Nat) (x v : Int)
    (hlast : lastWrite cs V = some x) :
    (VMread g (run g ( VMinitialize g s0) cs) V v).ret = 1 ∧
    (VMread g (run g ( VMinitialize g s0) cs) V v).value = x := by
  have hV := lastWrite_addr cs V _ hcs x hlast
  have hI := run_inv g hg hNF cs hcs _ _ (VMinitialize_inv g hg hTD (by omega) s0)
  obtain ⟨h1, h2, _⟩ := VMread_spec g hg hNF _ _ hI V hV v
  refine ⟨h1, ?_⟩
  rw [h2, vmAfter_lastWrite, hlast]
  rfl

theorem read_returns_last_write_witness :
    ((VMread exampleGeometry
        (run exampleGeometry ( VMinitialize exampleGeometry zeroState)
          [Call.write 13 3, Call.write 0x724 6]) 0x724 0).ret = 1 ∧
      (VMread exampleGeometry
        (run exampleGeometry ( VMinitialize exampleGeometry zeroState)
          [Call.write 13 3, Call.write 0x724 6]) 0x724 0).value = 6) ∧
    ((VMread exampleGeometry
        (run exampleGeometry ( VMinitialize exampleGeometry zeroState)
          [Call.write 13 3, Call.write 0x724 6, Call.read 0x724]) 13 0).ret = 1 ∧
      (VMread exampleGeometry
        (run exampleGeometry ( VMinitialize exampleGeometry zeroState)
          [Call.write 13 3, Call.write 0x724 6, Call.read 0x724]) 13 0).value = 3) :=
  ⟨read_returns_last_write exampleGeometry (by decide) (by decide) (by decide) zeroState
      [Call.write 13 3, Call.write 0x724 6] (by decide) 0x724 6 0 (by decide),
    read_returns_last_write exampleGeometry (by decide) (by decide) (by decide) zeroState
      [Call.write 13 3, Call.write 0x724 6, Call.read 0x724] (by decide) 13 3 0 (by decide)⟩

/-- Write then read, on a geometry that fits a `word_t` (`Geometry.Fits`) with
`TABLES_DEPTH ≥ 1` and `NUM_FRAMES ≥ TABLES_DEPTH + 1`: in every reachable state, for every
in-range address `V` and every word `x`,
`VMwrite(V, x)` immediately followed by `VMread(V, &v)` returns 1 both times and leaves
`v = x`. -/
theorem write_then_read (g : Geometry) (hg : g.Fits) (hTD : 1 ≤ g.TABLES_DEPTH)
    (hNF : g.TABLES_DEPTH + 1 ≤ g.NUM_FRAMES) (s : State) (hs : ReachableState g s)
    (V : Nat) (hV : V < g.VIRTUAL_MEMORY_SIZE) (x v : Int) :
    (VMwrite g s V x).1 = 1 ∧
    (VMread g (VMwrite g s V x).2 V v).ret = 1 ∧
    (VMread g (VMwrite g s V x).2 V v).value = x := by
  obtain ⟨vm, hI⟩ := reachable_inv g hg hTD hNF s hs
  obtain ⟨h1, h2⟩ := VMwrite_spec g hg hNF s vm hI V hV x
  obtain ⟨h3, h4, _⟩ := VMread_spec g hg hNF _ _ h2 V hV v
  refine ⟨h1, h3, ?_⟩
  rw [h4, Function.update_same]

theorem write_then_read_witness :
    (VMwrite exampleGeometry ( VMinitialize exampleGeometry zeroState) 0x01230 7).1 = 1 ∧
    (VMread exampleGeometry
      (VMwrite exampleGeometry ( VMinitialize exampleGeometry zeroState) 0x01230 7).2
      0x01230 0).ret = 1 ∧
    (VMread exampleGeometry
      (VMwrite exampleGeometry ( VMinitialize exampleGeometry zeroState) 0x01230 7).2
      0x01230 0).value = 7 :=
  write_then_read exampleGeometry (by decide) (by decide) (by decide) _
    (ReachableState.init zeroState) 0x01230 (by decide) 7 0

/-- Zero on a new page, on a geometry that fits a `word_t` (`Geometry.Fits`) with
`TABLES_DEPTH ≥ 1` and `NUM_FRAMES ≥ TABLES_DEPTH + 1`: with the backend of the
specification and starting from `VMinitialize` with an
empty swap, after any sequence of in-range `VMread` and `VMwrite` calls a `VMread` of an
in-range address that no `VMwrite` has targeted returns 1 and yields 0. -/
theorem read_never_written (g : Geometry) (hg : g.Fits) (hTD : 1 ≤ g.TABLES_DEPTH)
    (hNF : g.TABLES_DEPTH + 1 ≤ g.NUM_FRAMES) (s0 : State) (hswap : ∀ p, s0.swap p = none)
    (cs : List Call) (hcs : ∀ c ∈ cs, c.addr < g.VIRTUAL_MEMORY_SIZE) (V : Nat)
    (hV : V < g.VIRTUAL_MEMORY_SIZE) (hnever : ∀ x, Call.write V x ∉ cs) (v : Int) :
    (VMread g (run g ( VMinitialize g s0) cs) V v).ret = 1 ∧
    (VMread g (run g ( VMinitialize g s0) cs) V v).value = 0 := by
  have hI := run_inv g hg hNF cs hcs _ _ (VMinitialize_inv g hg hTD (by omega) s0)
  obtain ⟨h1, h2, _⟩ := VMread_spec g hg hNF _ _ hI V hV v
  refine ⟨h1, ?_⟩
  rw [h2, vmAfter_lastWrite, lastWrite_none cs V hnever]
  simp only [Option.getD_none, initialVM, hswap, restoredWord]

theorem read_never_written_witness :
    (VMread exampleGeometry (run exampleGeometry ( VMinitialize exampleGeometry zeroState) [])
      0xBEEF 5).ret = 1 ∧
    (VMread exampleGeometry (run exampleGeometry ( VMinitialize exampleGeometry zeroState) [])
      0xBEEF 5).value = 0 :=
  read_never_written exampleGeometry (by decide) (by decide) (by decide) zeroState
    (fun _ => rfl) [] (by decide) 0xBEEF (by decide) (by simp) 5

/-- The tree invariant, on a geometry that fits a `word_t` (`Geometry.Fits`) with
`TABLES_DEPTH ≥ 1` and `NUM_FRAMES ≥ TABLES_DEPTH + 1`: in every reachable state, the states
between two allocations of one `translate`
included, the links reachable from frame 0 form a tree: every nonzero slot value `c` of
every table frame of the tree satisfies `0 < c < NUM_FRAMES`, and a frame index is held by
at most one slot of the tree. -/
theorem reachable_links_form_tree (g : Geometry) (hg : g.Fits) (hTD : 1 ≤ g.TABLES_DEPTH)
    (hNF : g.TABLES_DEPTH + 1 ≤ g.NUM_FRAMES) (s : State) (hs : ReachableState g s) :
    (∀ d q f i, Tree g s d q f → d < g.TABLES_DEPTH → i < g.PAGE_SIZE →
      PMread s (slotAddr g f i) ≠ 0 →
      0 < PMread s (slotAddr g f i) ∧ PMread s (slotAddr g f i) < (g.NUM_FRAMES : Int)) ∧
    (∀ d q f i d2 q2 f2 i2, Tree g s d q f → d < g.TABLES_DEPTH → i < g.PAGE_SIZE →
      Tree g s d2 q2 f2 → d2 < g.TABLES_DEPTH → i2 < g.PAGE_SIZE →
      PMread s (slotAddr g f i) ≠ 0 →
      PMread s (slotAddr g f i) = PMread s (slotAddr g f2 i2) → f = f2 ∧ i = i2) := by
  obtain ⟨vm, hI⟩ := reachable_inv g hg hTD hNF s hs
  constructor
  · intro d q f i hT hd hi hne
    have hc := Tree.child i hT hd hi hne
    obtain ⟨h0, h1⟩ := hI.range _ _ _ hc
    exact ⟨by omega, h1⟩
  · intro d q f i d2 q2 f2 i2 hT hd hi hT2 hd2 hi2 hne heq
    have hc := Tree.child i hT hd hi hne
    have hc2 := Tree.child i2 hT2 hd2 hi2 (by rw [← heq]; exact hne)
    rw [← heq] at hc2
    obtain ⟨e1, e2⟩ := hI.unique _ _ _ _ _ hc hc2
    have e3 : d = d2 := by omega
    subst e3
    obtain ⟨e4, e5⟩ := digits_inj g _ _ _ _ hi hi2 e2
    subst e4 e5
    exact ⟨Tree.frame_unique hT hT2, rfl⟩

theorem reachable_links_form_tree_witness :
    ReachableState exampleGeometry midTranslateState ∧
    ((∀ d q f i,
      Tree exampleGeometry midTranslateState d q f →
      d < exampleGeometry.TABLES_DEPTH → i < exampleGeometry.PAGE_SIZE →
      PMread midTranslateState (slotAddr exampleGeometry f i) ≠ 0 →
      0 < PMread midTranslateState (slotAddr exampleGeometry f i) ∧
      PMread midTranslateState (slotAddr exampleGeometry f i)
        < (exampleGeometry.NUM_FRAMES : Int)) ∧
    (∀ d q f i d2 q2 f2 i2,
      Tree exampleGeometry midTranslateState d q f →
      d < exampleGeometry.TABLES_DEPTH → i < exampleGeometry.PAGE_SIZE →
      Tree exampleGeometry midTranslateState d2 q2 f2 →
      d2 < exampleGeometry.TABLES_DEPTH → i2 < exampleGeometry.PAGE_SIZE →
      PMread midTranslateState (slotAddr exampleGeometry f i) ≠ 0 →
      PMread midTranslateState (slotAddr exampleGeometry f i)
        = PMread midTranslateState (slotAddr exampleGeometry f2 i2) → f = f2 ∧ i = i2)) :=
  ⟨ReachableState.translating 0x1234 2 (ReachableState.init zeroState) (by decide),
    reachable_links_form_tree exampleGeometry (by decide) (by decide) (by decide) _
      (ReachableState.translating 0x1234 2 (ReachableState.init zeroState) (by decide))⟩

/-! ### The claims on allocation, ordering and termination -/

/-- C19: page hit changes nothing. If every slot on the path of `V` (`offsets[TABLES_DEPTH]`
down to `offsets[1]`, starting at frame 0) is nonzero, then in every iteration of the loop
of `translate` the test that guards `findFrame` is false and the state of the backend
(memory, swap and the log of writes, evictions and restores) is unchanged; `translate(V)`
returns the leaf frame at the end of the path and the state unchanged, a second
`translate(V)` returns the same frame, and a `VMread` of an in-range `V` returns 1, reads the
word of the leaf frame and leaves the whole state unchanged. -/
theorem page_hit_changes_nothing (g : Geometry) (s : State) (V : Nat) (f v : Int)
    (hwalk : walk g s (split_virtual_address g V (g.TABLES_DEPTH + 1)) g.TABLES_DEPTH 0
      = some f) :
    (∀ k, k < g.TABLES_DEPTH →
      (translatePartial g V (split_virtual_address g V (g.TABLES_DEPTH + 1)) k
        g.TABLES_DEPTH 0 s).2 = s ∧
      PMread s (toU64
        ((translatePartial g V (split_virtual_address g V (g.TABLES_DEPTH + 1)) k
            g.TABLES_DEPTH 0 s).1 * (g.PAGE_SIZE : Int)
          + (((split_virtual_address g V (g.TABLES_DEPTH + 1)).getD
              (g.TABLES_DEPTH - k) 0 : Nat) : Int))) ≠ 0) ∧
    translate g s V = (f, s) ∧
    translate g (translate g s V).2 V = translate g s V ∧
    (V < g.VIRTUAL_MEMORY_SIZE →
      (VMread g s V v).ret = 1 ∧
      (VMread g s V v).value
        = PMread s (toU64 (f * (g.PAGE_SIZE : Int) + ((V &&& (g.PAGE_SIZE - 1) : Nat) : Int))) ∧
      (VMread g s V v).state = s) := by
  have ht : translate g s V = (f, s) := by
    unfold translate
    simp only [Nat.add_sub_cancel]
    exact translateLoop_of_walk g s V _ f _ 0 hwalk
  refine ⟨?_, ht, ?_, ?_⟩
  · intro k hk
    obtain ⟨h1, h2⟩ := translatePartial_of_walk g s V _ f k g.TABLES_DEPTH (by omega) 0 hwalk
    refine ⟨h1, ?_⟩
    obtain ⟨j, hj⟩ : ∃ j, g.TABLES_DEPTH - k = j + 1 := ⟨g.TABLES_DEPTH - k - 1, by omega⟩
    rw [hj] at h2 ⊢
    exact (walk_succ_ne_zero g s _ f j _ h2).1
  · rw [ht]
    exact ht
  · intro hV
    have hge : ¬ V ≥ g.VIRTUAL_MEMORY_SIZE := by omega
    simp only [VMread, if_neg hge, ht, and_self]

theorem page_hit_changes_nothing_witness :
    walk exampleGeometry fullState
      (split_virtual_address exampleGeometry 0x15 (exampleGeometry.TABLES_DEPTH + 1))
      exampleGeometry.TABLES_DEPTH 0 = some 4 ∧
    translate exampleGeometry fullState 0x15 = (4, fullState) :=
  ⟨by decide,
    (page_hit_changes_nothing exampleGeometry fullState 0x15 4 0 (by decide)).2.1⟩

/-- C14: for every state of the physical memory, every virtual address and every
`frameEvict`, `findFrame` never returns frame 0, and a frame it evicts is the frame it
returns (so never frame 0, also as a `uint64_t` when the memory words are in the range of
`word_t`). Consequently an iteration of the loop of `translate` either follows a nonzero
link and leaves the state as it is, or zero-fills and links the frame returned by
`findFrame`, which is not frame 0. -/
theorem findFrame_never_frame_zero (g : Geometry) (s : State) (V : Nat) (frameEvict : Int) :
    (findFrame g s V frameEvict).1 ≠ 0 ∧
    (∃ ops, (findFrame g s V frameEvict).2.log = s.log ++ ops ∧
      ∀ fr p, BackendOp.evict fr p ∈ ops →
        fr = toU64 (findFrame g s V frameEvict).1 ∧
        ((∀ a, -(2 ^ 31) ≤ s.mem a ∧ s.mem a < 2 ^ 31) → fr ≠ 0)) ∧
    (∀ (offsets_arr : List Nat) (i : Nat),
      (PMread s (toU64 (frameEvict * (g.PAGE_SIZE : Int)
          + ((offsets_arr.getD i 0 : Nat) : Int))) ≠ 0 ∧
        translateStep g V offsets_arr i frameEvict s
          = (PMread s (toU64 (frameEvict * (g.PAGE_SIZE : Int)
              + ((offsets_arr.getD i 0 : Nat) : Int))), s)) ∨
      (PMread s (toU64 (frameEvict * (g.PAGE_SIZE : Int)
          + ((offsets_arr.getD i 0 : Nat) : Int))) = 0 ∧
        ∃ newFrame s1, newFrame ≠ 0 ∧ findFrame g s V frameEvict = (newFrame, s1) ∧
          translateStep g V offsets_arr i frameEvict s
            = (newFrame,
                if i = 1 then
                  PMrestore g
                    (PMwrite (if i > 1 then fillWithZeros g s1 newFrame else s1)
                      (toU64 (frameEvict * (g.PAGE_SIZE : Int)
                        + ((offsets_arr.getD i 0 : Nat) : Int))) newFrame)
                    (toU64 newFrame) (V >>> g.OFFSET_WIDTH)
                else
                  PMwrite (if i > 1 then fillWithZeros g s1 newFrame else s1)
                    (toU64 (frameEvict * (g.PAGE_SIZE : Int)
                      + ((offsets_arr.getD i 0 : Nat) : Int))) newFrame))) := by
  refine ⟨findFrame_ne_zero g s V frameEvict, findFrame_evict_log g s V frameEvict, ?_⟩
  intro offsets_arr i
  by_cases hz : PMread s (toU64 (frameEvict * (g.PAGE_SIZE : Int)
      + ((offsets_arr.getD i 0 : Nat) : Int))) = 0
  · exact Or.inr ⟨hz, (findFrame g s V frameEvict).1, (findFrame g s V frameEvict).2,
      findFrame_ne_zero g s V frameEvict, rfl,
      translateStep_miss g s V offsets_arr i frameEvict hz⟩
  · exact Or.inl ⟨hz, translateStep_hit g s V offsets_arr i frameEvict hz⟩

/-- C17: in the backend operations of one iteration of the loop of `translate` that finds a
zero link, the operations of `findFrame` (nothing, or the write that unlinks an empty table,
or the eviction of the victim followed by the write that unlinks it) come first, then for a
table level (`i > 1`) the `PAGE_SIZE` zero-writes to the new frame, then the write that
stores the new frame in the parent slot, then for the leaf level (`i = 1`) the restore. For
`i > 1` the link write is applied to a state in which every slot of the new frame is 0. -/
theorem translate_link_ordering (g : Geometry) (s : State) (V : Nat)
    (offsets_arr : List Nat) (i : Nat) (cur : Int)
    (hmiss : PMread s (toU64 (cur * (g.PAGE_SIZE : Int)
      + ((offsets_arr.getD i 0 : Nat) : Int))) = 0) :
    ∃ ffOps,
      (findFrame g s V cur).2.log = s.log ++ ffOps ∧
      (ffOps = [] ∨ (∃ a, ffOps = [BackendOp.write a 0]) ∨
        ∃ p a, ffOps = [BackendOp.evict (toU64 (findFrame g s V cur).1) p,
          BackendOp.write a 0]) ∧
      (translateStep g V offsets_arr i cur s).2.log
        = s.log ++ ffOps
          ++ (if i > 1 then (List.range g.PAGE_SIZE).map (fun (k : Nat) =>
                BackendOp.write (toU64 ((findFrame g s V cur).1 * (g.PAGE_SIZE : Int)
                  + (k : Int))) 0) else [])
          ++ [BackendOp.write (toU64 (cur * (g.PAGE_SIZE : Int)
                + ((offsets_arr.getD i 0 : Nat) : Int))) (findFrame g s V cur).1]
          ++ (if i = 1 then [BackendOp.restore (toU64 (findFrame g s V cur).1)
                (V >>> g.OFFSET_WIDTH)] else []) ∧
      (i > 1 →
        (translateStep g V offsets_arr i cur s).2
          = PMwrite (fillWithZeros g (findFrame g s V cur).2 (findFrame g s V cur).1)
              (toU64 (cur * (g.PAGE_SIZE : Int) + ((offsets_arr.getD i 0 : Nat) : Int)))
              (findFrame g s V cur).1 ∧
        ∀ k, k < g.PAGE_SIZE →
          PMread (fillWithZeros g (findFrame g s V cur).2 (findFrame g s V cur).1)
            (toU64 ((findFrame g s V cur).1 * (g.PAGE_SIZE : Int) + (k : Int))) = 0) := by
  obtain ⟨ops, hlog, hops⟩ := findFrame_log g s V cur
  refine ⟨ops, hlog, hops, ?_, ?_⟩
  · rw [translateStep_miss g s V offsets_arr i cur hmiss]
    by_cases h1 : i = 1
    · have h2 : ¬ i > 1 := by omega
      simp only [if_pos h1, if_neg h2, PMrestore, PMwrite, hlog, List.append_nil]
    · by_cases h2 : i > 1
      · simp only [if_neg h1, if_pos h2, PMwrite, fillWithZeros_log, hlog, List.append_nil]
      · simp only [if_neg h1, if_neg h2, PMwrite, hlog, List.append_nil]
  · intro hi
    have h1 : ¬ i = 1 := by omega
    refine ⟨?_, fun k hk => fillWithZeros_zero g _ _ k hk⟩
    rw [translateStep_miss g s V offsets_arr i cur hmiss]
    simp only [if_neg h1, if_pos hi]

theorem translate_link_ordering_witness :
    ∃ ffOps,
      (findFrame exampleGeometry zeroState 0x1234 0).2.log = zeroState.log ++ ffOps ∧
      (ffOps = [] ∨ (∃ a, ffOps = [BackendOp.write a 0]) ∨
        ∃ p a, ffOps = [BackendOp.evict (toU64 (findFrame exampleGeometry zeroState 0x1234 0).1) p,
          BackendOp.write a 0]) ∧
      (translateStep exampleGeometry 0x1234 [4, 3, 2, 1] 3 0 zeroState).2.log
        = zeroState.log ++ ffOps
          ++ (if 3 > 1 then (List.range exampleGeometry.PAGE_SIZE).map (fun (k : Nat) =>
                BackendOp.write (toU64 ((findFrame exampleGeometry zeroState 0x1234 0).1
                  * (exampleGeometry.PAGE_SIZE : Int) + (k : Int))) 0) else [])
          ++ [BackendOp.write (toU64 (0 * (exampleGeometry.PAGE_SIZE : Int)
                + ((([4, 3, 2, 1] : List Nat).getD 3 0 : Nat) : Int)))
              (findFrame exampleGeometry zeroState 0x1234 0).1]
          ++ (if 3 = 1 then [BackendOp.restore
                (toU64 (findFrame exampleGeometry zeroState 0x1234 0).1)
                (0x1234 >>> exampleGeometry.OFFSET_WIDTH)] else []) ∧
      (3 > 1 →
        (translateStep exampleGeometry 0x1234 [4, 3, 2, 1] 3 0 zeroState).2
          = PMwrite (fillWithZeros exampleGeometry (findFrame exampleGeometry zeroState 0x1234 0).2
                (findFrame exampleGeometry zeroState 0x1234 0).1)
              (toU64 (0 * (exampleGeometry.PAGE_SIZE : Int)
                + ((([4, 3, 2, 1] : List Nat).getD 3 0 : Nat) : Int)))
              (findFrame exampleGeometry zeroState 0x1234 0).1 ∧
        ∀ k, k < exampleGeometry.PAGE_SIZE →
          PMread (fillWithZeros exampleGeometry (findFrame exampleGeometry zeroState 0x1234 0).2
              (findFrame exampleGeometry zeroState 0x1234 0).1)
            (toU64 ((findFrame exampleGeometry zeroState 0x1234 0).1
              * (exampleGeometry.PAGE_SIZE : Int) + (k : Int))) = 0) :=
  translate_link_ordering exampleGeometry zeroState 0x1234 [4, 3, 2, 1] 3 0 rfl

/-- C20: `DFS` terminates for every content of the physical memory, links that form a cycle
or a DAG included: run with the parameter `curDepth` of the source, a call at depth
`curDepth ≤ TABLES_DEPTH` never nests its recursive calls deeper than
`TABLES_DEPTH - curDepth + 1`, and returns the value of the function defined by recursion on
`TABLES_DEPTH - curDepth`; so the call of `findFrame`, at depth 0, returns the result on
which `findFrame` branches. -/
theorem DFS_terminates (g : Geometry) (s : State) (V : Nat) (frameEvict : Int) (fuel : Nat)
    (hfuel : g.TABLES_DEPTH < fuel) :
    DFSfuel g s (pageSwappedInOf g V) frameEvict fuel 0 0 0 0 DFSVars.init
      = some (dfsResult g s V frameEvict) ∧
    ∀ (π curDepth : Nat) (curFrame parentFrame : Int) (pagePath : Nat) (v : DFSVars),
      curDepth ≤ g.TABLES_DEPTH →
      DFSfuel g s π frameEvict fuel curFrame parentFrame curDepth pagePath v
        = some (DFS g s π frameEvict (g.TABLES_DEPTH - curDepth) curFrame parentFrame
            pagePath v) := by
  constructor
  · have := DFSfuel_eq g s (pageSwappedInOf g V) frameEvict fuel 0 0 0 0 DFSVars.init
      (Nat.zero_le _) (by omega)
    rw [this]
    rfl
  · intro π curDepth curFrame parentFrame pagePath v hd
    exact DFSfuel_eq g s π frameEvict fuel curDepth curFrame parentFrame pagePath v hd
      (by omega)

theorem DFS_terminates_witness :
    DFSfuel exampleGeometry cyclicState (pageSwappedInOf exampleGeometry 0x1234) 0 4 0 0 0 0
      DFSVars.init = some (dfsResult exampleGeometry cyclicState 0x1234 0) :=
  (DFS_terminates exampleGeometry cyclicState 0x1234 0 4 (by decide)).1

/-- Case 3 effects, on a geometry that fits a `word_t` (`Geometry.Fits`). When `findFrame`
evicts (no empty table recorded, no unused frame,
a victim recorded) in a state whose links are valid frame indices, the victim is a leaf
`n` of the traversal with frame `f = n.frame`, page `p = n.pagePath` and parent table
`q = n.parent`, linked from slot `p mod PAGE_SIZE` of `q`; after the call the swap store
maps `p` to the `PAGE_SIZE` words that were in frame `f`, that slot of `q` is 0, `f` is
returned, and every other word of physical memory and every other swap entry is unchanged;
the backend operations are the eviction followed by the unlinking write. -/
theorem findFrame_eviction_effects (g : Geometry) (hg : g.Fits) (s : State) (V : Nat)
    (frameEvict : Int)
    (hrange : ∀ n ∈ nodes g s, 0 ≤ n.frame ∧ n.frame < g.NUM_FRAMES)
    (hempty : (dfsResult g s V frameEvict).emptyFrame = 0)
    (hfull : ¬ (dfsResult g s V frameEvict).maxFrame + 1 < (g.NUM_FRAMES : Int))
    (hvict : (dfsResult g s V frameEvict).maxDistFrame ≠ 0) :
    ∃ n ∈ leaves g s,
      (∃ q ∈ nodes g s, q.frame = n.parent) ∧
      PMread s (slotAddr g n.parent n.slot) = n.frame ∧
      n.slot = n.pagePath % g.PAGE_SIZE ∧
      slotAddr g n.parent n.slot = n.parent.toNat * g.PAGE_SIZE + n.pagePath % g.PAGE_SIZE ∧
      (findFrame g s V frameEvict).1 = n.frame ∧
      (findFrame g s V frameEvict).2.swap n.pagePath
        = some ((List.range g.PAGE_SIZE).map
            (fun (o : Nat) => s.mem (n.frame.toNat * g.PAGE_SIZE + o))) ∧
      (∀ p, p ≠ n.pagePath → (findFrame g s V frameEvict).2.swap p = s.swap p) ∧
      PMread (findFrame g s V frameEvict).2 (slotAddr g n.parent n.slot) = 0 ∧
      (∀ a, a ≠ slotAddr g n.parent n.slot → (findFrame g s V frameEvict).2.mem a = s.mem a) ∧
      (findFrame g s V frameEvict).2.log
        = s.log ++ [BackendOp.evict n.frame.toNat n.pagePath,
            BackendOp.write (slotAddr g n.parent n.slot) 0] := by
  obtain ⟨l1, n, l2, e, hf, _⟩ := findFrame_case3 g s V frameEvict hempty hfull hvict
  have hleaf : n ∈ leaves g s := by rw [e]; simp
  have hn : n ∈ nodes g s := (List.mem_filter.mp hleaf).1
  have hd : n.depth = g.TABLES_DEPTH := by simpa using (List.mem_filter.mp hleaf).2
  have hne : n.frame ≠ 0 := by
    have := findFrame_ne_zero g s V frameEvict
    rwa [hf] at this
  obtain ⟨p, hp, hpf⟩ := parent_mem_nodes g hg s n hn
  obtain ⟨hp0, hp1⟩ := hrange p hp
  rw [hpf] at hp0 hp1
  obtain ⟨hf0, hf1⟩ := hrange n hn
  have haddr := victim_unlink_addr g hg s n hn hd hne hp0 hp1
  have hNF : (g.NUM_FRAMES : Int) < 2 ^ 64 := by
    have h1 := hg.1
    have h2 := PAGE_SIZE_pos g
    have h3 : g.NUM_FRAMES ≤ g.NUM_FRAMES * g.PAGE_SIZE := Nat.le_mul_of_pos_right _ h2
    have h4 : g.NUM_FRAMES ≤ 2 ^ 31 := le_trans h3 h1
    have h5 : (g.NUM_FRAMES : Int) ≤ 2 ^ 31 := by exact_mod_cast h4
    omega
  have hfr : toU64 n.frame = n.frame.toNat := toU64_eq _ hf0 (by omega)
  have hslot : n.pagePath &&& (g.PAGE_SIZE - 1) = n.slot := leaf_low_bits g hg s n hn hd
  have hmod : n.slot = n.pagePath % g.PAGE_SIZE := by
    rw [← hslot]
    exact (page_split g n.pagePath).2.2
  have hsl : n.slot < g.PAGE_SIZE := by
    rw [hmod]
    exact Nat.mod_lt _ (PAGE_SIZE_pos g)
  have hread : PMread s (slotAddr g n.parent n.slot) = n.frame := by
    obtain ⟨q, _, _, _, h | ⟨_, _, _, h, _⟩⟩ := nodes_ok g hg s n hn
    · exact absurd h.2.1 hne
    · exact h
  rw [haddr, hfr] at hf
  refine ⟨n, hleaf, ⟨p, hp, hpf⟩, hread, hmod, ?_, ?_, ?_, ?_, ?_, ?_, ?_⟩
  · rw [slotAddr_eq g hg n.parent n.slot hp0 hp1 hsl, hmod]
  · rw [hf]
  · rw [hf]
    simp only [PMwrite, PMevict, Function.update_same]
  · intro p2 hp2
    rw [hf]
    simp only [PMwrite, PMevict, Function.update_noteq hp2]
  · rw [hf]
    simp only [PMread, PMwrite, Function.update_same]
  · intro a ha
    rw [hf]
    simp only [PMwrite, PMevict, Function.update_noteq ha]
  · rw [hf]
    simp only [PMwrite, PMevict, List.append_assoc, List.singleton_append]

theorem findFrame_eviction_effects_witness :
    ∃ n ∈ leaves exampleGeometry fullState,
      (∃ q ∈ nodes exampleGeometry fullState, q.frame = n.parent) ∧
      PMread fullState (slotAddr exampleGeometry n.parent n.slot) = n.frame ∧
      n.slot = n.pagePath % exampleGeometry.PAGE_SIZE ∧
      slotAddr exampleGeometry n.parent n.slot
        = n.parent.toNat * exampleGeometry.PAGE_SIZE
          + n.pagePath % exampleGeometry.PAGE_SIZE ∧
      (findFrame exampleGeometry fullState 0x724 1).1 = n.frame ∧
      (findFrame exampleGeometry fullState 0x724 1).2.swap n.pagePath
        = some ((List.range exampleGeometry.PAGE_SIZE).map
            (fun (o : Nat) => fullState.mem (n.frame.toNat * exampleGeometry.PAGE_SIZE + o))) ∧
      (∀ p, p ≠ n.pagePath →
        (findFrame exampleGeometry fullState 0x724 1).2.swap p = fullState.swap p) ∧
      PMread (findFrame exampleGeometry fullState 0x724 1).2
        (slotAddr exampleGeometry n.parent n.slot) = 0 ∧
      (∀ a, a ≠ slotAddr exampleGeometry n.parent n.slot →
        (findFrame exampleGeometry fullState 0x724 1).2.mem a = fullState.mem a) ∧
      (findFrame exampleGeometry fullState 0x724 1).2.log
        = fullState.log ++ [BackendOp.evict n.frame.toNat n.pagePath,
            BackendOp.write (slotAddr exampleGeometry n.parent n.slot) 0] :=
  findFrame_eviction_effects exampleGeometry (by decide) fullState 0x724 1 (by decide)
    (by decide) (by decide) (by decide)

/-- The frames in use, on a geometry that fits a `word_t` (`Geometry.Fits`) with
`TABLES_DEPTH ≥ 1`: in every reachable state (of a geometry with
`NUM_FRAMES ≥ TABLES_DEPTH + 1`) the
frames linked in the tree are exactly `0 .. M` for the largest linked index `M`, with
`M ≤ NUM_FRAMES - 1`; so whenever `findFrame` is in case 2 (no empty table recorded and
`M + 1 < NUM_FRAMES`) it returns `M + 1` without touching the backend, and `M + 1` is held
by no slot of any table frame of the tree. -/
theorem frames_are_initial_segment (g : Geometry) (hg : g.Fits) (hTD : 1 ≤ g.TABLES_DEPTH)
    (hNF : g.TABLES_DEPTH + 1 ≤ g.NUM_FRAMES) (s : State) (hs : ReachableState g s) :
    0 ≤ maxReachable g s ∧ maxReachable g s ≤ (g.NUM_FRAMES : Int) - 1 ∧
    (∀ x : Int, (∃ d q, Tree g s d q x) ↔ (0 ≤ x ∧ x ≤ maxReachable g s)) ∧
    ∀ V frameEvict, (dfsResult g s V frameEvict).emptyFrame = 0 →
      maxReachable g s + 1 < (g.NUM_FRAMES : Int) →
      (dfsResult g s V frameEvict).maxFrame = maxReachable g s ∧
      findFrame g s V frameEvict = (maxReachable g s + 1, s) ∧
      (∀ d q, ¬ Tree g s d q (maxReachable g s + 1)) ∧
      ∀ d q f i, Tree g s d q f → d < g.TABLES_DEPTH → i < g.PAGE_SIZE →
        PMread s (slotAddr g f i) ≠ maxReachable g s + 1 := by
  obtain ⟨vm, hI⟩ := reachable_inv g hg hTD hNF s hs
  obtain ⟨⟨n, hn, hM⟩, hmax⟩ := maxReachable_spec g s
  obtain ⟨q, hT, _⟩ := nodes_ok g hg s n hn
  rw [hM] at hT
  obtain ⟨hM0, hM1⟩ := hI.range _ _ _ hT
  have hle : ∀ d q x, Tree g s d q x → x ≤ maxReachable g s := by
    intro d q x hx
    obtain ⟨m, hm, _, hmf, _⟩ := Tree.mem_nodes hg hx
    rw [← hmf]
    exact hmax m hm
  refine ⟨hM0, by omega, ?_, ?_⟩
  · intro x
    constructor
    · rintro ⟨d, q, hx⟩
      exact ⟨(hI.range _ _ _ hx).1, hle d q x hx⟩
    · rintro ⟨h0, h1⟩
      exact hI.closed _ _ _ x hT h0 h1
  · intro V frameEvict hempty hlt
    have hfresh : ∀ d q, ¬ Tree g s d q (maxReachable g s + 1) := by
      intro d q hx
      have := hle d q _ hx
      omega
    rcases dfsResult_cases g s V frameEvict with ⟨_, _, h, _⟩ | ⟨_, m, _, _, _, hc, he, _⟩
    · refine ⟨h, ?_, hfresh, ?_⟩
      · rw [findFrame_eq]
        simp only [hempty, ne_eq, not_true_eq_false, if_false, h, hlt, if_true]
      · intro d q f i hT2 hd hi heq
        have hne : PMread s (slotAddr g f i) ≠ 0 := by rw [heq]; omega
        have hc := Tree.child i hT2 hd hi hne
        rw [heq] at hc
        exact hfresh _ _ hc
    · rw [hempty] at he
      exact absurd he.symm hc.2.2.2

theorem frames_are_initial_segment_witness :
    ReachableState exampleGeometry midTranslateState ∧
    (0 ≤ maxReachable exampleGeometry midTranslateState ∧
    maxReachable exampleGeometry midTranslateState ≤ (exampleGeometry.NUM_FRAMES : Int) - 1 ∧
    (∀ x : Int, (∃ d q, Tree exampleGeometry midTranslateState d q x)
      ↔ (0 ≤ x ∧ x ≤ maxReachable exampleGeometry midTranslateState)) ∧
    ∀ V frameEvict, (dfsResult exampleGeometry midTranslateState V frameEvict).emptyFrame = 0 →
      maxReachable exampleGeometry midTranslateState + 1 < (exampleGeometry.NUM_FRAMES : Int) →
      (dfsResult exampleGeometry midTranslateState V frameEvict).maxFrame
        = maxReachable exampleGeometry midTranslateState ∧
      findFrame exampleGeometry midTranslateState V frameEvict
        = (maxReachable exampleGeometry midTranslateState + 1, midTranslateState) ∧
      (∀ d q, ¬ Tree exampleGeometry midTranslateState d q
        (maxReachable exampleGeometry midTranslateState + 1)) ∧
      ∀ d q f i, Tree exampleGeometry midTranslateState d q f →
        d < exampleGeometry.TABLES_DEPTH → i < exampleGeometry.PAGE_SIZE →
        PMread midTranslateState (slotAddr exampleGeometry f i)
          ≠ maxReachable exampleGeometry midTranslateState + 1) :=
  ⟨ReachableState.translating 0x1234 2 (ReachableState.init zeroState) (by decide),
    frames_are_initial_segment exampleGeometry (by decide) (by decide) (by decide) _
      (ReachableState.translating 0x1234 2 (ReachableState.init zeroState) (by decide))⟩

/-- No allocation failure, on a geometry that fits a `word_t` (`Geometry.Fits`) with
`TABLES_DEPTH ≥ 1`: if `NUM_FRAMES ≥ TABLES_DEPTH + 1`, then in every reachable state `s`,
for every
in-range address `V` and every iteration of the loop of `translate(V)` that finds a zero
link (after `k` iterations, at the frame and in the state reached then), the call of
`findFrame` made by that iteration does not end in the failure branch: one of the three
cases applies (an empty table recorded, or `maxFrame + 1 < NUM_FRAMES`, or a victim leaf
with distance above 0), and the frame returned is in `1 .. NUM_FRAMES - 1`, so not `-1`. -/
theorem findFrame_never_fails (g : Geometry) (hg : g.Fits) (hTD : 1 ≤ g.TABLES_DEPTH)
    (hNF : g.TABLES_DEPTH + 1 ≤ g.NUM_FRAMES) (s : State) (hs : ReachableState g s)
    (V : Nat) (hV : V < g.VIRTUAL_MEMORY_SIZE) (k : Nat) (hk : k < g.TABLES_DEPTH)
    (hmiss : PMread
      (translatePartial g V (split_virtual_address g V (g.TABLES_DEPTH + 1)) k
        g.TABLES_DEPTH 0 s).2
      (toU64 ((translatePartial g V (split_virtual_address g V (g.TABLES_DEPTH + 1)) k
          g.TABLES_DEPTH 0 s).1 * (g.PAGE_SIZE : Int)
        + (((split_virtual_address g V (g.TABLES_DEPTH + 1)).getD
            (g.TABLES_DEPTH - k) 0 : Nat) : Int))) = 0) :
    (translatePartial g V (split_virtual_address g V (g.TABLES_DEPTH + 1)) (k + 1)
        g.TABLES_DEPTH 0 s).1
      = (findFrame g
          (translatePartial g V (split_virtual_address g V (g.TABLES_DEPTH + 1)) k
            g.TABLES_DEPTH 0 s).2 V
          (translatePartial g V (split_virtual_address g V (g.TABLES_DEPTH + 1)) k
            g.TABLES_DEPTH 0 s).1).1 ∧
    (findFrame g
        (translatePartial g V (split_virtual_address g V (g.TABLES_DEPTH + 1)) k
          g.TABLES_DEPTH 0 s).2 V
        (translatePartial g V (split_virtual_address g V (g.TABLES_DEPTH + 1)) k
          g.TABLES_DEPTH 0 s).1).1 ≠ -1 ∧
    0 < (findFrame g
        (translatePartial g V (split_virtual_address g V (g.TABLES_DEPTH + 1)) k
          g.TABLES_DEPTH 0 s).2 V
        (translatePartial g V (split_virtual_address g V (g.TABLES_DEPTH + 1)) k
          g.TABLES_DEPTH 0 s).1).1 ∧
    (findFrame g
        (translatePartial g V (split_virtual_address g V (g.TABLES_DEPTH + 1)) k
          g.TABLES_DEPTH 0 s).2 V
        (translatePartial g V (split_virtual_address g V (g.TABLES_DEPTH + 1)) k
          g.TABLES_DEPTH 0 s).1).1 < (g.NUM_FRAMES : Int) ∧
    ((dfsResult g
        (translatePartial g V (split_virtual_address g V (g.TABLES_DEPTH + 1)) k
          g.TABLES_DEPTH 0 s).2 V
        (translatePartial g V (split_virtual_address g V (g.TABLES_DEPTH + 1)) k
          g.TABLES_DEPTH 0 s).1).emptyFrame ≠ 0 ∨
      (dfsResult g
        (translatePartial g V (split_virtual_address g V (g.TABLES_DEPTH + 1)) k
          g.TABLES_DEPTH 0 s).2 V
        (translatePartial g V (split_virtual_address g V (g.TABLES_DEPTH + 1)) k
          g.TABLES_DEPTH 0 s).1).maxFrame + 1 < (g.NUM_FRAMES : Int) ∨
      ((dfsResult g
        (translatePartial g V (split_virtual_address g V (g.TABLES_DEPTH + 1)) k
          g.TABLES_DEPTH 0 s).2 V
        (translatePartial g V (split_virtual_address g V (g.TABLES_DEPTH + 1)) k
          g.TABLES_DEPTH 0 s).1).maxDistFrame ≠ 0 ∧
        0 < (dfsResult g
          (translatePartial g V (split_virtual_address g V (g.TABLES_DEPTH + 1)) k
            g.TABLES_DEPTH 0 s).2 V
          (translatePartial g V (split_virtual_address g V (g.TABLES_DEPTH + 1)) k
            g.TABLES_DEPTH 0 s).1).maxDist)) := by
  obtain ⟨vm, hI⟩ := reachable_inv g hg hTD hNF s hs
  obtain ⟨hI2, hcur, hπ⟩ := call_site_spec g hg hNF s vm hI V hV k hk hmiss
  obtain ⟨hD, _⟩ := findFrame_spec g hg hNF _ vm hI2 V hV k _ _ hcur hk hπ
  have hpos := hD.nf_pos
  refine ⟨?_, by omega, hpos, hD.nf_lt, ?_⟩
  · rw [translatePartial_succ g V _ k g.TABLES_DEPTH hk 0 s,
      translateStep_miss g _ V _ (g.TABLES_DEPTH - k) _ hmiss]
  · by_cases h1 : (dfsResult g
        (translatePartial g V (split_virtual_address g V (g.TABLES_DEPTH + 1)) k
          g.TABLES_DEPTH 0 s).2 V
        (translatePartial g V (split_virtual_address g V (g.TABLES_DEPTH + 1)) k
          g.TABLES_DEPTH 0 s).1).emptyFrame ≠ 0
    · exact Or.inl h1
    · by_cases h2 : (dfsResult g
          (translatePartial g V (split_virtual_address g V (g.TABLES_DEPTH + 1)) k
            g.TABLES_DEPTH 0 s).2 V
          (translatePartial g V (split_virtual_address g V (g.TABLES_DEPTH + 1)) k
            g.TABLES_DEPTH 0 s).1).maxFrame + 1 < (g.NUM_FRAMES : Int)
      · exact Or.inr (Or.inl h2)
      · by_cases h3 : (dfsResult g
            (translatePartial g V (split_virtual_address g V (g.TABLES_DEPTH + 1)) k
              g.TABLES_DEPTH 0 s).2 V
            (translatePartial g V (split_virtual_address g V (g.TABLES_DEPTH + 1)) k
              g.TABLES_DEPTH 0 s).1).maxDistFrame ≠ 0
        · exact Or.inr (Or.inr ⟨h3, dfsResult_victim_pos g _ V _ (not_not.mp h1) h3⟩)
        · rw [findFrame_eq, if_neg h1, if_neg h2, if_neg h3] at hpos
          simp at hpos

theorem findFrame_never_fails_witness :
    (findFrame exampleGeometry
        (translatePartial exampleGeometry 0x1234
          (split_virtual_address exampleGeometry 0x1234 (exampleGeometry.TABLES_DEPTH + 1)) 2
          exampleGeometry.TABLES_DEPTH 0 ( VMinitialize exampleGeometry zeroState)).2 0x1234
        (translatePartial exampleGeometry 0x1234
          (split_virtual_address exampleGeometry 0x1234 (exampleGeometry.TABLES_DEPTH + 1)) 2
          exampleGeometry.TABLES_DEPTH 0 ( VMinitialize exampleGeometry zeroState)).1).1 ≠ -1 :=
  (findFrame_never_fails exampleGeometry (by decide) (by decide) (by decide) _
    (ReachableState.init zeroState) 0x1234 (by decide) 2 (by decide) (by decide)).2.1

/-- The path is spared, on a geometry that fits a `word_t` (`Geometry.Fits`) with
`TABLES_DEPTH ≥ 1`: in every reachable state `s` (of a geometry with
`NUM_FRAMES ≥ TABLES_DEPTH + 1`),
for every in-range address `V` and every iteration of the loop of `translate(V)` that
finds a zero link after `k` iterations, `frameEvict` is the frame of depth `k` on the path of
the page of `V`, and the frame returned by the call `findFrame(V, frameEvict)` of that
iteration differs from `frameEvict` and from every frame on the path from frame 0 to
`frameEvict`, whichever of the three cases applies; all these frames are still on that
path of the tree after the call. -/
theorem findFrame_spares_path (g : Geometry) (hg : g.Fits) (hTD : 1 ≤ g.TABLES_DEPTH)
    (hNF : g.TABLES_DEPTH + 1 ≤ g.NUM_FRAMES) (s : State) (hs : ReachableState g s)
    (V : Nat) (hV : V < g.VIRTUAL_MEMORY_SIZE) (k : Nat) (hk : k < g.TABLES_DEPTH)
    (hmiss : PMread
      (translatePartial g V (split_virtual_address g V (g.TABLES_DEPTH + 1)) k
        g.TABLES_DEPTH 0 s).2
      (toU64 ((translatePartial g V (split_virtual_address g V (g.TABLES_DEPTH + 1)) k
          g.TABLES_DEPTH 0 s).1 * (g.PAGE_SIZE : Int)
        + (((split_virtual_address g V (g.TABLES_DEPTH + 1)).getD
            (g.TABLES_DEPTH - k) 0 : Nat) : Int))) = 0) :
    Tree g (translatePartial g V (split_virtual_address g V (g.TABLES_DEPTH + 1)) k
        g.TABLES_DEPTH 0 s).2 k
      ((V >>> g.OFFSET_WIDTH) / g.PAGE_SIZE ^ (g.TABLES_DEPTH - k))
      (translatePartial g V (split_virtual_address g V (g.TABLES_DEPTH + 1)) k
        g.TABLES_DEPTH 0 s).1 ∧
    (findFrame g
        (translatePartial g V (split_virtual_address g V (g.TABLES_DEPTH + 1)) k
          g.TABLES_DEPTH 0 s).2 V
        (translatePartial g V (split_virtual_address g V (g.TABLES_DEPTH + 1)) k
          g.TABLES_DEPTH 0 s).1).1
      ≠ (translatePartial g V (split_virtual_address g V (g.TABLES_DEPTH + 1)) k
          g.TABLES_DEPTH 0 s).1 ∧
    ∀ d f, d ≤ k →
      Tree g (translatePartial g V (split_virtual_address g V (g.TABLES_DEPTH + 1)) k
          g.TABLES_DEPTH 0 s).2 d
        ((V >>> g.OFFSET_WIDTH) / g.PAGE_SIZE ^ (g.TABLES_DEPTH - d)) f →
      (findFrame g
          (translatePartial g V (split_virtual_address g V (g.TABLES_DEPTH + 1)) k
            g.TABLES_DEPTH 0 s).2 V
          (translatePartial g V (split_virtual_address g V (g.TABLES_DEPTH + 1)) k
            g.TABLES_DEPTH 0 s).1).1 ≠ f ∧
      Tree g (findFrame g
          (translatePartial g V (split_virtual_address g V (g.TABLES_DEPTH + 1)) k
            g.TABLES_DEPTH 0 s).2 V
          (translatePartial g V (split_virtual_address g V (g.TABLES_DEPTH + 1)) k
            g.TABLES_DEPTH 0 s).1).2 d
        ((V >>> g.OFFSET_WIDTH) / g.PAGE_SIZE ^ (g.TABLES_DEPTH - d)) f := by
  obtain ⟨vm, hI⟩ := reachable_inv g hg hTD hNF s hs
  obtain ⟨hI2, hcur, hπ⟩ := call_site_spec g hg hNF s vm hI V hV k hk hmiss
  obtain ⟨hD, hsub, hcur2, _⟩ := findFrame_spec g hg hNF _ vm hI2 V hV k _ _ hcur hk hπ
  have hpath : ∀ d f, d ≤ k →
      Tree g (translatePartial g V (split_virtual_address g V (g.TABLES_DEPTH + 1)) k
          g.TABLES_DEPTH 0 s).2 d
        ((V >>> g.OFFSET_WIDTH) / g.PAGE_SIZE ^ (g.TABLES_DEPTH - d)) f →
      Tree g (findFrame g
          (translatePartial g V (split_virtual_address g V (g.TABLES_DEPTH + 1)) k
            g.TABLES_DEPTH 0 s).2 V
          (translatePartial g V (split_virtual_address g V (g.TABLES_DEPTH + 1)) k
            g.TABLES_DEPTH 0 s).1).2 d
        ((V >>> g.OFFSET_WIDTH) / g.PAGE_SIZE ^ (g.TABLES_DEPTH - d)) f := by
    intro d f hd hT
    have e1 : d + (k - d) = k := by omega
    obtain ⟨f3, hT3⟩ := Tree.ancestor (k - d) (by rw [e1]; exact hcur2)
    have e2 : (V >>> g.OFFSET_WIDTH) / g.PAGE_SIZE ^ (g.TABLES_DEPTH - k)
        / g.PAGE_SIZE ^ (k - d)
        = (V >>> g.OFFSET_WIDTH) / g.PAGE_SIZE ^ (g.TABLES_DEPTH - d) := by
      rw [Nat.div_div_eq_div_mul, ← pow_add]
      congr 2
      omega
    rw [e2] at hT3
    have := Tree.frame_unique (hsub _ _ _ hT3) hT
    rw [← this]
    exact hT3
  refine ⟨hcur, ?_, ?_⟩
  · intro h
    apply hD.fresh k ((V >>> g.OFFSET_WIDTH) / g.PAGE_SIZE ^ (g.TABLES_DEPTH - k))
    rw [h]
    exact hcur2
  · intro d f hd hT
    refine ⟨?_, hpath d f hd hT⟩
    intro h
    apply hD.fresh d ((V >>> g.OFFSET_WIDTH) / g.PAGE_SIZE ^ (g.TABLES_DEPTH - d))
    rw [h]
    exact hpath d f hd hT

theorem findFrame_spares_path_witness :
    (findFrame exampleGeometry
        (translatePartial exampleGeometry 0x1234
          (split_virtual_address exampleGeometry 0x1234 (exampleGeometry.TABLES_DEPTH + 1)) 2
          exampleGeometry.TABLES_DEPTH 0 ( VMinitialize exampleGeometry zeroState)).2 0x1234
        (translatePartial exampleGeometry 0x1234
          (split_virtual_address exampleGeometry 0x1234 (exampleGeometry.TABLES_DEPTH + 1)) 2
          exampleGeometry.TABLES_DEPTH 0 ( VMinitialize exampleGeometry zeroState)).1).1
      ≠ (translatePartial exampleGeometry 0x1234
          (split_virtual_address exampleGeometry 0x1234 (exampleGeometry.TABLES_DEPTH + 1)) 2
          exampleGeometry.TABLES_DEPTH 0 ( VMinitialize exampleGeometry zeroState)).1 :=
  (findFrame_spares_path exampleGeometry (by decide) (by decide) (by decide) _
    (ReachableState.init zeroState) 0x1234 (by decide) 2 (by decide) (by decide)).2.1

/-- C16: evaluation of the code where frame allocation fails. In the geometry with
`OFFSET_WIDTH = 1`, `TABLES_DEPTH = 2` and `NUM_FRAMES = 2`, after `VMinitialize` on the
all-zero memory, the second iteration of the loop of `translate(0)` calls `findFrame`, which
returns `-1`; `translate` returns `-1`, and `VMread` and `VMwrite` nevertheless return 1,
after linking `-1` into the parent slot, restoring into frame `(uint64_t)(-1)` and (for
`VMwrite`) writing the word at the physical address `(uint64_t)(-1 * PAGE_SIZE)`. -/
theorem allocation_failure_ignored :
    (findFrame smallGeometry
      (translatePartial smallGeometry 0
        (split_virtual_address smallGeometry 0 (smallGeometry.TABLES_DEPTH + 1)) 1
        smallGeometry.TABLES_DEPTH 0 ( VMinitialize smallGeometry zeroState)).2 0
      (translatePartial smallGeometry 0
        (split_virtual_address smallGeometry 0 (smallGeometry.TABLES_DEPTH + 1)) 1
        smallGeometry.TABLES_DEPTH 0 ( VMinitialize smallGeometry zeroState)).1).1 = -1 ∧
    (translate smallGeometry ( VMinitialize smallGeometry zeroState) 0).1 = -1 ∧
    (VMread smallGeometry ( VMinitialize smallGeometry zeroState) 0 0).ret = 1 ∧
    (VMread smallGeometry ( VMinitialize smallGeometry zeroState) 0 0).state.log
      = [BackendOp.write 0 0, BackendOp.write 1 0, BackendOp.write 2 0, BackendOp.write 3 0,
          BackendOp.write 0 1, BackendOp.write 2 (-1),
          BackendOp.restore 18446744073709551615 0] ∧
    (VMwrite smallGeometry ( VMinitialize smallGeometry zeroState) 0 5).1 = 1 ∧
    (VMwrite smallGeometry ( VMinitialize smallGeometry zeroState) 0 5).2.log
      = [BackendOp.write 0 0, BackendOp.write 1 0, BackendOp.write 2 0, BackendOp.write 3 0,
          BackendOp.write 0 1, BackendOp.write 2 (-1),
          BackendOp.restore 18446744073709551615 0,
          BackendOp.write 18446744073709551614 5] := by
  refine ⟨by decide, by decide, by decide, by decide, by decide, by decide⟩

/-! ### Geometries whose page numbers exceed a `word_t`, and the degenerate depth -/

/-- C1: evaluation of the code on a geometry whose page numbers exceed a `word_t`. In
`deepGeometry` (`NUM_FRAMES = TABLES_DEPTH + 1`), after `VMinitialize` on the all-zero
memory and the in-range calls `VMwrite(0x200000005, 77)`, `VMwrite(5, 88)`, the call
`VMread(0x200000005)` returns 1 and yields 0, not 77: the page `2147483649` of the first
write was evicted under the sign-extended key `18446744071562067969` and is restored under
the key `2147483649`. -/
theorem deep_read_loses_write :
    deepGeometry.TABLES_DEPTH + 1 ≤ deepGeometry.NUM_FRAMES ∧
    (∀ c ∈ [Call.write 0x200000005 77, Call.write 5 88],
      c.addr < deepGeometry.VIRTUAL_MEMORY_SIZE) ∧
    lastWrite [Call.write 0x200000005 77, Call.write 5 88] 0x200000005 = some 77 ∧
    (VMread deepGeometry
      (run deepGeometry ( VMinitialize deepGeometry zeroState)
        [Call.write 0x200000005 77, Call.write 5 88]) 0x200000005 0).ret = 1 ∧
    (VMread deepGeometry
      (run deepGeometry ( VMinitialize deepGeometry zeroState)
        [Call.write 0x200000005 77, Call.write 5 88]) 0x200000005 0).value = 0 ∧
    BackendOp.evict 16 18446744071562067969 ∈
      (run deepGeometry ( VMinitialize deepGeometry zeroState)
        [Call.write 0x200000005 77, Call.write 5 88]).log ∧
    BackendOp.restore 16 2147483649 ∈
      (VMread deepGeometry
        (run deepGeometry ( VMinitialize deepGeometry zeroState)
          [Call.write 0x200000005 77, Call.write 5 88]) 0x200000005 0).state.log := by
  refine ⟨by decide, by decide, by decide, ?_⟩
  decide!

/-- C3: evaluation of the code on a geometry whose page numbers exceed a `word_t`. In
`wideGeometry`, after `VMinitialize` on the all-zero memory with an empty swap, the in-range
`VMwrite((2^32 + 5) * 8 + 1, 77)` and `VMread(800)`, the call `VMread(41)` of the
never-written address 41 returns 1 and yields 77, not 0: the page `2^32 + 5` was evicted
under the truncated key 5 and is restored as page 5. -/
theorem wide_read_never_written :
    (∀ p, zeroState.swap p = none) ∧
    (∀ c ∈ [Call.write 34359738409 77, Call.read 800],
      c.addr < wideGeometry.VIRTUAL_MEMORY_SIZE) ∧
    41 < wideGeometry.VIRTUAL_MEMORY_SIZE ∧
    (∀ x, Call.write 41 x ∉ [Call.write 34359738409 77, Call.read 800]) ∧
    (VMread wideGeometry
      (run wideGeometry ( VMinitialize wideGeometry zeroState)
        [Call.write 34359738409 77, Call.read 800]) 41 0).ret = 1 ∧
    (VMread wideGeometry
      (run wideGeometry ( VMinitialize wideGeometry zeroState)
        [Call.write 34359738409 77, Call.read 800]) 41 0).value = 77 ∧
    BackendOp.evict 11 5 ∈
      (run wideGeometry ( VMinitialize wideGeometry zeroState)
        [Call.write 34359738409 77, Call.read 800]).log ∧
    BackendOp.restore 11 5 ∈
      (VMread wideGeometry
        (run wideGeometry ( VMinitialize wideGeometry zeroState)
          [Call.write 34359738409 77, Call.read 800]) 41 0).state.log := by
  refine ⟨fun _ => rfl, by decide, by decide, by simp, ?_⟩
  decide!

/-- C7: evaluation of the code on a geometry whose page numbers exceed a `word_t`. In
`wideGeometry`, after `VMinitialize` on the all-zero memory and the in-range calls
`VMwrite((2^31 + 3) * 8, 1)` and `VMread(0)`, the traversal from frame 0 meets frame 1
twice: slot 2 of frame 0 and slot 0 of the table frame 2 both hold 1. The allocation that
reclaimed the empty table 1 wrote its 0 into slot 6 of frame 0 instead of slot 2. -/
theorem wide_links_not_tree :
    ReachableState wideGeometry
      (run wideGeometry ( VMinitialize wideGeometry zeroState)
        [Call.write 17179869208 1, Call.read 0]) ∧
    (⟨1, 0, 2, 18446744071562067968, 1⟩ : Node) ∈ nodes wideGeometry
      (run wideGeometry ( VMinitialize wideGeometry zeroState)
        [Call.write 17179869208 1, Call.read 0]) ∧
    (⟨1, 2, 0, 0, 11⟩ : Node) ∈ nodes wideGeometry
      (run wideGeometry ( VMinitialize wideGeometry zeroState)
        [Call.write 17179869208 1, Call.read 0]) ∧
    PMread (run wideGeometry ( VMinitialize wideGeometry zeroState)
        [Call.write 17179869208 1, Call.read 0]) (slotAddr wideGeometry 0 2) = 1 ∧
    PMread (run wideGeometry ( VMinitialize wideGeometry zeroState)
        [Call.write 17179869208 1, Call.read 0]) (slotAddr wideGeometry 2 0) = 1 ∧
    BackendOp.write 6 0 ∈
      (run wideGeometry ( VMinitialize wideGeometry zeroState)
        [Call.write 17179869208 1, Call.read 0]).log := by
  refine ⟨ReachableState.read 0 0
    (ReachableState.write 17179869208 1 (ReachableState.init zeroState) (by decide))
    (by decide), ?_⟩
  decide!

/-- C8: evaluation of the code on a geometry whose page numbers exceed a `word_t`. In
`byteGeometry` with all nine frames in use and the pages `0x7FFFFFFF` and `0xC0000000`
resident, `findFrame` for the page `0x80000000` reaches case 3 and evicts the page
`0x7FFFFFFF`, at cyclic distance 1, although the page `0xC0000000` is at cyclic distance
`2^30`: the distances are taken on sign-extended values (`maxDist = 8589934591`). -/
theorem byte_evicts_nearest :
    walk byteGeometry twoLeafState
      (split_virtual_address byteGeometry (0x7FFFFFFF * 256) (byteGeometry.TABLES_DEPTH + 1))
      byteGeometry.TABLES_DEPTH 0 = some 4 ∧
    walk byteGeometry twoLeafState
      (split_virtual_address byteGeometry (0xC0000000 * 256) (byteGeometry.TABLES_DEPTH + 1))
      byteGeometry.TABLES_DEPTH 0 = some 8 ∧
    (0x80000000 * 256) >>> byteGeometry.OFFSET_WIDTH = 0x80000000 ∧
    0x80000000 * 256 < byteGeometry.VIRTUAL_MEMORY_SIZE ∧
    (dfsResult byteGeometry twoLeafState (0x80000000 * 256) 0).emptyFrame = 0 ∧
    ¬ (dfsResult byteGeometry twoLeafState (0x80000000 * 256) 0).maxFrame + 1
        < (byteGeometry.NUM_FRAMES : Int) ∧
    (dfsResult byteGeometry twoLeafState (0x80000000 * 256) 0).maxDist = 8589934591 ∧
    (findFrame byteGeometry twoLeafState (0x80000000 * 256) 0).1 = 4 ∧
    (findFrame byteGeometry twoLeafState (0x80000000 * 256) 0).2.log
      = [BackendOp.evict 4 0x7FFFFFFF, BackendOp.write 1023 0] ∧
    cyclicDist byteGeometry 0x80000000 0x7FFFFFFF = 1 ∧
    cyclicDist byteGeometry 0x80000000 0xC0000000 = 2 ^ 30 := by
  decide!

/-- C9: evaluation of the code on a geometry whose page numbers exceed a `word_t`. In
`wideGeometry`, in the state where slot 2 of frame 0 links the all-zero table frame 1,
`findFrame` returns frame 1 (case 1), but its only write is of 0 into slot 6 of frame 0: the
parent slot that references the returned frame, slot 2, still holds 1 after the call. -/
theorem wide_unlinks_wrong_slot :
    (⟨1, 0, 2, 18446744071562067968, 1⟩ : Node) ∈ nodes wideGeometry highTableState ∧
    EmptyTable wideGeometry highTableState 1 ∧
    PMread highTableState (slotAddr wideGeometry 0 2) = 1 ∧
    (findFrame wideGeometry highTableState 0 0).1 = 1 ∧
    (findFrame wideGeometry highTableState 0 0).2.log = [BackendOp.write 6 0] ∧
    slotAddr wideGeometry 0 2 = 2 ∧
    PMread (findFrame wideGeometry highTableState 0 0).2 (slotAddr wideGeometry 0 2) = 1 := by
  decide!

/-- C12: evaluation of the code on a geometry whose page numbers exceed a `word_t`. In
`byteGeometrySmall` with all five frames in use and the page `2147483649` resident in the
leaf frame 4, `findFrame` evicts that leaf (case 3) under the sign-extended key
`18446744071562067969`: after the call the swap store has no entry for the page
`2147483649`. -/
theorem byte_evicts_wrong_key :
    walk byteGeometrySmall highLeafState
      (split_virtual_address byteGeometrySmall (2147483649 * 256)
        (byteGeometrySmall.TABLES_DEPTH + 1))
      byteGeometrySmall.TABLES_DEPTH 0 = some 4 ∧
    (dfsResult byteGeometrySmall highLeafState 0 0).emptyFrame = 0 ∧
    ¬ (dfsResult byteGeometrySmall highLeafState 0 0).maxFrame + 1
        < (byteGeometrySmall.NUM_FRAMES : Int) ∧
    (findFrame byteGeometrySmall highLeafState 0 0).1 = 4 ∧
    (findFrame byteGeometrySmall highLeafState 0 0).2.log
      = [BackendOp.evict 4 18446744071562067969, BackendOp.write 769 0] ∧
    (findFrame byteGeometrySmall highLeafState 0 0).2.swap 2147483649 = none ∧
    ((findFrame byteGeometrySmall highLeafState 0 0).2.swap 18446744071562067969).map
      (fun l => l.take 2) = some [7, 0] := by
  decide!

/-- C13: evaluation of the code on a geometry whose page numbers exceed a `word_t`. In
`wideGeometry` (`NUM_FRAMES = TABLES_DEPTH + 1`), in the reachable state after
`VMinitialize` and an in-range `VMwrite` to the page `2^32 + 5`, the first iteration of the
loop of `translate(41)` finds a zero link and calls `findFrame`, which ends in the failure
branch and returns `-1`: no empty table is recorded, `maxFrame + 1 = NUM_FRAMES`, and no
victim is recorded because the resident page `2^32 + 5` is held as page 5, at distance 0
from the page 5 of the address. -/
theorem wide_findFrame_fails :
    ReachableState wideGeometry wideState ∧
    wideGeometry.TABLES_DEPTH + 1 ≤ wideGeometry.NUM_FRAMES ∧
    41 < wideGeometry.VIRTUAL_MEMORY_SIZE ∧
    PMread
      (translatePartial wideGeometry 41
        (split_virtual_address wideGeometry 41 (wideGeometry.TABLES_DEPTH + 1)) 0
        wideGeometry.TABLES_DEPTH 0 wideState).2
      (toU64 ((translatePartial wideGeometry 41
          (split_virtual_address wideGeometry 41 (wideGeometry.TABLES_DEPTH + 1)) 0
          wideGeometry.TABLES_DEPTH 0 wideState).1 * (wideGeometry.PAGE_SIZE : Int)
        + (((split_virtual_address wideGeometry 41 (wideGeometry.TABLES_DEPTH + 1)).getD
            (wideGeometry.TABLES_DEPTH - 0) 0 : Nat) : Int))) = 0 ∧
    (findFrame wideGeometry
      (translatePartial wideGeometry 41
        (split_virtual_address wideGeometry 41 (wideGeometry.TABLES_DEPTH + 1)) 0
        wideGeometry.TABLES_DEPTH 0 wideState).2 41
      (translatePartial wideGeometry 41
        (split_virtual_address wideGeometry 41 (wideGeometry.TABLES_DEPTH + 1)) 0
        wideGeometry.TABLES_DEPTH 0 wideState).1).1 = -1 ∧
    (dfsResult wideGeometry wideState 41 0).emptyFrame = 0 ∧
    (dfsResult wideGeometry wideState 41 0).maxFrame + 1 = (wideGeometry.NUM_FRAMES : Int) ∧
    (dfsResult wideGeometry wideState 41 0).maxDistFrame = 0 ∧
    (leaves wideGeometry wideState).map (fun n => n.pagePath) = [5] ∧
    (translate wideGeometry wideState 41).1 = -1 := by
  refine ⟨ReachableState.write 34359738409 77 (ReachableState.init zeroState) (by decide),
    by decide, by decide, ?_⟩
  decide!

end VirtualMemory
